import Mathlib

/-!
# Binary search tree container (`binary_search_tree.h`)

A shallow embedding of the pointer-based `BinarySearchTree<T>` container.

* Nodes live in a node store (`Heap`): a list of cells indexed by address.  `new`
  appends a cell, `delete` blanks a cell, a pointer is an `Option Nat`
  (`none` is `nullptr`).
* Every operation that dereferences a pointer returns `Option`: `none` stands
  for an execution without a defined result (dereferencing a null or deleted
  pointer, or a loop that exhausts its fuel).
* Each container owns its nodes, so each container value carries its own store;
  the methods are verified on such a container.  Several containers whose nodes
  lie in one store are a `World`; the locality lemmas show that a method runs in
  the same way when the store holds other nodes as well, and leaves them alone.
* The element type `T` is any linearly ordered type (`operator<` and
  `operator==` of the C++ template parameter); `int size_` is an unbounded `Int`.
-/

set_option autoImplicit false

namespace BST

/-! ## Node store -/

/-- The record `TreeNode`: a value and the three pointers `left_`, `right_`, `parent_`. -/
structure TreeNode (T : Type) where
  value_ : T
  left_ : Option Nat
  right_ : Option Nat
  parent_ : Option Nat
deriving DecidableEq

/-- The method `TreeNode::IsLeaf`. -/
def TreeNode.IsLeaf {T : Type} (n : TreeNode T) : Bool :=
  n.left_ == none && n.right_ == none

/-- The node store: cell `a` holds `some n` while the node at address `a` is live. -/
abbrev Heap (T : Type) := List (Option (TreeNode T))

/-- Dereference: the node at address `a`, or `none` when `a` is not a live node. -/
def Heap.get {T : Type} (h : Heap T) (a : Nat) : Option (TreeNode T) :=
  h.getD a none

/-- The expression `new TreeNode(value)`: a fresh address and the extended store. -/
def Heap.alloc {T : Type} (h : Heap T) (value : T) : Nat × Heap T :=
  (h.length, h ++ [some ⟨value, none, none, none⟩])

/-- The statement `delete p`. -/
def Heap.free {T : Type} (h : Heap T) (a : Nat) : Heap T :=
  h.set a none

/-- A field assignment through the pointer `a`; undefined when `a` is not live. -/
def Heap.modify {T : Type} (h : Heap T) (a : Nat) (f : TreeNode T → TreeNode T) :
    Option (Heap T) :=
  match h.get a with
  | some n => some (h.set a (some (f n)))
  | none => none

/-- The assignment `p->left_ = x`. -/
def Heap.setLeft {T : Type} (h : Heap T) (p : Nat) (x : Option Nat) : Option (Heap T) :=
  h.modify p (fun n => { n with left_ := x })

/-- The assignment `p->right_ = x`. -/
def Heap.setRight {T : Type} (h : Heap T) (p : Nat) (x : Option Nat) : Option (Heap T) :=
  h.modify p (fun n => { n with right_ := x })

/-- The assignment `p->parent_ = x`. -/
def Heap.setParent {T : Type} (h : Heap T) (p : Nat) (x : Option Nat) : Option (Heap T) :=
  h.modify p (fun n => { n with parent_ := x })

/-- The recurring statement
`if (p->left_ == node) { p->left_ = x; } else { p->right_ = x; }`. -/
def Heap.relink {T : Type} (h : Heap T) (p node : Nat) (x : Option Nat) : Option (Heap T) :=
  match h.get p with
  | some pn => if pn.left_ = some node then h.setLeft p x else h.setRight p x
  | none => none

/-- The statement `if (q != nullptr) { q->parent_ = x; }` for a pointer `q`. -/
def Heap.setParentIfSome {T : Type} (h : Heap T) (q : Option Nat) (x : Option Nat) :
    Option (Heap T) :=
  match q with
  | none => some h
  | some a => h.setParent a x

/-- The statement
`if (node->parent_ != nullptr) { if (node->parent_->left_ == node) ... = x; else ... = x; }`. -/
def Heap.relinkParent {T : Type} (h : Heap T) (node : Nat) (x : Option Nat) : Option (Heap T) := do
  let n ← h.get node
  match n.parent_ with
  | none => some h
  | some p => h.relink p node x

/-- The statement `dst->left_ = src->left_`. -/
def Heap.copyLeft {T : Type} (mem : Heap T) (dst src : Nat) : Option (Heap T) :=
  (mem.get src).bind fun n => mem.setLeft dst n.left_

/-- The statement `dst->right_ = src->right_`. -/
def Heap.copyRight {T : Type} (mem : Heap T) (dst src : Nat) : Option (Heap T) :=
  (mem.get src).bind fun n => mem.setRight dst n.right_

/-- The statement `dst->parent_ = src->parent_`. -/
def Heap.copyParent {T : Type} (mem : Heap T) (dst src : Nat) : Option (Heap T) :=
  (mem.get src).bind fun n => mem.setParent dst n.parent_

/-- The statement `if (node->left_ != nullptr) { node->left_->parent_ = x; }`. -/
def Heap.adoptLeft {T : Type} (mem : Heap T) (node x : Nat) : Option (Heap T) :=
  (mem.get node).bind fun n => mem.setParentIfSome n.left_ (some x)

/-- The statement `if (node->right_ != nullptr) { node->right_->parent_ = x; }`. -/
def Heap.adoptRight {T : Type} (mem : Heap T) (node x : Nat) : Option (Heap T) :=
  (mem.get node).bind fun n => mem.setParentIfSome n.right_ (some x)

/-- The statement `next_node->parent_->left_ = next_node->right_`. -/
def Heap.bypassLeft {T : Type} (mem : Heap T) (next_node : Nat) : Option (Heap T) :=
  (mem.get next_node).bind fun s => s.parent_.bind fun np => mem.setLeft np s.right_

/-- The statement
`if (next_node->right_ != nullptr) { next_node->right_->parent_ = next_node->parent_; }`. -/
def Heap.reparentRight {T : Type} (mem : Heap T) (next_node : Nat) : Option (Heap T) :=
  (mem.get next_node).bind fun s => mem.setParentIfSome s.right_ s.parent_

/-- The loop `while (tmp->left_ != nullptr) { tmp = tmp->left_; }` (in `begin`,
`Next` and `erase`). -/
def descendLeft {T : Type} : Nat → Heap T → Nat → Option Nat
  | 0, _, _ => none
  | fuel + 1, mem, tmp =>
    match mem.get tmp with
    | none => none
    | some n =>
      match n.left_ with
      | none => some tmp
      | some l => descendLeft fuel mem l

/-! ## The container -/

/-- The class `BinarySearchTree<T>`: the node store it owns, `root_` and `size_`. -/
structure BinarySearchTree (T : Type) where
  mem : Heap T
  root_ : Option Nat
  size_ : Int
deriving DecidableEq

/-- The iterator `ConstIterator`; its container (`tree_`) is passed explicitly to
every operation that needs it. -/
structure ConstIterator where
  current_node_ : Option Nat
deriving DecidableEq

namespace BinarySearchTree

variable {T : Type}

/-- The default constructor `BinarySearchTree()`. -/
def fresh : BinarySearchTree T := ⟨[], none, 0⟩

/-- The getter `size()`. -/
def size (c : BinarySearchTree T) : Int := c.size_

/-- The getter `empty()`. -/
def empty (c : BinarySearchTree T) : Bool := c.size_ == 0

/-- Bound on the number of iterations of any pointer-chasing loop over the store. -/
def fuel (c : BinarySearchTree T) : Nat := c.mem.length + 1

/-- The method `end()`. -/
def «end» (_c : BinarySearchTree T) : ConstIterator := ⟨none⟩

/-- The method `begin()`. -/
def begin (c : BinarySearchTree T) : Option ConstIterator :=
  match c.root_ with
  | none => some ⟨none⟩
  | some r => (descendLeft c.fuel c.mem r).map (fun a => ⟨some a⟩)

section Ordered

variable [LinearOrder T]

/-- The `while (true)` loop of `InsertNode`. -/
def InsertNode.descend (node : Nat) : Nat → Heap T → Nat → Option (Heap T)
  | 0, _, _ => none
  | fuel + 1, mem, future_parent =>
    match mem.get node, mem.get future_parent with
    | some nd, some fp =>
      if nd.value_ < fp.value_ then
        match fp.left_ with
        | none => (mem.setLeft future_parent (some node)).bind
            (fun m => m.setParent node (some future_parent))
        | some l => InsertNode.descend node fuel mem l
      else
        match fp.right_ with
        | none => (mem.setRight future_parent (some node)).bind
            (fun m => m.setParent node (some future_parent))
        | some r => InsertNode.descend node fuel mem r
    | _, _ => none

/-- The method `InsertNode`. -/
def InsertNode (c : BinarySearchTree T) (node : Nat) : Option (BinarySearchTree T) :=
  match c.root_ with
  | none => some { c with root_ := some node, size_ := c.size_ + 1 }
  | some r =>
    (InsertNode.descend node c.fuel c.mem r).map
      (fun m => { c with mem := m, size_ := c.size_ + 1 })

/-- The method `insert(value)`. -/
def insert (c : BinarySearchTree T) (value : T) : Option (BinarySearchTree T) :=
  InsertNode { c with mem := (c.mem.alloc value).2 } (c.mem.alloc value).1

/-- The method `emplace(args...)`; `value` is the element constructed from `args`. -/
def emplace (c : BinarySearchTree T) (value : T) : Option (BinarySearchTree T) :=
  InsertNode { c with mem := (c.mem.alloc value).2 } (c.mem.alloc value).1

/-- The loop of `find`. -/
def find.loop (value : T) : Nat → Heap T → Option Nat → Option (Option Nat)
  | 0, _, _ => none
  | _ + 1, _, none => some none
  | fuel + 1, mem, some tmp =>
    match mem.get tmp with
    | none => none
    | some n =>
      if n.value_ < value then find.loop value fuel mem n.right_
      else if n.value_ = value then some (some tmp)
      else find.loop value fuel mem n.left_

/-- The method `find(value)`. -/
def find (c : BinarySearchTree T) (value : T) : Option ConstIterator :=
  (find.loop value c.fuel c.mem c.root_).map (fun p => ⟨p⟩)

/-- The method `contains(value)`: `end() != find(value)`. -/
def contains (c : BinarySearchTree T) (value : T) : Option Bool :=
  (c.find value).map (fun it => decide (c.end ≠ it))

/-- The loop of `count`. -/
def count.loop (value : T) : Nat → Heap T → Option Nat → Int → Option Int
  | 0, _, _, _ => none
  | _ + 1, _, none, count => some count
  | fuel + 1, mem, some tmp, count =>
    match mem.get tmp with
    | none => none
    | some n =>
      if n.value_ < value then count.loop value fuel mem n.right_ count
      else if n.value_ = value then count.loop value fuel mem n.right_ (count + 1)
      else count.loop value fuel mem n.left_ count

/-- The method `count(value)`. -/
def count (c : BinarySearchTree T) (value : T) : Option Int :=
  count.loop value c.fuel c.mem c.root_ 0

end Ordered


/-! ## Iteration -/

/-- The climbing loop of `ConstIterator::Next`:
`while (tmp_parent != nullptr && tmp_parent->right_ == tmp)`. -/
def Next.climb : Nat → Heap T → Nat → Option Nat → Option (Option Nat)
  | 0, _, _, _ => none
  | _ + 1, _, _, none => some none
  | fuel + 1, mem, tmp, some tmp_parent =>
    match mem.get tmp_parent with
    | none => none
    | some pn =>
      if pn.right_ = some tmp then Next.climb fuel mem tmp_parent pn.parent_
      else some (some tmp_parent)

/-- The method `ConstIterator::Next` of an iterator into container `c`. -/
def Next (c : BinarySearchTree T) (it : ConstIterator) : Option (Option Nat) :=
  match it.current_node_ with
  | none => none
  | some tmp =>
    match c.mem.get tmp with
    | none => none
    | some n =>
      match n.right_ with
      | none => Next.climb c.fuel c.mem tmp n.parent_
      | some r => (descendLeft c.fuel c.mem r).map some

/-- The increment `operator++` of an iterator into container `c`. -/
def incr (c : BinarySearchTree T) (it : ConstIterator) : Option ConstIterator :=
  (c.Next it).map (fun p => ⟨p⟩)

/-- The dereference `operator*` of an iterator into container `c`. -/
def deref (c : BinarySearchTree T) (it : ConstIterator) : Option T :=
  match it.current_node_ with
  | none => none
  | some a => (c.mem.get a).map (fun n => n.value_)

/-- The loop of `to_vector`: `for (auto i = begin(); i != end(); i++) push_back(*i)`. -/
def to_vector.loop (c : BinarySearchTree T) : Nat → ConstIterator → List T → Option (List T)
  | 0, _, _ => none
  | fuel + 1, i, result =>
    if i = c.end then some result
    else
      match c.deref i, c.incr i with
      | some v, some j => to_vector.loop c fuel j (result ++ [v])
      | _, _ => none

/-- The method `to_vector()`. -/
def to_vector (c : BinarySearchTree T) : Option (List T) :=
  match c.begin with
  | none => none
  | some i => to_vector.loop c c.fuel i []

/-! ## Deletion -/

/-- The method `DeleteLeaf`. -/
def DeleteLeaf (c : BinarySearchTree T) (leaf_to_erase : Option Nat) :
    Option (BinarySearchTree T) :=
  match leaf_to_erase with
  | none => some c
  | some leaf =>
    match c.mem.get leaf with
    | none => none
    | some n =>
      let detached : Option (BinarySearchTree T) :=
        match n.parent_ with
        | some p => (c.mem.relink p leaf none).map (fun m => { c with mem := m })
        | none => some { c with root_ := none }
      detached.map (fun d => { d with mem := d.mem.free leaf, size_ := d.size_ - 1 })

/-- The method `DeleteSubtree`; `fuel` bounds the recursion depth. -/
def DeleteSubtree : Nat → BinarySearchTree T → Option Nat → Option (BinarySearchTree T)
  | 0, _, _ => none
  | _ + 1, c, none => some c
  | fuel + 1, c, some node =>
    match c.mem.get node with
    | none => none
    | some n =>
      match DeleteSubtree fuel c n.left_ with
      | none => none
      | some c1 =>
        match c1.mem.get node with
        | none => none
        | some n1 =>
          match DeleteSubtree fuel c1 n1.right_ with
          | none => none
          | some c2 => c2.DeleteLeaf (some node)

/-- One branch of `DeleteNodeWithOneChild`: the child selected by `child` (the
field `left_` in the first branch, `right_` in the second) takes the place of
`node_to_erase`. -/
def DeleteNodeWithOneChild.promote (c : BinarySearchTree T) (node_to_erase : Nat)
    (child : TreeNode T → Option Nat) : Option (BinarySearchTree T) := do
  let n ← c.mem.get node_to_erase
  let ch ← child n
  let m ← c.mem.setParent ch n.parent_
  let n1 ← m.get node_to_erase
  match n1.parent_ with
  | none => some { c with mem := m, root_ := child n1 }
  | some p => (m.relink p node_to_erase (child n1)).map (fun m2 => { c with mem := m2 })

/-- The method `DeleteNodeWithOneChild`. -/
def DeleteNodeWithOneChild (c : BinarySearchTree T) (node_to_erase : Nat) :
    Option (BinarySearchTree T) := do
  let n ← c.mem.get node_to_erase
  let d ←
    if n.right_ = none then DeleteNodeWithOneChild.promote c node_to_erase (fun x => x.left_)
    else if n.left_ = none then
      DeleteNodeWithOneChild.promote c node_to_erase (fun x => x.right_)
    else some c
  some { d with mem := d.mem.free node_to_erase, size_ := d.size_ - 1 }

/-- The branch `next_node->parent_ == node_to_erase` of `erase(ConstIterator)`:
its four pointer statements in source order. -/
def erase.spliceChild (mem : Heap T) (node_to_erase next_node : Nat) : Option (Heap T) :=
  (mem.copyLeft next_node node_to_erase).bind fun m1 =>
  (m1.copyParent next_node node_to_erase).bind fun m2 =>
  (m2.relinkParent node_to_erase (some next_node)).bind fun m3 =>
  m3.adoptLeft node_to_erase next_node

/-- The other branch (`next_node` lies deeper in the right subtree) of
`erase(ConstIterator)`: its eight pointer statements in source order. -/
def erase.spliceDeep (mem : Heap T) (node_to_erase next_node : Nat) : Option (Heap T) :=
  (mem.bypassLeft next_node).bind fun m1 =>
  (m1.reparentRight next_node).bind fun m2 =>
  (m2.copyParent next_node node_to_erase).bind fun m3 =>
  (m3.relinkParent node_to_erase (some next_node)).bind fun m4 =>
  (m4.copyRight next_node node_to_erase).bind fun m5 =>
  (m5.copyLeft next_node node_to_erase).bind fun m6 =>
  (m6.adoptRight node_to_erase next_node).bind fun m7 =>
  m7.adoptLeft node_to_erase next_node

/-- The two-children branch of `erase(ConstIterator)`, up to `delete node_to_erase`:
the successor search, one of the two splices, and the update of `root_`. -/
def erase.splice (c : BinarySearchTree T) (node_to_erase : Nat) :
    Option (BinarySearchTree T) :=
  (c.mem.get node_to_erase).bind fun n =>
  n.right_.bind fun r =>
  (descendLeft c.fuel c.mem r).bind fun next_node =>
  (c.mem.get next_node).bind fun nn =>
  ((if nn.parent_ = some node_to_erase then erase.spliceChild c.mem node_to_erase next_node
    else erase.spliceDeep c.mem node_to_erase next_node)).map fun m =>
  { c with mem := m,
           root_ := if some node_to_erase = c.root_ then some next_node else c.root_ }

/-- The method `erase(ConstIterator)`. -/
def erase (c : BinarySearchTree T) (iterator : ConstIterator) :
    Option (BinarySearchTree T) :=
  match iterator.current_node_ with
  | none => some c
  | some node_to_erase =>
    match c.mem.get node_to_erase with
    | none => none
    | some n =>
      if n.IsLeaf then c.DeleteLeaf (some node_to_erase)
      else if n.right_ = none ∨ n.left_ = none then c.DeleteNodeWithOneChild node_to_erase
      else
        (erase.splice c node_to_erase).map
          (fun d => { d with mem := d.mem.free node_to_erase, size_ := d.size_ - 1 })

/-- The method `erase(const T&)`. -/
def eraseValue [LinearOrder T] (c : BinarySearchTree T) (value : T) :
    Option (BinarySearchTree T) :=
  match c.find value with
  | none => none
  | some iterator => if iterator ≠ c.end then c.erase iterator else some c

/-! ## Copying -/

/-- The method `CopySubtree` of the destination `c`, reading the source store `src`;
`fuel` bounds the recursion depth.  The parameter `first` of the C++ method is
overwritten before it is read and is left out. -/
def CopySubtree (src : Heap T) :
    Nat → BinarySearchTree T → Option Nat → Option Nat → Int → Option (BinarySearchTree T)
  | 0, _, _, _, _ => none
  | _ + 1, c, _, none, _ => some c
  | fuel + 1, c, first_parent, some second, relation =>
    match src.get second with
    | none => none
    | some sn =>
      let first := (c.mem.alloc sn.value_).1
      let linked : Option (BinarySearchTree T) :=
        match (c.mem.alloc sn.value_).2.setParent first first_parent with
        | none => none
        | some m =>
          if relation = 0 then some { c with mem := m, root_ := some first }
          else
            match first_parent with
            | none => none
            | some fp =>
              if relation = -1 then (m.setLeft fp (some first)).map (fun m2 => { c with mem := m2 })
              else (m.setRight fp (some first)).map (fun m2 => { c with mem := m2 })
      match linked with
      | none => none
      | some c1 =>
        match CopySubtree src fuel c1 (some first) sn.left_ (-1) with
        | none => none
        | some c2 => CopySubtree src fuel c2 (some first) sn.right_ 1

/-- The copy assignment `this = rhs` for two distinct objects (`this != &rhs`). -/
def copyAssign (this rhs : BinarySearchTree T) : Option (BinarySearchTree T) := do
  let c1 ← DeleteSubtree this.fuel this this.root_
  let c2 ← CopySubtree rhs.mem rhs.fuel c1 none rhs.root_ 0
  some { c2 with size_ := rhs.size_ }

/-- The move assignment `this = std::move(rhs)` for two distinct objects: the new
`this` and the new `rhs`. -/
def moveAssign (this rhs : BinarySearchTree T) :
    Option (BinarySearchTree T × BinarySearchTree T) := do
  let c1 ← DeleteSubtree this.fuel this this.root_
  let c2 ← CopySubtree rhs.mem rhs.fuel c1 none rhs.root_ 0
  let r1 ← DeleteSubtree rhs.fuel rhs rhs.root_
  some ({ c2 with size_ := rhs.size_ }, r1)

/-- The initializer-list constructor: `insert` for each element in order. -/
def insertAll [LinearOrder T] (c : BinarySearchTree T) : List T → Option (BinarySearchTree T)
  | [] => some c
  | x :: xs => (c.insert x).bind (fun c1 => insertAll c1 xs)

/-- The constructor `BinarySearchTree(std::initializer_list<T>)`. -/
def ofList [LinearOrder T] (list : List T) : Option (BinarySearchTree T) :=
  insertAll fresh list

end BinarySearchTree

/-! ## Abstract trees

The shape of the pointer structure: a binary tree whose nodes carry their address
and their value.  `Rep` states that the store holds exactly this shape (child
pointers and parent back-references included). -/

/-- A binary tree of addressed values. -/
inductive Tree (T : Type) where
  | nil : Tree T
  | node (l : Tree T) (a : Nat) (v : T) (r : Tree T) : Tree T

namespace Tree

variable {T : Type}

/-- The pointer to the root of the tree. -/
def ptr : Tree T → Option Nat
  | nil => none
  | node _ a _ _ => some a

/-- The addresses in in-order (left subtree, node, right subtree). -/
def addrs : Tree T → List Nat
  | nil => []
  | node l a _ r => addrs l ++ a :: addrs r

/-- The values in in-order (left subtree, node, right subtree). -/
def values : Tree T → List T
  | nil => []
  | node l _ v r => values l ++ v :: values r

/-- The pairs of address and value in in-order. -/
def elems : Tree T → List (Nat × T)
  | nil => []
  | node l a v r => elems l ++ (a, v) :: elems r

/-- The number of nodes on the longest path from the root. -/
def height : Tree T → Nat
  | nil => 0
  | node l _ _ r => max (height l) (height r) + 1

/-- The store `mem` holds the tree, and the parent pointer of its root is `par`. -/
def Rep (mem : Heap T) : Tree T → Option Nat → Prop
  | nil, _ => True
  | node l a v r, par =>
    mem.get a = some ⟨v, l.ptr, r.ptr, par⟩ ∧ Rep mem l (some a) ∧ Rep mem r (some a)

/-- The BST order: left subtree strictly below the node, right subtree not below it. -/
def Ordered [LinearOrder T] : Tree T → Prop
  | nil => True
  | node l _ v r =>
    (∀ x ∈ l.values, x < v) ∧ (∀ x ∈ r.values, v ≤ x) ∧ Ordered l ∧ Ordered r

/-- The address of the leftmost node of `node l a _ _`. -/
def minAddr : Tree T → Nat → Nat
  | nil, a => a
  | node l a _ _, _ => minAddr l a

/-- The value of the leftmost node of `node l _ v _`. -/
def minVal : Tree T → T → T
  | nil, v => v
  | node l _ v _, _ => minVal l v

/-- The tree without its leftmost node, whose right subtree takes its place. -/
def delMin : Tree T → Tree T
  | nil => nil
  | node nil _ _ r => r
  | node (node ll la lv lr) a v r => node (delMin (node ll la lv lr)) a v r

/-- What `erase` puts in the place of a node with subtrees `l` and `r`. -/
def join : Tree T → Tree T → Tree T
  | nil, r => r
  | node ll la lv lr, nil => node ll la lv lr
  | node ll la lv lr, node rl ra rv rr =>
    node (node ll la lv lr) (minAddr rl ra) (minVal rl rv) (delMin (node rl ra rv rr))

/-- The tree after `InsertNode` attached the node at address `a` with value `v`. -/
def ins [LinearOrder T] : Tree T → Nat → T → Tree T
  | nil, a, v => node nil a v nil
  | node l b w r, a, v =>
    if v < w then node (ins l a v) b w r else node l b w (ins r a v)

/-- The result of the descent of `find`. -/
def findT [LinearOrder T] : Tree T → T → Option Nat
  | nil, _ => none
  | node l a w r, v =>
    if w < v then findT r v else if w = v then some a else findT l v

/-- The result of the descent of `count`. -/
def countT [LinearOrder T] : Tree T → T → Nat
  | nil, _ => 0
  | node l _ w r, v =>
    if w < v then countT r v else if w = v then countT r v + 1 else countT l v

end Tree

/-- One step of the path from a node up to the root: the parent `a` with value `v`
and the sibling subtree. `L`: the path comes from the left child; `R`: from the right. -/
inductive Frame (T : Type) where
  | L (a : Nat) (v : T) (r : Tree T) : Frame T
  | R (l : Tree T) (a : Nat) (v : T) : Frame T

/-- A tree with a hole: the frames from the hole up to the root. -/
abbrev Ctx (T : Type) := List (Frame T)

namespace Ctx

variable {T : Type}

/-- The tree obtained by putting `s` into the hole. -/
def plug : Ctx T → Tree T → Tree T
  | [], s => s
  | Frame.L a v r :: c, s => plug c (Tree.node s a v r)
  | Frame.R l a v :: c, s => plug c (Tree.node l a v s)

/-- The parent pointer of the hole; `top` is the parent pointer of the whole tree. -/
def par : Ctx T → Option Nat → Option Nat
  | [], top => top
  | Frame.L a _ _ :: _, _ => some a
  | Frame.R _ a _ :: _, _ => some a

/-- The root pointer of the plugged tree when the hole holds the pointer `h`. -/
def root : Ctx T → Option Nat → Option Nat
  | [], h => h
  | Frame.L a _ _ :: c, _ => root c (some a)
  | Frame.R _ a _ :: c, _ => root c (some a)

/-- The in-order elements before the hole. -/
def before : Ctx T → List (Nat × T)
  | [] => []
  | Frame.L _ _ _ :: c => before c
  | Frame.R l a v :: c => before c ++ (l.elems ++ [(a, v)])

/-- The in-order elements after the hole. -/
def after : Ctx T → List (Nat × T)
  | [] => []
  | Frame.L a v r :: c => ((a, v) :: r.elems) ++ after c
  | Frame.R _ _ _ :: c => after c

/-- The store holds the frames: `h` is the pointer in the hole, `top` the parent
pointer of the root. -/
def Rep (mem : Heap T) : Ctx T → Option Nat → Option Nat → Prop
  | [], _, _ => True
  | Frame.L a v r :: c, h, top =>
    mem.get a = some ⟨v, h, r.ptr, par c top⟩ ∧ r.Rep mem (some a) ∧ Rep mem c (some a) top
  | Frame.R l a v :: c, h, top =>
    mem.get a = some ⟨v, l.ptr, h, par c top⟩ ∧ l.Rep mem (some a) ∧ Rep mem c (some a) top

/-- Every frame is an `L` frame: the hole is on the left spine. -/
def AllL : Ctx T → Prop
  | [] => True
  | Frame.L _ _ _ :: c => AllL c
  | Frame.R _ _ _ :: _ => False

end Ctx

/-- The container `c` holds the tree `t`: `root_` points to it, the store represents
it with consistent parent pointers, no address occurs twice, `size_` is the number of
nodes, and every live cell of the store is a node of the tree. -/
structure Models {T : Type} (c : BinarySearchTree T) (t : Tree T) : Prop where
  root : c.root_ = t.ptr
  rep : t.Rep c.mem none
  nodup : t.addrs.Nodup
  size : c.size_ = t.addrs.length
  live : ∀ a, (c.mem.get a).isSome → a ∈ t.addrs

/-- The container is structurally consistent: its store holds some tree. -/
def WellFormed {T : Type} (c : BinarySearchTree T) : Prop := ∃ t, Models c t

/-- The container holds a tree that satisfies the BST order. -/
def IsBST {T : Type} [LinearOrder T] (c : BinarySearchTree T) : Prop :=
  ∃ t, Models c t ∧ t.Ordered

/-- The addresses of the frames of a context and of their sibling subtrees. -/
def Ctx.addrs {T : Type} : Ctx T → List Nat
  | [] => []
  | Frame.L a _ r :: c => a :: (r.addrs ++ Ctx.addrs c)
  | Frame.R l a _ :: c => a :: (l.addrs ++ Ctx.addrs c)

/-- The store `m2` has the same live cells as `m` and the same contents outside
the addresses listed in `S`. -/
def Heap.Agree {T : Type} (m m2 : Heap T) (S : List Nat) : Prop :=
  m2.length = m.length ∧ (∀ y, (m2.get y).isSome = (m.get y).isSome) ∧
    ∀ y, y ∉ S → m2.get y = m.get y

/-- The store `m2` has the same live cells as `m` and the same contents at every
address whose group number (given by `g`) is not listed in `K`. -/
def Heap.AgreeOn {T : Type} (g : Nat → Nat) (m m2 : Heap T) (K : List Nat) : Prop :=
  m2.length = m.length ∧ (∀ y, (m2.get y).isSome = (m.get y).isSome) ∧
    ∀ y, g y ∉ K → m2.get y = m.get y

/-- The situation at the start of the two-children branch of `erase`: the store
around the node `a` (context `ctx`, left subtree `l`) and around its in-order
successor `s` (context `cr` inside the right subtree of `a`, right subtree `sr`).
The function `g` numbers the six disjoint groups of addresses:
0 `ctx`, 1 `a`, 2 `l`, 3 `s`, 4 `sr`, 5 `cr`. -/
structure SpliceInv {T : Type} (mem : Heap T) (ctx : Ctx T) (l : Tree T) (a : Nat) (v : T)
    (cr : Ctx T) (s : Nat) (sv : T) (sr : Tree T) (g : Nat → Nat) : Prop where
  hA : mem.get a = some ⟨v, l.ptr, Ctx.root cr (some s), Ctx.par ctx none⟩
  hL : l.Rep mem (some a)
  hC : Ctx.Rep mem ctx (some a) none
  hS : mem.get s = some ⟨sv, none, sr.ptr, Ctx.par cr (some a)⟩
  hSR : sr.Rep mem (some s)
  hCR : Ctx.Rep mem cr (some s) (some a)
  ndl : l.addrs.Nodup
  ndsr : sr.addrs.Nodup
  ndcr : (Ctx.addrs cr).Nodup
  ndc : (Ctx.addrs ctx).Nodup
  col0 : ∀ x ∈ Ctx.addrs ctx, g x = 0
  col1 : g a = 1
  col2 : ∀ x ∈ l.addrs, g x = 2
  col3 : g s = 3
  col4 : ∀ x ∈ sr.addrs, g x = 4
  col5 : ∀ x ∈ Ctx.addrs cr, g x = 5

/-- The tree with every address replaced by `0`: its shape and its values. -/
def Tree.shape {T : Type} : Tree T → Tree T
  | Tree.nil => Tree.nil
  | Tree.node l _ v r => Tree.node (Tree.shape l) 0 v (Tree.shape r)

/-- The argument `relation` of `CopySubtree` that belongs to the hole of a context:
`0` at the root, `-1` for a left child, `1` for a right child. -/
def Ctx.relation {T : Type} : Ctx T → Int
  | [] => 0
  | Frame.L _ _ _ :: _ => -1
  | Frame.R _ _ _ :: _ => 1

/-- The container holds the tree `t`, except that `size_` is not looked at (during
`CopySubtree` the counter is stale). -/
def Shaped {T : Type} (c : BinarySearchTree T) (t : Tree T) : Prop :=
  Models ⟨c.mem, c.root_, t.addrs.length⟩ t

/-- An iterator that `erase` may be given: `end()` or a position at a live node. -/
def BinarySearchTree.LiveOrEnd {T : Type} (c : BinarySearchTree T) (it : ConstIterator) : Prop :=
  match it.current_node_ with
  | none => True
  | some a => (c.mem.get a).isSome

/-- The containers a program can reach from the empty container with `insert`,
`emplace`, `erase(value)`, `erase(iterator)` (at `end()` or at a live node), copy
assignment and move assignment (destination and drained source). -/
inductive Reachable {T : Type} [LinearOrder T] : BinarySearchTree T → Prop
  | fresh : Reachable BinarySearchTree.fresh
  | insert {c c2 : BinarySearchTree T} (v : T) :
      Reachable c → c.insert v = some c2 → Reachable c2
  | emplace {c c2 : BinarySearchTree T} (v : T) :
      Reachable c → c.emplace v = some c2 → Reachable c2
  | eraseValue {c c2 : BinarySearchTree T} (v : T) :
      Reachable c → c.eraseValue v = some c2 → Reachable c2
  | erase {c c2 : BinarySearchTree T} (it : ConstIterator) :
      Reachable c → c.LiveOrEnd it → c.erase it = some c2 → Reachable c2
  | copyAssign {c rhs c2 : BinarySearchTree T} :
      Reachable c → Reachable rhs → c.copyAssign rhs = some c2 → Reachable c2
  | moveAssign {c rhs c2 r2 : BinarySearchTree T} :
      Reachable c → Reachable rhs → c.moveAssign rhs = some (c2, r2) → Reachable c2
  | moveSource {c rhs c2 r2 : BinarySearchTree T} :
      Reachable c → Reachable rhs → c.moveAssign rhs = some (c2, r2) → Reachable r2

/-- `InSubtree mem p b`: following child pointers from the pointer `p` leads to the
node `b`, i.e. `b` is a node of the subtree rooted at `p`. -/
inductive InSubtree {T : Type} (mem : Heap T) : Option Nat → Nat → Prop
  | root (a : Nat) : InSubtree mem (some a) a
  | left {a b : Nat} {n : TreeNode T} :
      mem.get a = some n → InSubtree mem n.left_ b → InSubtree mem (some a) b
  | right {a b : Nat} {n : TreeNode T} :
      mem.get a = some n → InSubtree mem n.right_ b → InSubtree mem (some a) b

/-- The BST invariant on the store: at every live node `n`, every value in the left
subtree of `n` is strictly less than the value of `n`, and every value in the right
subtree of `n` is greater than or equal to it. -/
def BSTInvariant {T : Type} [LinearOrder T] (c : BinarySearchTree T) : Prop :=
  ∀ (a : Nat) (n : TreeNode T), c.mem.get a = some n →
    (∀ (b : Nat) (nb : TreeNode T), InSubtree c.mem n.left_ b → c.mem.get b = some nb →
      nb.value_ < n.value_) ∧
    (∀ (b : Nat) (nb : TreeNode T), InSubtree c.mem n.right_ b → c.mem.get b = some nb →
      n.value_ ≤ nb.value_)

/-- The number of nodes of the subtree rooted at a pointer, by recursion over the
child pointers; `fuel` bounds the recursion depth. -/
def countNodes {T : Type} : Nat → Heap T → Option Nat → Option Nat
  | 0, _, _ => none
  | _ + 1, _, none => some 0
  | fuel + 1, mem, some a =>
    match mem.get a with
    | none => none
    | some n =>
      match countNodes fuel mem n.left_, countNodes fuel mem n.right_ with
      | some x, some y => some (x + y + 1)
      | _, _ => none

/-- The number of nodes of the tree of the container. -/
def BinarySearchTree.nodeCount {T : Type} (c : BinarySearchTree T) : Option Nat :=
  countNodes c.fuel c.mem c.root_

/-- The iterator reached from `begin()` by `k` increments: in-order position `k`. -/
def BinarySearchTree.iterAt {T : Type} (c : BinarySearchTree T) : Nat → Option ConstIterator
  | 0 => c.begin
  | k + 1 => (BinarySearchTree.iterAt c k).bind c.incr

/-- The call `erase(y)` for each `y` of a list, in order. -/
def BinarySearchTree.eraseAll {T : Type} [LinearOrder T] (c : BinarySearchTree T) :
    List T → Option (BinarySearchTree T)
  | [] => some c
  | y :: ys => (c.eraseValue y).bind (fun c1 => BinarySearchTree.eraseAll c1 ys)

/-- The container after `insert` of 5, 3, 8, 3, 1 into the empty container. -/
def example53831 : BinarySearchTree Int :=
  ⟨[some ⟨5, some 1, some 2, none⟩, some ⟨3, some 4, some 3, some 0⟩,
    some ⟨8, none, none, some 0⟩, some ⟨3, none, none, some 1⟩,
    some ⟨1, none, none, some 1⟩], some 0, 5⟩

/-- The container after `insert` of 4, 2, 6, 1, 3, 5, 7 into the empty container. -/
def example4261357 : BinarySearchTree Int :=
  ⟨[some ⟨4, some 1, some 2, none⟩, some ⟨2, some 3, some 4, some 0⟩,
    some ⟨6, some 5, some 6, some 0⟩, some ⟨1, none, none, some 1⟩,
    some ⟨3, none, none, some 1⟩, some ⟨5, none, none, some 2⟩,
    some ⟨7, none, none, some 2⟩], some 0, 7⟩

/-! ## Backward iteration and comparison -/

/-- The loop `while (tmp->right_ != nullptr) { tmp = tmp->right_; }` (in `Previous`
and `operator--`). -/
def descendRight {T : Type} : Nat → Heap T → Nat → Option Nat
  | 0, _, _ => none
  | fuel + 1, mem, tmp =>
    match mem.get tmp with
    | none => none
    | some n =>
      match n.right_ with
      | none => some tmp
      | some r => descendRight fuel mem r

/-- The climbing loop of `ConstIterator::Previous`:
`while (tmp_parent != nullptr && tmp_parent->left_ == tmp)`. -/
def BinarySearchTree.Previous.climb {T : Type} :
    Nat → Heap T → Nat → Option Nat → Option (Option Nat)
  | 0, _, _, _ => none
  | _ + 1, _, _, none => some none
  | fuel + 1, mem, tmp, some tmp_parent =>
    match mem.get tmp_parent with
    | none => none
    | some pn =>
      if pn.left_ = some tmp then BinarySearchTree.Previous.climb fuel mem tmp_parent pn.parent_
      else some (some tmp_parent)

/-- The method `ConstIterator::Previous` of an iterator into container `c`. -/
def BinarySearchTree.Previous {T : Type} (c : BinarySearchTree T) (it : ConstIterator) :
    Option (Option Nat) :=
  match it.current_node_ with
  | none => none
  | some tmp =>
    match c.mem.get tmp with
    | none => none
    | some n =>
      match n.left_ with
      | none => BinarySearchTree.Previous.climb c.fuel c.mem tmp n.parent_
      | some l => (descendRight c.fuel c.mem l).map some

/-- The decrement `operator--` of an iterator into container `c`: from `end()` to the
rightmost node, otherwise `Previous`. -/
def BinarySearchTree.decr {T : Type} (c : BinarySearchTree T) (it : ConstIterator) :
    Option ConstIterator :=
  match it.current_node_ with
  | none =>
    match c.root_ with
    | none => some ⟨none⟩
    | some r => (descendRight c.fuel c.mem r).map (fun a => ⟨some a⟩)
  | some _ => (c.Previous it).map (fun p => ⟨p⟩)

/-- The loop of `operator==`:
`for (i = begin(), j = rhs.begin(); i != end(); ++i, ++j) if (!(*i == *j)) return false;`. -/
def BinarySearchTree.operatorEq.loop {T : Type} [DecidableEq T] (this rhs : BinarySearchTree T) :
    Nat → ConstIterator → ConstIterator → Option Bool
  | 0, _, _ => none
  | fuel + 1, i, j =>
    if i = this.end then some true
    else
      match this.deref i, rhs.deref j with
      | some x, some y =>
        if ¬ (x = y) then some false
        else
          match this.incr i, rhs.incr j with
          | some i2, some j2 => BinarySearchTree.operatorEq.loop this rhs fuel i2 j2
          | _, _ => none
      | _, _ => none

/-- The comparison `operator==` of two containers. -/
def BinarySearchTree.operatorEq {T : Type} [DecidableEq T] (this rhs : BinarySearchTree T) :
    Option Bool :=
  if rhs.size_ ≠ this.size_ then some false
  else
    match this.begin, rhs.begin with
    | some i, some j => BinarySearchTree.operatorEq.loop this rhs this.fuel i j
    | _, _ => none

/-- The comparison `operator!=`: `!(*this == rhs)`. -/
def BinarySearchTree.operatorNe {T : Type} [DecidableEq T] (this rhs : BinarySearchTree T) :
    Option Bool :=
  (this.operatorEq rhs).map (fun b => !b)

/-- The recursive in-order listing of the glossary ("left subtree, node, right
subtree"), read off the child pointers; `fuel` bounds the recursion depth.  This is
the specification that the parent-climbing iterator is compared with. -/
def inorderListing {T : Type} : Nat → Heap T → Option Nat → Option (List T)
  | 0, _, _ => none
  | _ + 1, _, none => some []
  | fuel + 1, mem, some a =>
    match mem.get a with
    | none => none
    | some n =>
      match inorderListing fuel mem n.left_, inorderListing fuel mem n.right_ with
      | some xs, some ys => some (xs ++ n.value_ :: ys)
      | _, _ => none

/-- The call `erase(v)` repeated `n` times. -/
def BinarySearchTree.eraseTimes {T : Type} [LinearOrder T] (c : BinarySearchTree T) (v : T) :
    Nat → Option (BinarySearchTree T)
  | 0 => some c
  | n + 1 => (c.eraseValue v).bind (fun c1 => BinarySearchTree.eraseTimes c1 v n)

/-- The parent links of the container are consistent: the root has no parent; every
other live node has a live parent that points to it through exactly one of `left_` and
`right_`; and every child pointer leads to a live node whose `parent_` points back. -/
def ParentLinks {T : Type} (c : BinarySearchTree T) : Prop :=
  (∀ (r : Nat), c.root_ = some r → ∃ n, c.mem.get r = some n ∧ n.parent_ = none) ∧
  (∀ (a : Nat) (n : TreeNode T), c.mem.get a = some n → c.root_ ≠ some a →
    ∃ p pn, n.parent_ = some p ∧ c.mem.get p = some pn ∧
      ((pn.left_ = some a ∧ pn.right_ ≠ some a) ∨ (pn.left_ ≠ some a ∧ pn.right_ = some a))) ∧
  (∀ (p : Nat) (pn : TreeNode T) (ch : Nat), c.mem.get p = some pn →
    (pn.left_ = some ch ∨ pn.right_ = some ch) →
    ∃ cn, c.mem.get ch = some cn ∧ cn.parent_ = some p)

/-- The iterator reached from `it` by `k` increments. -/
def BinarySearchTree.incrTimes {T : Type} (c : BinarySearchTree T) (it : ConstIterator) :
    Nat → Option ConstIterator
  | 0 => some it
  | k + 1 => (BinarySearchTree.incrTimes c it k).bind c.incr

/-! ## Several containers in one store -/

/-- The program state with several container objects: one node store for the nodes of
all of them, and the fields `root_` and `size_` of the object with identity `i`. -/
structure World (T : Type) where
  mem : Heap T
  root_ : Nat → Option Nat
  size_ : Nat → Int

/-- The object `i` of the world: its fields, over the store shared by all objects. -/
def World.obj {T : Type} (w : World T) (i : Nat) : BinarySearchTree T :=
  ⟨w.mem, w.root_ i, w.size_ i⟩

/-- The world after a method of the object `i` has left the store and the fields of
that object as in `c`. -/
def World.put {T : Type} (w : World T) (i : Nat) (c : BinarySearchTree T) : World T :=
  ⟨c.mem, Function.update w.root_ i c.root_, Function.update w.size_ i c.size_⟩

/-- The world with a default-initialised object `i` (`root_ = nullptr`, `size_ = 0`). -/
def World.construct {T : Type} (w : World T) (i : Nat) : World T :=
  ⟨w.mem, Function.update w.root_ i none, Function.update w.size_ i 0⟩

/-- The call `insert(v)` on the object `i`. -/
def World.insert {T : Type} [LinearOrder T] (w : World T) (i : Nat) (v : T) : Option (World T) :=
  ((w.obj i).insert v).map (w.put i)

/-- The call `erase(v)` on the object `i`. -/
def World.eraseValue {T : Type} [LinearOrder T] (w : World T) (i : Nat) (v : T) :
    Option (World T) :=
  ((w.obj i).eraseValue v).map (w.put i)

/-- The call `erase(it)` on the object `i`. -/
def World.erase {T : Type} (w : World T) (i : Nat) (it : ConstIterator) : Option (World T) :=
  ((w.obj i).erase it).map (w.put i)

/-- The statements of `CopySubtree` that create the node `first` from a value and attach
it: `first = new TreeNode(value); first->parent_ = first_parent;` and the assignment to
`root_`, `first_parent->left_` or `first_parent->right_` selected by `relation`. -/
def BinarySearchTree.CopySubtree.link {T : Type} (c : BinarySearchTree T) (value : T)
    (first_parent : Option Nat) (relation : Int) : Option (BinarySearchTree T) :=
  match (c.mem.alloc value).2.setParent (c.mem.alloc value).1 first_parent with
  | none => none
  | some m =>
    if relation = 0 then some { c with mem := m, root_ := some (c.mem.alloc value).1 }
    else
      match first_parent with
      | none => none
      | some fp =>
        if relation = -1 then
          (m.setLeft fp (some (c.mem.alloc value).1)).map (fun m2 => { c with mem := m2 })
        else (m.setRight fp (some (c.mem.alloc value).1)).map (fun m2 => { c with mem := m2 })

/-- The method `CopySubtree` of the destination object `c` when the source nodes are in
the same store: `second->value_`, `second->left_` and `second->right_` are read from
the store at the moment the C++ code reads them.  `fuel` bounds the recursion depth;
the parameter `first` is overwritten before it is read and is left out. -/
def World.CopySubtree {T : Type} :
    Nat → BinarySearchTree T → Option Nat → Option Nat → Int → Option (BinarySearchTree T)
  | 0, _, _, _, _ => none
  | _ + 1, c, _, none, _ => some c
  | fuel + 1, c, first_parent, some second, relation =>
    (c.mem.get second).bind fun sn =>
    (BinarySearchTree.CopySubtree.link c sn.value_ first_parent relation).bind fun c1 =>
    (c1.mem.get second).bind fun s1 =>
    (World.CopySubtree fuel c1 (some (c.mem.alloc sn.value_).1) s1.left_ (-1)).bind fun c2 =>
    (c2.mem.get second).bind fun s2 =>
    World.CopySubtree fuel c2 (some (c.mem.alloc sn.value_).1) s2.right_ 1

/-- The copy assignment `this = rhs` between the objects `this` and `rhs`:
`if (this != &rhs) { DeleteSubtree(root_); CopySubtree(nullptr, root_, rhs.root_);
size_ = rhs.size_; }`. -/
def World.copyAssign {T : Type} (w : World T) (this rhs : Nat) : Option (World T) :=
  if this ≠ rhs then
    (BinarySearchTree.DeleteSubtree (w.obj this).fuel (w.obj this) (w.root_ this)).bind fun c1 =>
    (World.CopySubtree c1.fuel c1 none (w.root_ rhs) 0).map fun c2 =>
    w.put this { c2 with size_ := w.size_ rhs }
  else some w

/-- The move assignment `this = std::move(rhs)` between the objects `this` and `rhs`:
the statements of the copy assignment followed by `rhs.DeleteSubtree(rhs.root_)`. -/
def World.moveAssign {T : Type} (w : World T) (this rhs : Nat) : Option (World T) :=
  if this ≠ rhs then
    (BinarySearchTree.DeleteSubtree (w.obj this).fuel (w.obj this) (w.root_ this)).bind fun c1 =>
    (World.CopySubtree c1.fuel c1 none (w.root_ rhs) 0).bind fun c2 =>
    (BinarySearchTree.DeleteSubtree c2.fuel ⟨c2.mem, w.root_ rhs, w.size_ rhs⟩
      (w.root_ rhs)).map fun r =>
    (w.put this { c2 with size_ := w.size_ rhs }).put rhs r
  else some w

/-- The copy constructor `BinarySearchTree(const BinarySearchTree& tree)`:
`(*this) = tree` on the default-initialised object `this`. -/
def World.copyConstruct {T : Type} (w : World T) (this tree : Nat) : Option (World T) :=
  (w.construct this).copyAssign this tree

/-- The move constructor `BinarySearchTree(BinarySearchTree&& tree)`:
`(*this) = std::move(tree)` on the default-initialised object `this`. -/
def World.moveConstruct {T : Type} (w : World T) (this tree : Nat) : Option (World T) :=
  (w.construct this).moveAssign this tree

/-- The container `c` holds the tree `t` in a store that may contain other nodes as
well: as `Models`, without the condition that every live cell belongs to `t`. -/
structure Holds {T : Type} (c : BinarySearchTree T) (t : Tree T) : Prop where
  root : c.root_ = t.ptr
  rep : t.Rep c.mem none
  nodup : t.addrs.Nodup
  size : c.size_ = t.addrs.length

/-- The objects `i` and `j` of the world hold the trees `s` and `t`, and no node
belongs to both. -/
def World.Separate {T : Type} (w : World T) (i j : Nat) (s t : Tree T) : Prop :=
  Holds (w.obj i) s ∧ Holds (w.obj j) t ∧ ∀ x ∈ s.addrs, x ∉ t.addrs

/-- Every live cell of `m` is a cell of `M` with the same contents. -/
def Heap.Sub {T : Type} (m M : Heap T) : Prop :=
  ∀ a n, m.get a = some n → M.get a = some n

/-- The store `m` is a part of the store `M`: same length, and every live cell of `m`
is a cell of `M` with the same contents. -/
def Heap.Part {T : Type} (m M : Heap T) : Prop :=
  M.length = m.length ∧ Heap.Sub m M

/-- A computation that takes the part `m` of `M` to `m2` takes `M` to `M2`: `m2` is a
part of `M2`, no address is given up, and an address that was not live in `m` is not
live in `m2` and keeps its contents in `M2`. -/
def Heap.Step {T : Type} (m M m2 M2 : Heap T) : Prop :=
  Heap.Part m2 M2 ∧ m.length ≤ m2.length ∧
    ∀ y, y < m.length → m.get y = none → m2.get y = none ∧ M2.get y = M.get y

/-- Two containers in one store: object 0 built from 2, 1, 3 (addresses 0, 1, 2) and
object 1 built from 7 (address 3). -/
def exampleWorld : World Int :=
  ⟨[some ⟨2, some 1, some 2, none⟩, some ⟨1, none, none, some 0⟩,
    some ⟨3, none, none, some 0⟩, some ⟨7, none, none, none⟩],
    fun i => if i = 0 then some 0 else if i = 1 then some 3 else none,
    fun i => if i = 0 then 3 else if i = 1 then 1 else 0⟩

/-- The store update `F` is local: when it succeeds on a part `m` of a store `M`, it
keeps the live addresses of `m`, and on `M` it succeeds with the corresponding result
and leaves the rest of `M` as it is. -/
def Heap.Local {T : Type} (F : Heap T → Option (Heap T)) : Prop :=
  ∀ m M m2, Heap.Part m M → F m = some m2 →
    (∀ y, (m2.get y).isSome = (m.get y).isSome) ∧ ∃ M2, F M = some M2 ∧ Heap.Step m M m2 M2

/-- The method `F` of a container is local: when it succeeds on a container whose store
is a part of `M`, it succeeds in the same way on the container with the store `M`, and
leaves the rest of `M` as it is. -/
def BinarySearchTree.Local {T : Type}
    (F : BinarySearchTree T → Option (BinarySearchTree T)) : Prop :=
  ∀ c M c2, Heap.Part c.mem M → F c = some c2 →
    ∃ M2, F ⟨M, c.root_, c.size_⟩ = some ⟨M2, c2.root_, c2.size_⟩ ∧
      Heap.Step c.mem M c2.mem M2

/-- An iterator that the object `i` may be asked to erase at: `end()`, or the position
of a node that is reached from the root of that object. -/
def World.IterInto {T : Type} (w : World T) (i : Nat) (it : ConstIterator) : Prop :=
  match it.current_node_ with
  | none => True
  | some x => InSubtree w.mem (w.root_ i) x

/-- The worlds that a program reaches from `w` by calls of `insert`, `erase(value)` and
`erase(iterator)` (at an iterator into the object) on the object `i`. -/
inductive World.Evolves {T : Type} [LinearOrder T] (i : Nat) : World T → World T → Prop
  | refl (w : World T) : World.Evolves i w w
  | insert {w w1 w2 : World T} (v : T) :
      World.Evolves i w w1 → w1.insert i v = some w2 → World.Evolves i w w2
  | eraseValue {w w1 w2 : World T} (v : T) :
      World.Evolves i w w1 → w1.eraseValue i v = some w2 → World.Evolves i w w2
  | erase {w w1 w2 : World T} (it : ConstIterator) :
      World.Evolves i w w1 → w1.IterInto i it → w1.erase i it = some w2 →
      World.Evolves i w w2

/-! ## Store lemmas -/

namespace Heap

variable {T : Type}

theorem get_eq_none_of_le (h : Heap T) (a : Nat) (hle : h.length ≤ a) : h.get a = none := by
  simp [Heap.get, List.getD, List.getElem?_eq_none hle]

theorem lt_of_get_eq_some {h : Heap T} {a : Nat} {n : TreeNode T} (hg : h.get a = some n) :
    a < h.length := by
  by_contra hlt
  rw [get_eq_none_of_le h a (not_lt.mp hlt)] at hg
  cases hg

theorem get_set_ne (h : Heap T) {a b : Nat} (x : Option (TreeNode T)) (hne : b ≠ a) :
    Heap.get (List.set h a x) b = h.get b := by
  simp [Heap.get, List.getD, List.getElem?_set_ne (Ne.symm hne)]

theorem get_set_eq (h : Heap T) {a : Nat} (x : Option (TreeNode T)) (hlt : a < h.length) :
    Heap.get (List.set h a x) a = x := by
  simp [Heap.get, List.getD, List.getElem?_set_self, hlt]

theorem get_append_lt (h : Heap T) (x : Option (TreeNode T)) {a : Nat} (hlt : a < h.length) :
    Heap.get (h ++ [x]) a = h.get a := by
  simp [Heap.get, List.getD, List.getElem?_append_left hlt]

theorem get_append_length (h : Heap T) (x : Option (TreeNode T)) :
    Heap.get (h ++ [x]) h.length = x := by
  simp [Heap.get, List.getD]

theorem modify_eq {h : Heap T} {a : Nat} {n : TreeNode T} (f : TreeNode T → TreeNode T)
    (hg : h.get a = some n) : h.modify a f = some (List.set h a (some (f n))) := by
  simp [Heap.modify, hg]

theorem setLeft_eq {h : Heap T} {a : Nat} {n : TreeNode T} (x : Option Nat)
    (hg : h.get a = some n) :
    h.setLeft a x = some (List.set h a (some ⟨n.value_, x, n.right_, n.parent_⟩)) := by
  simp [Heap.setLeft, modify_eq _ hg]

theorem setRight_eq {h : Heap T} {a : Nat} {n : TreeNode T} (x : Option Nat)
    (hg : h.get a = some n) :
    h.setRight a x = some (List.set h a (some ⟨n.value_, n.left_, x, n.parent_⟩)) := by
  simp [Heap.setRight, modify_eq _ hg]

theorem setParent_eq {h : Heap T} {a : Nat} {n : TreeNode T} (x : Option Nat)
    (hg : h.get a = some n) :
    h.setParent a x = some (List.set h a (some ⟨n.value_, n.left_, n.right_, x⟩)) := by
  simp [Heap.setParent, modify_eq _ hg]

end Heap

/-! ## Lemmas on abstract trees and their representation -/

namespace Tree

variable {T : Type}

@[simp] theorem addrs_nil : (nil : Tree T).addrs = [] := rfl

@[simp] theorem addrs_node (l r : Tree T) (a : Nat) (v : T) :
    (node l a v r).addrs = l.addrs ++ a :: r.addrs := rfl

@[simp] theorem values_nil : (nil : Tree T).values = [] := rfl

@[simp] theorem values_node (l r : Tree T) (a : Nat) (v : T) :
    (node l a v r).values = l.values ++ v :: r.values := rfl

@[simp] theorem elems_nil : (nil : Tree T).elems = [] := rfl

@[simp] theorem elems_node (l r : Tree T) (a : Nat) (v : T) :
    (node l a v r).elems = l.elems ++ (a, v) :: r.elems := rfl

@[simp] theorem ptr_nil : (nil : Tree T).ptr = none := rfl

@[simp] theorem ptr_node (l r : Tree T) (a : Nat) (v : T) : (node l a v r).ptr = some a := rfl

theorem addrs_eq_map (t : Tree T) : t.addrs = t.elems.map Prod.fst := by
  induction t with
  | nil => rfl
  | node l a v r ihl ihr => simp [ihl, ihr]

theorem values_eq_map (t : Tree T) : t.values = t.elems.map Prod.snd := by
  induction t with
  | nil => rfl
  | node l a v r ihl ihr => simp [ihl, ihr]

theorem length_values (t : Tree T) : t.values.length = t.addrs.length := by
  simp [addrs_eq_map, values_eq_map]

theorem ptr_mem_addrs {t : Tree T} {a : Nat} (h : t.ptr = some a) : a ∈ t.addrs := by
  cases t with
  | nil => cases h
  | node l b v r => simp at h; simp [h]

theorem ptr_eq_none_iff (t : Tree T) : t.ptr = none ↔ t = nil := by
  cases t <;> simp

theorem ptr_ne_of_not_mem {t : Tree T} {a : Nat} (h : a ∉ t.addrs) : t.ptr ≠ some a :=
  fun hp => h (ptr_mem_addrs hp)

theorem nodup_node (l r : Tree T) (a : Nat) (v : T) :
    (node l a v r).addrs.Nodup ↔
      l.addrs.Nodup ∧ r.addrs.Nodup ∧ a ∉ l.addrs ∧ a ∉ r.addrs ∧
        ∀ x ∈ l.addrs, x ∉ r.addrs := by
  simp only [addrs_node, List.nodup_append, List.nodup_cons, List.Disjoint, List.mem_cons]
  constructor
  · rintro ⟨h1, ⟨h2, h3⟩, h4⟩
    exact ⟨h1, h3, fun h => h4 h (Or.inl rfl), h2, fun x hx hx2 => h4 hx (Or.inr hx2)⟩
  · rintro ⟨h1, h2, h3, h4, h5⟩
    refine ⟨h1, ⟨h4, h2⟩, fun x hx hx2 => ?_⟩
    rcases hx2 with rfl | hx2
    · exact h3 hx
    · exact h5 x hx hx2

theorem height_le_length (t : Tree T) : t.height ≤ t.addrs.length := by
  induction t with
  | nil => simp [height]
  | node l a v r ihl ihr => simp [height]; omega

@[simp] theorem rep_nil (mem : Heap T) (par : Option Nat) : (nil : Tree T).Rep mem par = True :=
  rfl

theorem rep_node (mem : Heap T) (l r : Tree T) (a : Nat) (v : T) (par : Option Nat) :
    (node l a v r).Rep mem par ↔
      (mem.get a = some ⟨v, l.ptr, r.ptr, par⟩ ∧ l.Rep mem (some a) ∧ r.Rep mem (some a)) :=
  Iff.rfl

/-- Every address of a represented tree is a live cell. -/
theorem Rep.get_isSome {mem : Heap T} {t : Tree T} {par : Option Nat} (h : t.Rep mem par)
    {a : Nat} (ha : a ∈ t.addrs) : (mem.get a).isSome := by
  induction t generalizing par with
  | nil => simp at ha
  | node l b v r ihl ihr =>
    obtain ⟨h1, h2, h3⟩ := h
    simp at ha
    rcases ha with ha | rfl | ha
    · exact ihl h2 ha
    · simp [h1]
    · exact ihr h3 ha

theorem Rep.lt_length {mem : Heap T} {t : Tree T} {par : Option Nat} (h : t.Rep mem par)
    {a : Nat} (ha : a ∈ t.addrs) : a < mem.length := by
  have := h.get_isSome ha
  cases hg : mem.get a with
  | none => simp [hg] at this
  | some n => exact Heap.lt_of_get_eq_some hg

/-- The representation only depends on the cells of the tree. -/
theorem Rep.frame {mem mem2 : Heap T} {t : Tree T} {par : Option Nat} (h : t.Rep mem par)
    (hagree : ∀ a ∈ t.addrs, mem2.get a = mem.get a) : t.Rep mem2 par := by
  induction t generalizing par with
  | nil => trivial
  | node l b v r ihl ihr =>
    obtain ⟨h1, h2, h3⟩ := h
    refine ⟨?_, ihl h2 ?_, ihr h3 ?_⟩
    · rw [hagree b (by simp), h1]
    · intro a ha; exact hagree a (by simp [ha])
    · intro a ha; exact hagree a (by simp [ha])

end Tree

/-! ## Lemmas on contexts -/

namespace Ctx

variable {T : Type}

@[simp] theorem plug_nil (s : Tree T) : plug [] s = s := rfl

@[simp] theorem plug_L (a : Nat) (v : T) (r : Tree T) (c : Ctx T) (s : Tree T) :
    plug (Frame.L a v r :: c) s = plug c (Tree.node s a v r) := rfl

@[simp] theorem plug_R (l : Tree T) (a : Nat) (v : T) (c : Ctx T) (s : Tree T) :
    plug (Frame.R l a v :: c) s = plug c (Tree.node l a v s) := rfl

@[simp] theorem addrs_empty : Ctx.addrs ([] : Ctx T) = [] := rfl

@[simp] theorem addrs_L (a : Nat) (v : T) (r : Tree T) (c : Ctx T) :
    Ctx.addrs (Frame.L a v r :: c) = a :: (r.addrs ++ Ctx.addrs c) := rfl

@[simp] theorem addrs_R (l : Tree T) (a : Nat) (v : T) (c : Ctx T) :
    Ctx.addrs (Frame.R l a v :: c) = a :: (l.addrs ++ Ctx.addrs c) := rfl

theorem elems_plug (c : Ctx T) (s : Tree T) :
    (plug c s).elems = before c ++ (s.elems ++ after c) := by
  induction c generalizing s with
  | nil => simp [before, after]
  | cons f c ih => cases f <;> simp [ih, before, after]

theorem values_plug (c : Ctx T) (s : Tree T) :
    (plug c s).values =
      (before c).map Prod.snd ++ (s.values ++ (after c).map Prod.snd) := by
  simp [Tree.values_eq_map, elems_plug]

theorem addrs_plug (c : Ctx T) (s : Tree T) :
    (plug c s).addrs =
      (before c).map Prod.fst ++ (s.addrs ++ (after c).map Prod.fst) := by
  simp [Tree.addrs_eq_map, elems_plug]

theorem addrs_plug_perm (c : Ctx T) (s : Tree T) :
    List.Perm (plug c s).addrs (s.addrs ++ Ctx.addrs c) := by
  induction c generalizing s with
  | nil => simp
  | cons f c ih =>
    cases f with
    | L a v r => simpa using ih (Tree.node s a v r)
    | R l a v =>
      refine (ih (Tree.node l a v s)).trans ?_
      rw [List.perm_iff_count]
      intro x
      simp only [Tree.addrs_node, addrs_R, List.count_append, List.count_cons]
      omega

theorem mem_addrs_plug (c : Ctx T) (s : Tree T) (a : Nat) :
    a ∈ (plug c s).addrs ↔ a ∈ s.addrs ∨ a ∈ Ctx.addrs c := by
  rw [(addrs_plug_perm c s).mem_iff, List.mem_append]

theorem nodup_plug (c : Ctx T) (s : Tree T) :
    (plug c s).addrs.Nodup ↔
      s.addrs.Nodup ∧ (Ctx.addrs c).Nodup ∧ ∀ x ∈ s.addrs, x ∉ Ctx.addrs c := by
  rw [(addrs_plug_perm c s).nodup_iff, List.nodup_append]
  rfl

theorem length_addrs_plug (c : Ctx T) (s : Tree T) :
    (plug c s).addrs.length = s.addrs.length + (Ctx.addrs c).length := by
  rw [(addrs_plug_perm c s).length_eq, List.length_append]

theorem ptr_plug (c : Ctx T) (s : Tree T) : (plug c s).ptr = root c s.ptr := by
  induction c generalizing s with
  | nil => rfl
  | cons f c ih => cases f <;> simp [ih, root]

/-- A represented tree splits into the representation of a subtree and of its context. -/
theorem rep_plug (mem : Heap T) (c : Ctx T) (s : Tree T) (top : Option Nat) :
    (plug c s).Rep mem top ↔ s.Rep mem (par c top) ∧ Rep mem c s.ptr top := by
  induction c generalizing s with
  | nil => simp [par, Rep]
  | cons f c ih =>
    cases f with
    | L a v r =>
      simp only [plug_L, ih, Tree.rep_node, Tree.ptr_node, par, Rep]
      tauto
    | R l a v =>
      simp only [plug_R, ih, Tree.rep_node, Tree.ptr_node, par, Rep]
      tauto

/-- The representation of a context only depends on its own cells. -/
theorem Rep.frame_ctx {mem mem2 : Heap T} {c : Ctx T} {h top : Option Nat} (hr : Rep mem c h top)
    (hagree : ∀ a ∈ Ctx.addrs c, mem2.get a = mem.get a) : Rep mem2 c h top := by
  induction c generalizing h with
  | nil => trivial
  | cons f c ih =>
    cases f with
    | L a v r =>
      obtain ⟨h1, h2, h3⟩ := hr
      refine ⟨?_, h2.frame fun x hx => hagree x (by simp [hx]), ih h3 ?_⟩
      · rw [hagree a (by simp), h1]
      · intro x hx; exact hagree x (by simp [hx])
    | R l a v =>
      obtain ⟨h1, h2, h3⟩ := hr
      refine ⟨?_, h2.frame fun x hx => hagree x (by simp [hx]), ih h3 ?_⟩
      · rw [hagree a (by simp), h1]
      · intro x hx; exact hagree x (by simp [hx])

/-- Every node of a tree is the root of a subtree in some context. -/
theorem exists_plug_of_mem {t : Tree T} {a : Nat} (ha : a ∈ t.addrs) :
    ∃ (c : Ctx T) (l : Tree T) (v : T) (r : Tree T), t = plug c (Tree.node l a v r) := by
  induction t with
  | nil => simp at ha
  | node l b w r ihl ihr =>
    simp at ha
    rcases ha with ha | rfl | ha
    · obtain ⟨c, l2, v, r2, h⟩ := ihl ha
      refine ⟨c ++ [Frame.L b w r], l2, v, r2, ?_⟩
      rw [h]; clear h ihl ihr
      generalize Tree.node l2 a v r2 = s
      induction c generalizing s with
      | nil => rfl
      | cons f c ih => cases f <;> simp [ih]
    · exact ⟨[], l, w, r, rfl⟩
    · obtain ⟨c, l2, v, r2, h⟩ := ihr ha
      refine ⟨c ++ [Frame.R l b w], l2, v, r2, ?_⟩
      rw [h]; clear h ihl ihr
      generalize Tree.node l2 a v r2 = s
      induction c generalizing s with
      | nil => rfl
      | cons f c ih => cases f <;> simp [ih]

end Ctx

/-! ## The read-only loops -/

section Loops

variable {T : Type}

/-- The loop `while (tmp->left_ != nullptr)` stops at the leftmost node. -/
theorem descendLeft_eq {mem : Heap T} {l r : Tree T} {a : Nat} {v : T} {par : Option Nat}
    (h : (Tree.node l a v r).Rep mem par) {f : Nat}
    (hf : (Tree.node l a v r).height ≤ f) :
    descendLeft f mem a = some (Tree.minAddr l a) := by
  induction l generalizing a v r par f with
  | nil =>
    cases f with
    | zero => simp [Tree.height] at hf
    | succ n => simp [descendLeft, h.1, Tree.minAddr]
  | node ll la lv lr ihl _ =>
    cases f with
    | zero => simp [Tree.height] at hf
    | succ n =>
      simp only [descendLeft, h.1, Tree.ptr_node, Tree.minAddr]
      refine ihl h.2.1 ?_
      simp only [Tree.height] at hf ⊢
      omega

theorem Tree.elems_eq_min_cons (l r : Tree T) (a : Nat) (v : T) :
    (Tree.node l a v r).elems =
      (Tree.minAddr l a, Tree.minVal l v) :: (Tree.delMin (Tree.node l a v r)).elems := by
  induction l generalizing a v r with
  | nil => simp [Tree.minAddr, Tree.minVal, Tree.delMin]
  | node ll la lv lr ihl _ =>
    have := ihl lr la lv
    simp only [Tree.elems_node] at this
    simp [Tree.minAddr, Tree.minVal, Tree.delMin, this]

variable [LinearOrder T]

/-- The descent of `find` computes `findT`. -/
theorem find_loop_eq {mem : Heap T} {t : Tree T} {par : Option Nat} (h : t.Rep mem par)
    (value : T) {f : Nat} (hf : t.height < f) :
    BinarySearchTree.find.loop value f mem t.ptr = some (t.findT value) := by
  induction t generalizing par f with
  | nil =>
    cases f with
    | zero => omega
    | succ n => simp [BinarySearchTree.find.loop, Tree.findT]
  | node l a w r ihl ihr =>
    cases f with
    | zero => omega
    | succ n =>
      simp only [Tree.height] at hf
      simp only [BinarySearchTree.find.loop, Tree.ptr_node, h.1, Tree.findT]
      split
      · exact ihr h.2.2 (by omega)
      · split
        · rfl
        · exact ihl h.2.1 (by omega)

/-- The descent of `count` computes `countT`. -/
theorem count_loop_eq {mem : Heap T} {t : Tree T} {par : Option Nat} (h : t.Rep mem par)
    (value : T) {f : Nat} (hf : t.height < f) (k : Int) :
    BinarySearchTree.count.loop value f mem t.ptr k = some (k + t.countT value) := by
  induction t generalizing par f k with
  | nil =>
    cases f with
    | zero => omega
    | succ n => simp [BinarySearchTree.count.loop, Tree.countT]
  | node l a w r ihl ihr =>
    cases f with
    | zero => omega
    | succ n =>
      simp only [Tree.height] at hf
      simp only [BinarySearchTree.count.loop, Tree.ptr_node, h.1, Tree.countT]
      split
      · exact ihr h.2.2 (by omega) k
      · split
        · rw [ihr h.2.2 (by omega) (k + 1)]
          simp only [Nat.cast_add, Nat.cast_one, Option.some.injEq]
          ring
        · exact ihl h.2.1 (by omega) k

end Loops

/-- The climb of `Next` returns the first node after the hole. -/
theorem climb_eq {T : Type} {mem : Heap T} {c : Ctx T} {a : Nat}
    (h : Ctx.Rep mem c (some a) none) (ha : a ∉ Ctx.addrs c) (hnd : (Ctx.addrs c).Nodup)
    {f : Nat} (hf : c.length < f) :
    BinarySearchTree.Next.climb f mem a (Ctx.par c none) =
      some ((c.after.map Prod.fst).head?) := by
  induction c generalizing a f with
  | nil =>
    cases f with
    | zero => simp at hf
    | succ n => simp [BinarySearchTree.Next.climb, Ctx.par, Ctx.after]
  | cons f c ih =>
    cases f with
    | zero => simp at hf
    | succ n =>
      cases f with
      | L b w r =>
        obtain ⟨h1, h2, h3⟩ := h
        simp only [Ctx.addrs_L, List.mem_cons, List.mem_append, not_or] at ha
        have : r.ptr ≠ some a := Tree.ptr_ne_of_not_mem ha.2.1
        simp [BinarySearchTree.Next.climb, Ctx.par, h1, this, Ctx.after]
      | R l b w =>
        obtain ⟨h1, h2, h3⟩ := h
        simp only [Ctx.addrs_R, List.nodup_cons, List.mem_append, not_or,
          List.nodup_append] at hnd
        simp only [BinarySearchTree.Next.climb, Ctx.par, h1, Ctx.after, if_true]
        exact ih h3 hnd.1.2 hnd.2.2.1 (by simpa using hf)

/-! ## Iteration computes the in-order sequence -/

section Iteration

variable {T : Type}

theorem length_le_of_nodup_lt {l : List Nat} {n : Nat} (hnd : l.Nodup) (hlt : ∀ x ∈ l, x < n) :
    l.length ≤ n := by
  have hsub : l ⊆ List.range n := fun x hx => List.mem_range.mpr (hlt x hx)
  simpa using (List.subperm_of_subset hnd hsub).length_le

theorem Models.length_le {c : BinarySearchTree T} {t : Tree T} (h : Models c t) :
    t.addrs.length ≤ c.mem.length :=
  length_le_of_nodup_lt h.nodup fun _ hx => h.rep.lt_length hx

theorem Models.height_lt_fuel {c : BinarySearchTree T} {t : Tree T} (h : Models c t) :
    t.height < c.fuel := by
  have := h.length_le
  have := t.height_le_length
  simp only [BinarySearchTree.fuel]
  omega

/-- In a list of pairs with distinct first components, the position of a first
component is unique. -/
theorem split_unique {l : List (Nat × T)} (hnd : (l.map Prod.fst).Nodup)
    {p1 p2 s1 s2 : List (Nat × T)} {a : Nat} {v1 v2 : T}
    (h1 : l = p1 ++ (a, v1) :: s1) (h2 : l = p2 ++ (a, v2) :: s2) :
    p1 = p2 ∧ v1 = v2 ∧ s1 = s2 := by
  induction p1 generalizing l p2 with
  | nil =>
    cases p2 with
    | nil =>
      rw [h1] at h2
      simp at h2
      exact ⟨rfl, h2.1, h2.2⟩
    | cons x p2 =>
      exfalso
      rw [h1] at h2
      simp at h2
      obtain ⟨hx, hs⟩ := h2
      rw [h1, hs] at hnd
      simp [← hx] at hnd
  | cons x p1 ih =>
    cases p2 with
    | nil =>
      exfalso
      rw [h2] at h1
      simp at h1
      obtain ⟨hx, hs⟩ := h1
      rw [h2, hs] at hnd
      simp [← hx] at hnd
    | cons y p2 =>
      rw [h1] at h2
      simp at h2
      obtain ⟨hxy, hrest⟩ := h2
      have hnd2 : ((p1 ++ (a, v1) :: s1).map Prod.fst).Nodup := by
        rw [h1] at hnd
        simp only [List.cons_append, List.map_cons, List.nodup_cons] at hnd
        exact hnd.2
      obtain ⟨e1, e2, e3⟩ := ih hnd2 rfl hrest
      exact ⟨by rw [hxy, e1], e2, e3⟩

/-- The method `begin()` returns the first node of the in-order sequence. -/
theorem Models.begin_eq {c : BinarySearchTree T} {t : Tree T} (h : Models c t) :
    c.begin = some ⟨t.addrs.head?⟩ := by
  cases t with
  | nil =>
    have hr := h.root
    simp at hr
    simp [BinarySearchTree.begin, hr]
  | node l a v r =>
    have hr := h.root
    simp at hr
    simp only [BinarySearchTree.begin, hr]
    rw [descendLeft_eq h.rep (by have := h.height_lt_fuel; omega)]
    have := Tree.elems_eq_min_cons l r a v
    simp [Tree.addrs_eq_map, this]

/-- The method `Next` returns the node that follows in the in-order sequence. -/
theorem Models.next_eq {c : BinarySearchTree T} {ctx : Ctx T} {l r : Tree T} {a : Nat} {v : T}
    (h : Models c (Ctx.plug ctx (Tree.node l a v r))) :
    c.Next ⟨some a⟩ = some ((r.addrs ++ ctx.after.map Prod.fst).head?) := by
  have hrep := (Ctx.rep_plug _ _ _ _).mp h.rep
  obtain ⟨⟨h1, h2, h3⟩, h4⟩ := hrep
  have hnd := (Ctx.nodup_plug _ _).mp h.nodup
  have hlen := h.length_le
  rw [Ctx.length_addrs_plug] at hlen
  simp only [BinarySearchTree.Next, h1]
  cases r with
  | nil =>
    simp only [Tree.ptr_nil, Tree.addrs_nil, List.nil_append]
    refine climb_eq h4 (hnd.2.2 a (by simp)) hnd.2.1 ?_
    have : ctx.length ≤ (Ctx.addrs ctx).length := by
      clear h h1 h2 h3 h4 hnd hlen
      induction ctx with
      | nil => simp
      | cons f ctx ih => cases f <;> simp <;> omega
    simp only [BinarySearchTree.fuel]
    omega
  | node rl ra rv rr =>
    simp only [Tree.ptr_node]
    rw [descendLeft_eq h3 ?_]
    · have := Tree.elems_eq_min_cons rl rr ra rv
      simp [Tree.addrs_eq_map, this]
    · have := (Tree.node rl ra rv rr).height_le_length
      simp only [Tree.addrs_node, List.length_append, List.length_cons] at hlen this
      simp only [BinarySearchTree.fuel]
      omega

/-- The loop of `to_vector`, started at any position of the in-order sequence,
appends the values from that position on. -/
theorem Models.to_vector_loop {c : BinarySearchTree T} {t : Tree T} (h : Models c t)
    {p q : List (Nat × T)} (hsplit : t.elems = p ++ q) {f : Nat}
    (hf : q.length < f) (acc : List T) :
    BinarySearchTree.to_vector.loop c f ⟨(q.map Prod.fst).head?⟩ acc =
      some (acc ++ q.map Prod.snd) := by
  induction q generalizing p f acc with
  | nil =>
    cases f with
    | zero => simp at hf
    | succ n => simp [BinarySearchTree.to_vector.loop, BinarySearchTree.end]
  | cons e q ih =>
    obtain ⟨a, v⟩ := e
    cases f with
    | zero => simp at hf
    | succ n =>
      have ha : a ∈ t.addrs := by simp [Tree.addrs_eq_map, hsplit]
      obtain ⟨ctx, l, v2, r, ht⟩ := Ctx.exists_plug_of_mem ha
      subst ht
      have hnd : ((Ctx.plug ctx (Tree.node l a v2 r)).elems.map Prod.fst).Nodup := by
        rw [← Tree.addrs_eq_map]; exact h.nodup
      have hel : (Ctx.plug ctx (Tree.node l a v2 r)).elems =
          (ctx.before ++ l.elems) ++ (a, v2) :: (r.elems ++ ctx.after) := by
        simp [Ctx.elems_plug]
      obtain ⟨-, hv, hes⟩ := split_unique hnd hsplit hel
      subst hv
      have hnext := h.next_eq
      obtain ⟨⟨h1, -, -⟩, -⟩ := (Ctx.rep_plug _ _ _ _).mp h.rep
      have hih := ih (p := p ++ [(a, v)]) (by simp [hsplit]) (f := n)
        (by simpa using hf) (acc ++ [v])
      simp only [BinarySearchTree.to_vector.loop, BinarySearchTree.end, List.map_cons,
        List.head?_cons, BinarySearchTree.deref, BinarySearchTree.incr, h1, hnext,
        Option.map_some']
      rw [if_neg (by simp)]
      simp only [hes, List.map_append, ← Tree.addrs_eq_map] at hih ⊢
      simpa using hih

/-- The method `to_vector()` returns the in-order values. -/
theorem Models.to_vector_eq {c : BinarySearchTree T} {t : Tree T} (h : Models c t) :
    c.to_vector = some t.values := by
  simp only [BinarySearchTree.to_vector, h.begin_eq]
  have := h.to_vector_loop (p := []) (q := t.elems) rfl (f := c.fuel) ?_ []
  · simpa [Tree.addrs_eq_map, Tree.values_eq_map] using this
  · have := h.length_le
    simp only [BinarySearchTree.fuel, Tree.addrs_eq_map, List.length_map] at this ⊢
    omega

end Iteration

/-! ## Insertion -/

section Insertion

variable {T : Type} [LinearOrder T]

theorem Tree.ins_ptr {t : Tree T} (hne : t ≠ Tree.nil) (a : Nat) (v : T) :
    (t.ins a v).ptr = t.ptr := by
  cases t with
  | nil => exact absurd rfl hne
  | node l b w r =>
    simp only [Tree.ins]
    split <;> rfl

theorem Tree.mem_addrs_ins (t : Tree T) (a : Nat) (v : T) (x : Nat) :
    x ∈ (t.ins a v).addrs ↔ x = a ∨ x ∈ t.addrs := by
  induction t with
  | nil => simp [Tree.ins]
  | node l b w r ihl ihr =>
    simp only [Tree.ins]
    split
    · simp [ihl]; tauto
    · simp [ihr]; tauto

theorem Tree.addrs_ins_perm (t : Tree T) (a : Nat) (v : T) :
    List.Perm (t.ins a v).addrs (a :: t.addrs) := by
  induction t with
  | nil => simp [Tree.ins]
  | node l b w r ihl ihr =>
    simp only [Tree.ins]
    split
    · simp only [Tree.addrs_node]
      exact (List.Perm.append_right _ ihl)
    · simp only [Tree.addrs_node]
      refine List.Perm.trans (List.Perm.append_left _ (List.Perm.cons _ ihr)) ?_
      rw [List.perm_iff_count]
      intro x
      simp only [List.count_append, List.count_cons]
      omega

/-- The loop of `InsertNode` attaches the new node where `ins` puts it and touches
no cell outside the tree. -/
theorem insert_descend_eq {mem : Heap T} {t : Tree T} {b : Nat} {par : Option Nat}
    (hptr : t.ptr = some b) (h : t.Rep mem par) (hnd : t.addrs.Nodup) {node : Nat} {v : T}
    (hnew : mem.get node = some ⟨v, none, none, none⟩) (hnot : node ∉ t.addrs)
    {f : Nat} (hf : t.height ≤ f) :
    ∃ m2, BinarySearchTree.InsertNode.descend node f mem b = some m2 ∧
      (t.ins node v).Rep m2 par ∧ m2.length = mem.length ∧
      ∀ x, x ∉ t.addrs → x ≠ node → m2.get x = mem.get x := by
  induction t generalizing b par f with
  | nil => cases hptr
  | node l a w r ihl ihr =>
    simp only [Tree.ptr_node, Option.some.injEq] at hptr
    subst hptr
    obtain ⟨h1, h2, h3⟩ := h
    obtain ⟨hndl, hndr, hal, har, hlr⟩ := (Tree.nodup_node l r a w).mp hnd
    simp only [Tree.addrs_node, List.mem_append, List.mem_cons, not_or] at hnot
    obtain ⟨hnl, hna, hnr⟩ := hnot
    have hlta := Heap.lt_of_get_eq_some h1
    have hltn := Heap.lt_of_get_eq_some hnew
    cases f with
    | zero => simp [Tree.height] at hf
    | succ n =>
      simp only [Tree.height] at hf
      simp only [BinarySearchTree.InsertNode.descend, hnew, h1, Tree.ins]
      by_cases hvw : v < w
      · simp only [hvw, if_true]
        cases l with
        | nil =>
          simp only [Tree.ptr_nil, Heap.setLeft_eq _ h1, Option.some_bind, Tree.ins]
          have hg : Heap.get (List.set mem a (some ⟨w, some node, r.ptr, par⟩)) node =
              some ⟨v, none, none, none⟩ := by
            rw [Heap.get_set_ne _ _ hna, hnew]
          rw [Heap.setParent_eq _ hg]
          refine ⟨_, rfl, ⟨?_, ⟨?_, trivial, trivial⟩, ?_⟩, by simp, ?_⟩
          · rw [Heap.get_set_ne _ _ (Ne.symm hna), Heap.get_set_eq _ _ hlta]
            rfl
          · rw [Heap.get_set_eq _ _ (by simpa using hltn)]
            rfl
          · refine h3.frame fun x hx => ?_
            rw [Heap.get_set_ne _ _ (by rintro rfl; exact hnr hx),
              Heap.get_set_ne _ _ (by rintro rfl; exact har hx)]
          · intro x hx hxn
            simp only [Tree.addrs_node, Tree.addrs_nil, List.nil_append, List.mem_cons,
              not_or] at hx
            rw [Heap.get_set_ne _ _ hxn, Heap.get_set_ne _ _ hx.1]
        | node ll la lv lr =>
          simp only [Tree.ptr_node]
          obtain ⟨m2, hm2, hrep, hlen, hfr⟩ := ihl rfl h2 hndl hnl (f := n) (by omega)
          refine ⟨m2, hm2, ⟨?_, hrep, ?_⟩, hlen, ?_⟩
          · rw [hfr a hal (Ne.symm hna), h1, Tree.ins_ptr (by simp)]
          · refine h3.frame fun x hx => hfr x (fun hx2 => hlr x hx2 hx) ?_
            rintro rfl; exact hnr hx
          · intro x hx hxn
            simp only [Tree.addrs_node, List.mem_append, List.mem_cons, not_or] at hx
            exact hfr x (by simpa using hx.1) hxn
      · simp only [hvw, if_false]
        cases r with
        | nil =>
          simp only [Tree.ptr_nil, Heap.setRight_eq _ h1, Option.some_bind, Tree.ins]
          have hg : Heap.get (List.set mem a (some ⟨w, l.ptr, some node, par⟩)) node =
              some ⟨v, none, none, none⟩ := by
            rw [Heap.get_set_ne _ _ hna, hnew]
          rw [Heap.setParent_eq _ hg]
          refine ⟨_, rfl, ⟨?_, ?_, ⟨?_, trivial, trivial⟩⟩, by simp, ?_⟩
          · rw [Heap.get_set_ne _ _ (Ne.symm hna), Heap.get_set_eq _ _ hlta]
            rfl
          · refine h2.frame fun x hx => ?_
            rw [Heap.get_set_ne _ _ (by rintro rfl; exact hnl hx),
              Heap.get_set_ne _ _ (by rintro rfl; exact hal hx)]
          · rw [Heap.get_set_eq _ _ (by simpa using hltn)]
            rfl
          · intro x hx hxn
            simp only [Tree.addrs_node, Tree.addrs_nil, List.mem_append, List.mem_cons,
              not_or] at hx
            rw [Heap.get_set_ne _ _ hxn, Heap.get_set_ne _ _ hx.2.1]
        | node rl ra rv rr =>
          simp only [Tree.ptr_node]
          obtain ⟨m2, hm2, hrep, hlen, hfr⟩ := ihr rfl h3 hndr hnr (f := n) (by omega)
          refine ⟨m2, hm2, ⟨?_, ?_, hrep⟩, hlen, ?_⟩
          · rw [hfr a har (Ne.symm hna), h1, Tree.ins_ptr (by simp)]
          · refine h2.frame fun x hx => hfr x (fun hx2 => hlr x hx hx2) ?_
            rintro rfl; exact hnl hx
          · intro x hx hxn
            simp only [Tree.addrs_node, List.mem_append, List.mem_cons, not_or] at hx
            exact hfr x (by simpa using hx.2.2) hxn

/-- The method `insert` refines `ins`: the new node gets the next fresh address. -/
theorem Models.insert {c : BinarySearchTree T} {t : Tree T} (h : Models c t) (v : T) :
    ∃ c2, c.insert v = some c2 ∧ Models c2 (t.ins c.mem.length v) := by
  have hfresh : c.mem.length ∉ t.addrs := fun hx => by
    have := h.rep.lt_length hx
    omega
  have hnew : Heap.get (c.mem ++ [some ⟨v, none, none, none⟩]) c.mem.length =
      some ⟨v, none, none, none⟩ := Heap.get_append_length _ _
  have hrep2 : t.Rep (c.mem ++ [some ⟨v, none, none, none⟩]) none :=
    h.rep.frame fun a ha => Heap.get_append_lt _ _ (h.rep.lt_length ha)
  cases t with
  | nil =>
    have hr := h.root
    simp only [Tree.ptr_nil] at hr
    refine ⟨_, by simp only [BinarySearchTree.insert, BinarySearchTree.InsertNode, hr,
      Heap.alloc]; rfl, ?_⟩
    refine ⟨rfl, ⟨hnew, trivial, trivial⟩, by simp [Tree.ins], ?_, ?_⟩
    · simp [Tree.ins, h.size]
    · intro a ha
      simp only [Tree.ins, Tree.addrs_node, Tree.addrs_nil, List.nil_append,
        List.mem_singleton]
      by_contra hne
      rcases Nat.lt_or_gt_of_ne hne with hlt | hgt
      · rw [Heap.get_append_lt _ _ hlt] at ha
        simpa using h.live a ha
      · rw [Heap.get_eq_none_of_le _ _ (by simp; omega)] at ha
        simp at ha
  | node l b w r =>
    have hr := h.root
    simp only [Tree.ptr_node] at hr
    have hlen := h.length_le
    have hht := (Tree.node l b w r).height_le_length
    obtain ⟨m2, hm2, hrep, hlen2, hfr⟩ := insert_descend_eq (t := Tree.node l b w r) rfl hrep2
      h.nodup hnew hfresh (f := c.mem.length + 1 + 1) (by omega)
    refine ⟨_, by simp only [BinarySearchTree.insert, BinarySearchTree.InsertNode, hr,
      Heap.alloc, BinarySearchTree.fuel, List.length_append, List.length_singleton, hm2,
      Option.map_some']; rfl, ?_⟩
    refine ⟨?_, hrep, ?_, ?_, ?_⟩
    · rw [Tree.ins_ptr (by simp)]; rfl
    · rw [(Tree.addrs_ins_perm _ _ _).nodup_iff]
      exact List.nodup_cons.mpr ⟨hfresh, h.nodup⟩
    · rw [(Tree.addrs_ins_perm _ _ _).length_eq]
      simp [h.size]
    · intro a ha
      rw [Tree.mem_addrs_ins]
      by_contra hne
      simp only [not_or] at hne
      simp only at ha
      rw [hfr a hne.2 hne.1] at ha
      rcases Nat.lt_or_gt_of_ne hne.1 with hlt | hgt
      · rw [Heap.get_append_lt _ _ hlt] at ha
        exact hne.2 (h.live a ha)
      · rw [Heap.get_eq_none_of_le _ _ (by simp; omega)] at ha
        simp at ha

theorem Models.emplace {c : BinarySearchTree T} {t : Tree T} (h : Models c t) (v : T) :
    ∃ c2, c.emplace v = some c2 ∧ Models c2 (t.ins c.mem.length v) :=
  h.insert v

/-- Where `ins` puts the new value in the in-order sequence, and that it keeps the
BST order. -/
theorem Tree.ins_values {t : Tree T} (ho : t.Ordered) (a : Nat) (v : T) :
    (t.ins a v).Ordered ∧
      ∃ l1 l2, t.values = l1 ++ l2 ∧ (∀ x ∈ l1, x ≤ v) ∧ (∀ x ∈ l2, v < x) ∧
        (t.ins a v).values = l1 ++ v :: l2 := by
  induction t with
  | nil => exact ⟨by simp [Tree.ins, Tree.Ordered], [], [], by simp [Tree.ins]⟩
  | node l b w r ihl ihr =>
    obtain ⟨h1, h2, h3, h4⟩ := ho
    simp only [Tree.ins]
    by_cases hvw : v < w
    · simp only [hvw, if_true]
      obtain ⟨ho2, l1, l2, e1, e2, e3, e4⟩ := ihl h3
      refine ⟨⟨?_, h2, ho2, h4⟩, l1, l2 ++ w :: r.values, by simp [e1], e2, ?_,
        by simp [e4]⟩
      · intro x hx
        rw [e4] at hx
        simp only [List.mem_append, List.mem_cons] at hx
        rcases hx with hx | rfl | hx
        · exact h1 x (by simp [e1, hx])
        · exact hvw
        · exact h1 x (by simp [e1, hx])
      · intro x hx
        simp only [List.mem_append, List.mem_cons] at hx
        rcases hx with hx | rfl | hx
        · exact e3 x hx
        · exact hvw
        · exact lt_of_lt_of_le hvw (h2 x hx)
    · simp only [hvw, if_false]
      have hwv : w ≤ v := not_lt.mp hvw
      obtain ⟨ho2, l1, l2, e1, e2, e3, e4⟩ := ihr h4
      refine ⟨⟨h1, ?_, h3, ho2⟩, l.values ++ w :: l1, l2, by simp [e1], ?_, e3,
        by simp [e4]⟩
      · intro x hx
        rw [e4] at hx
        simp only [List.mem_append, List.mem_cons] at hx
        rcases hx with hx | rfl | hx
        · exact h2 x (by simp [e1, hx])
        · exact hwv
        · exact h2 x (by simp [e1, hx])
      · intro x hx
        simp only [List.mem_append, List.mem_cons] at hx
        rcases hx with hx | rfl | hx
        · exact le_of_lt (lt_of_lt_of_le (h1 x hx) hwv)
        · exact hwv
        · exact e2 x hx

end Insertion

/-! ## Framing of pointer updates -/

section Framing

variable {T : Type}

theorem Heap.Agree.refl (m : Heap T) : Heap.Agree m m [] :=
  ⟨rfl, fun _ => rfl, fun _ _ => rfl⟩

theorem Heap.Agree.trans {m m1 m2 : Heap T} {S1 S2 : List Nat} (h1 : Heap.Agree m m1 S1)
    (h2 : Heap.Agree m1 m2 S2) : Heap.Agree m m2 (S1 ++ S2) := by
  refine ⟨h2.1.trans h1.1, fun y => (h2.2.1 y).trans (h1.2.1 y), fun y hy => ?_⟩
  simp only [List.mem_append, not_or] at hy
  rw [h2.2.2 y hy.2, h1.2.2 y hy.1]

theorem Heap.Agree.set {m : Heap T} {p : Nat} {n : TreeNode T} (hg : m.get p = some n)
    (n2 : TreeNode T) : Heap.Agree m (List.set m p (some n2)) [p] := by
  refine ⟨by simp, fun y => ?_, fun y hy => ?_⟩
  · by_cases hy : y = p
    · subst hy
      rw [Heap.get_set_eq _ _ (Heap.lt_of_get_eq_some hg), hg]
      rfl
    · rw [Heap.get_set_ne _ _ hy]
  · exact Heap.get_set_ne _ _ (by simpa using hy)

theorem Heap.Agree.get {m m2 : Heap T} {S : List Nat} (h : Heap.Agree m m2 S) {x : Nat}
    (hx : x ∉ S) {y : Option (TreeNode T)} (hg : m.get x = y) : m2.get x = y := by
  rw [h.2.2 x hx, hg]

theorem Tree.Rep.agree {m m2 : Heap T} {S : List Nat} {t : Tree T} {par : Option Nat}
    (h : t.Rep m par) (ha : Heap.Agree m m2 S) (hS : ∀ x ∈ S, x ∉ t.addrs) : t.Rep m2 par :=
  h.frame fun a hat => ha.2.2 a fun has => hS a has hat

theorem Ctx.Rep.agree_ctx {m m2 : Heap T} {S : List Nat} {c : Ctx T} {h top : Option Nat}
    (hr : Ctx.Rep m c h top) (ha : Heap.Agree m m2 S) (hS : ∀ x ∈ S, x ∉ Ctx.addrs c) :
    Ctx.Rep m2 c h top :=
  hr.frame_ctx fun a hat => ha.2.2 a fun has => hS a has hat

/-- Re-parenting the root of a tree (`if (q != nullptr) q->parent_ = x`). -/
theorem Tree.Rep.reparent {mem : Heap T} {t : Tree T} {par : Option Nat}
    (h : t.Rep mem par) (hnd : t.addrs.Nodup) (par2 : Option Nat) :
    ∃ m2, mem.setParentIfSome t.ptr par2 = some m2 ∧ t.Rep m2 par2 ∧
      Heap.Agree mem m2 t.ptr.toList := by
  cases t with
  | nil => exact ⟨mem, rfl, trivial, by simpa using Heap.Agree.refl mem⟩
  | node l b v r =>
    obtain ⟨h1, h2, h3⟩ := h
    obtain ⟨-, -, hbl, hbr, -⟩ := (Tree.nodup_node l r b v).mp hnd
    have hag := Heap.Agree.set h1 ⟨v, l.ptr, r.ptr, par2⟩
    refine ⟨_, by simp [Heap.setParentIfSome, Heap.setParent_eq _ h1], ⟨?_, ?_, ?_⟩, hag⟩
    · simp [Heap.get_set_eq _ _ (Heap.lt_of_get_eq_some h1)]
    · exact h2.agree hag (by simpa using hbl)
    · exact h3.agree hag (by simpa using hbr)

/-- The root pointer of a non-empty context does not depend on the hole. -/
theorem Ctx.root_cons (f : Frame T) (c : Ctx T) (h h2 : Option Nat) :
    Ctx.root (f :: c) h = Ctx.root (f :: c) h2 := by
  cases f <;> rfl

/-- The root of a non-empty context is one of its frames. -/
theorem Ctx.root_mem (f : Frame T) (c : Ctx T) (h : Option Nat) :
    ∃ p, Ctx.root (f :: c) h = some p ∧ p ∈ Ctx.addrs (f :: c) := by
  induction c generalizing f h with
  | nil => cases f <;> simp [Ctx.root]
  | cons g c ih =>
    have key : ∀ b, ∃ p, Ctx.root (g :: c) (some b) = some p ∧ p ∈ Ctx.addrs (g :: c) :=
      fun b => ih g (some b)
    cases f with
    | L a v r =>
      obtain ⟨p, hp, hm⟩ := key a
      exact ⟨p, hp, by simp only [Ctx.addrs_L, List.mem_cons, List.mem_append]; tauto⟩
    | R l a v =>
      obtain ⟨p, hp, hm⟩ := key a
      exact ⟨p, hp, by simp only [Ctx.addrs_R, List.mem_cons, List.mem_append]; tauto⟩

/-- The statement `if (p->left_ == node) p->left_ = x; else p->right_ = x;` applied to
the parent of the hole replaces the pointer in the hole. -/
theorem Ctx.Rep.relink {mem : Heap T} {f : Frame T} {c : Ctx T} {a : Nat} {top : Option Nat}
    (h : Ctx.Rep mem (f :: c) (some a) top) (ha : a ∉ Ctx.addrs (f :: c))
    (hnd : (Ctx.addrs (f :: c)).Nodup) (x : Option Nat) :
    ∃ p m2, Ctx.par (f :: c) top = some p ∧ p ∈ Ctx.addrs (f :: c) ∧
      mem.relink p a x = some m2 ∧ Ctx.Rep m2 (f :: c) x top ∧ Heap.Agree mem m2 [p] := by
  cases f with
  | L b w r =>
    obtain ⟨h1, h2, h3⟩ := h
    simp only [Ctx.addrs_L, List.nodup_cons, List.mem_append, not_or, List.nodup_append] at hnd
    have hag := Heap.Agree.set h1 ⟨w, x, r.ptr, Ctx.par c top⟩
    refine ⟨b, _, rfl, by simp, ?_, ⟨?_, ?_, ?_⟩, hag⟩
    · simp only [Heap.relink, h1, if_true, Heap.setLeft_eq _ h1]
    · simp [Heap.get_set_eq _ _ (Heap.lt_of_get_eq_some h1)]
    · exact h2.agree hag (by simpa using hnd.1.1)
    · exact h3.agree_ctx hag (by simpa using hnd.1.2)
  | R l b w =>
    obtain ⟨h1, h2, h3⟩ := h
    simp only [Ctx.addrs_R, List.nodup_cons, List.mem_append, not_or, List.nodup_append] at hnd
    simp only [Ctx.addrs_R, List.mem_cons, List.mem_append, not_or] at ha
    have hag := Heap.Agree.set h1 ⟨w, l.ptr, x, Ctx.par c top⟩
    have hne : l.ptr ≠ some a := Tree.ptr_ne_of_not_mem ha.2.1
    refine ⟨b, _, rfl, by simp, ?_, ⟨?_, ?_, ?_⟩, hag⟩
    · simp only [Heap.relink, h1, hne, if_false, Heap.setRight_eq _ h1]
    · simp [Heap.get_set_eq _ _ (Heap.lt_of_get_eq_some h1)]
    · exact h2.agree hag (by simpa using hnd.1.1)
    · exact h3.agree_ctx hag (by simpa using hnd.1.2)

end Framing

/-! ## Erasure -/

section Erasure

variable {T : Type}

theorem Tree.elems_join (l r : Tree T) : (Tree.join l r).elems = l.elems ++ r.elems := by
  cases l with
  | nil => simp [Tree.join]
  | node ll la lv lr =>
    cases r with
    | nil => simp [Tree.join]
    | node rl ra rv rr =>
      simp only [Tree.join, Tree.elems_node (Tree.node ll la lv lr)]
      rw [← Tree.elems_eq_min_cons]

theorem Tree.addrs_join (l r : Tree T) : (Tree.join l r).addrs = l.addrs ++ r.addrs := by
  simp [Tree.addrs_eq_map, Tree.elems_join]

theorem Tree.values_join (l r : Tree T) : (Tree.join l r).values = l.values ++ r.values := by
  simp [Tree.values_eq_map, Tree.elems_join]

/-- Assembling the container after the node `a` has been unlinked: the subtree `s2`
now stands in the place of `a`, and the cell of `a` is deleted. -/
theorem Models.erase_finish {c : BinarySearchTree T} {ctx : Ctx T} {l r : Tree T} {a : Nat}
    {v : T} (h : Models c (Ctx.plug ctx (Tree.node l a v r))) {mK : Heap T}
    (hlen : mK.length = c.mem.length)
    (hsome : ∀ y, (mK.get y).isSome = (c.mem.get y).isSome)
    {u : Tree T} (haddrs : u.addrs = l.addrs ++ r.addrs)
    (hrep : u.Rep mK (Ctx.par ctx none)) (hctx : Ctx.Rep mK ctx u.ptr none) :
    Models ⟨mK.free a, Ctx.root ctx u.ptr, c.size_ - 1⟩ (Ctx.plug ctx u) := by
  obtain ⟨hnd1, hnd2, hdisj⟩ := (Ctx.nodup_plug _ _).mp h.nodup
  obtain ⟨hndl, hndr, hal, har, hlr⟩ := (Tree.nodup_node l r a v).mp hnd1
  have has2 : a ∉ u.addrs := by simp [haddrs, hal, har]
  have hac : a ∉ Ctx.addrs ctx := hdisj a (by simp)
  have hget : ∀ y, y ≠ a → Heap.get (mK.free a) y = mK.get y := fun y hy =>
    Heap.get_set_ne _ _ hy
  refine ⟨by simp [Ctx.ptr_plug], ?_, ?_, ?_, ?_⟩
  · refine (Ctx.rep_plug _ _ _ _).mpr ⟨hrep.frame fun y hy => hget y ?_,
      hctx.frame_ctx fun y hy => hget y ?_⟩
    · rintro rfl; exact has2 hy
    · rintro rfl; exact hac hy
  · refine (Ctx.nodup_plug _ _).mpr ⟨?_, hnd2, fun x hx => hdisj x ?_⟩
    · rw [haddrs]
      exact List.nodup_append.mpr ⟨hndl, hndr, fun x hx hx2 => hlr x hx hx2⟩
    · rw [haddrs] at hx
      simp only [Tree.addrs_node, List.mem_append, List.mem_cons] at hx ⊢
      tauto
  · have := h.size
    rw [Ctx.length_addrs_plug] at this ⊢
    simp only [Tree.addrs_node, List.length_append, List.length_cons, haddrs] at this ⊢
    simp only [this]
    push_cast
    ring
  · intro y hy
    simp only at hy
    have hya : y ≠ a := by
      rintro rfl
      have hlt : y < mK.length := by
        rw [hlen]
        exact h.rep.lt_length (by simp [Ctx.mem_addrs_plug])
      simp [Heap.free, Heap.get_set_eq _ _ hlt] at hy
    rw [hget y hya, hsome y] at hy
    have := h.live y hy
    rw [Ctx.mem_addrs_plug] at this ⊢
    simp only [Tree.addrs_node, List.mem_append, List.mem_cons, haddrs] at this ⊢
    tauto

end Erasure

section Erasure

variable {T : Type}

theorem Models.root_eq {c : BinarySearchTree T} {ctx : Ctx T} {s : Tree T}
    (h : Models c (Ctx.plug ctx s)) : c.root_ = Ctx.root ctx s.ptr := by
  rw [h.root, Ctx.ptr_plug]

/-- The pieces of a represented tree around one of its nodes. -/
theorem Models.pieces {c : BinarySearchTree T} {ctx : Ctx T} {l r : Tree T} {a : Nat} {v : T}
    (h : Models c (Ctx.plug ctx (Tree.node l a v r))) :
    c.mem.get a = some ⟨v, l.ptr, r.ptr, Ctx.par ctx none⟩ ∧ l.Rep c.mem (some a) ∧
      r.Rep c.mem (some a) ∧ Ctx.Rep c.mem ctx (some a) none ∧
      l.addrs.Nodup ∧ r.addrs.Nodup ∧ (Ctx.addrs ctx).Nodup ∧
      a ∉ l.addrs ∧ a ∉ r.addrs ∧ a ∉ Ctx.addrs ctx ∧
      (∀ x ∈ l.addrs, x ∉ r.addrs) ∧ (∀ x ∈ l.addrs, x ∉ Ctx.addrs ctx) ∧
      (∀ x ∈ r.addrs, x ∉ Ctx.addrs ctx) := by
  obtain ⟨⟨h1, h2, h3⟩, h4⟩ := (Ctx.rep_plug _ _ _ _).mp h.rep
  obtain ⟨hnd1, hnd2, hdisj⟩ := (Ctx.nodup_plug _ _).mp h.nodup
  obtain ⟨hndl, hndr, hal, har, hlr⟩ := (Tree.nodup_node l r a v).mp hnd1
  exact ⟨h1, h2, h3, h4, hndl, hndr, hnd2, hal, har, hdisj a (by simp), hlr,
    fun x hx => hdisj x (by simp [hx]), fun x hx => hdisj x (by simp [hx])⟩

/-- The method `DeleteLeaf` on a leaf of the tree. -/
theorem Models.deleteLeaf {c : BinarySearchTree T} {ctx : Ctx T} {a : Nat} {v : T}
    (h : Models c (Ctx.plug ctx (Tree.node Tree.nil a v Tree.nil))) :
    ∃ c2, c.DeleteLeaf (some a) = some c2 ∧ Models c2 (Ctx.plug ctx Tree.nil) ∧
      c2.mem.length = c.mem.length := by
  obtain ⟨hA, -, -, hC, -, -, hndc, -, -, hac, -, -, -⟩ := h.pieces
  have hroot : c.root_ = Ctx.root ctx (some a) := h.root_eq
  cases ctx with
  | nil =>
    have := h.erase_finish rfl (fun _ => rfl) (u := Tree.nil) rfl trivial trivial
    refine ⟨_, ?_, this, by simp [Heap.free]⟩
    simp [BinarySearchTree.DeleteLeaf, hA, Ctx.par, Ctx.root]
  | cons f ctx =>
    obtain ⟨p, m2, hp, -, hrel, hC2, hag⟩ := hC.relink hac hndc none
    have := h.erase_finish hag.1 hag.2.1 (u := Tree.nil) rfl trivial hC2
    rw [Ctx.root_cons f ctx _ (some a), ← hroot] at this
    refine ⟨_, ?_, this, by simp [Heap.free, hag.1]⟩
    simp [BinarySearchTree.DeleteLeaf, hA, hp, hrel]

/-- One branch of `DeleteNodeWithOneChild`: the child subtree `s` is promoted. -/
theorem Models.promote {c : BinarySearchTree T} {ctx : Ctx T} {l r : Tree T} {a : Nat} {v : T}
    (h : Models c (Ctx.plug ctx (Tree.node l a v r))) {s : Tree T} {sa : Nat}
    (hsa : s.ptr = some sa) (haddrs : s.addrs = l.addrs ++ r.addrs)
    (hS : s.Rep c.mem (some a)) (child : TreeNode T → Option Nat)
    (hch : child ⟨v, l.ptr, r.ptr, Ctx.par ctx none⟩ = s.ptr) :
    ∃ d, BinarySearchTree.DeleteNodeWithOneChild.promote c a child = some d ∧
      Models ⟨d.mem.free a, d.root_, d.size_ - 1⟩ (Ctx.plug ctx s) ∧
      d.mem.length = c.mem.length := by
  obtain ⟨hA, -, -, hC, hndl, hndr, hndc, hal, har, hac, hlr, hlc, hrc⟩ := h.pieces
  have hroot : c.root_ = Ctx.root ctx (some a) := h.root_eq
  have hnds : s.addrs.Nodup := by
    rw [haddrs]; exact List.nodup_append.mpr ⟨hndl, hndr, fun x hx hx2 => hlr x hx hx2⟩
  have hsc : ∀ x ∈ s.addrs, x ∉ Ctx.addrs ctx := by
    intro x hx
    rw [haddrs, List.mem_append] at hx
    rcases hx with hx | hx
    · exact hlc x hx
    · exact hrc x hx
  have hsam : sa ∈ s.addrs := Tree.ptr_mem_addrs hsa
  have hasa : a ≠ sa := by
    rintro rfl
    rw [haddrs, List.mem_append] at hsam
    rcases hsam with hx | hx
    · exact hal hx
    · exact har hx
  obtain ⟨m1, hm1, hS1, hag1⟩ := hS.reparent hnds (Ctx.par ctx none)
  rw [hsa] at hm1 hag1
  simp only [Heap.setParentIfSome] at hm1
  have hA1 := hag1.get (by simpa using hasa) hA
  cases ctx with
  | nil =>
    have := h.erase_finish hag1.1 hag1.2.1 haddrs hS1 trivial
    refine ⟨⟨m1, s.ptr, c.size_⟩, ?_, this, hag1.1⟩
    simp only [Ctx.par] at hA hch hm1 hA1
    simp only [BinarySearchTree.DeleteNodeWithOneChild.promote, hA, hch, hsa, Option.bind_eq_bind,
      Option.some_bind, hm1, hA1]
  | cons f ctx =>
    have hC1 := hC.agree_ctx hag1 (by simpa using hsc sa hsam)
    obtain ⟨p, m2, hp, hpm, hrel, hC2, hag2⟩ := hC1.relink hac hndc s.ptr
    have hS2 := hS1.agree hag2 (by
      intro x hx hx2
      simp only [List.mem_singleton] at hx
      subst hx
      exact hsc x hx2 hpm)
    have := h.erase_finish (hag1.trans hag2).1 (hag1.trans hag2).2.1 haddrs hS2 hC2
    rw [Ctx.root_cons f ctx _ (some a), ← hroot] at this
    refine ⟨⟨m2, c.root_, c.size_⟩, ?_, this, hag2.1.trans hag1.1⟩
    rw [hp] at hA hch hm1 hA1
    rw [hsa] at hrel
    simp only [BinarySearchTree.DeleteNodeWithOneChild.promote, hA, hch, hsa, Option.bind_eq_bind,
      Option.some_bind, hm1, hA1, hrel, Option.map_some']

/-- The method `DeleteNodeWithOneChild` on a node with exactly one child. -/
theorem Models.deleteOneChild {c : BinarySearchTree T} {ctx : Ctx T} {l r : Tree T} {a : Nat}
    {v : T} (h : Models c (Ctx.plug ctx (Tree.node l a v r)))
    (hone : (l = Tree.nil ∧ r ≠ Tree.nil) ∨ (l ≠ Tree.nil ∧ r = Tree.nil)) :
    ∃ c2, c.DeleteNodeWithOneChild a = some c2 ∧ Models c2 (Ctx.plug ctx (Tree.join l r)) := by
  obtain ⟨hA, hL, hR, -⟩ := h.pieces
  rcases hone with ⟨rfl, hr⟩ | ⟨hl, rfl⟩
  · cases r with
    | nil => exact absurd rfl hr
    | node rl ra rv rr =>
      obtain ⟨d, hd, hm, -⟩ := h.promote (s := Tree.node rl ra rv rr) rfl (by simp) hR
        (fun x => x.right_) rfl
      refine ⟨_, ?_, hm⟩
      simp [BinarySearchTree.DeleteNodeWithOneChild, hA, hd]
  · cases l with
    | nil => exact absurd rfl hl
    | node ll la lv lr =>
      obtain ⟨d, hd, hm, -⟩ := h.promote (s := Tree.node ll la lv lr) rfl (by simp) hL
        (fun x => x.left_) rfl
      refine ⟨_, ?_, hm⟩
      simp [BinarySearchTree.DeleteNodeWithOneChild, hA, hd]

end Erasure

section Erasure

variable {T : Type}

theorem Heap.Agree.on {m m2 : Heap T} {S : List Nat} (h : Heap.Agree m m2 S) (g : Nat → Nat)
    {K : List Nat} (hS : ∀ x ∈ S, g x ∈ K) : Heap.AgreeOn g m m2 K :=
  ⟨h.1, h.2.1, fun y hy => h.2.2 y fun hys => hy (hS y hys)⟩

theorem Heap.AgreeOn.transOn {g : Nat → Nat} {m m1 m2 : Heap T} {K1 K2 : List Nat}
    (h1 : Heap.AgreeOn g m m1 K1) (h2 : Heap.AgreeOn g m1 m2 K2) :
    Heap.AgreeOn g m m2 (K1 ++ K2) := by
  refine ⟨h2.1.trans h1.1, fun y => (h2.2.1 y).trans (h1.2.1 y), fun y hy => ?_⟩
  simp only [List.mem_append, not_or] at hy
  rw [h2.2.2 y hy.2, h1.2.2 y hy.1]

theorem Heap.AgreeOn.getOn {g : Nat → Nat} {m m2 : Heap T} {K : List Nat}
    (h : Heap.AgreeOn g m m2 K) {x j : Nat} (hc : g x = j) (hj : j ∉ K)
    {y : Option (TreeNode T)} (hg : m.get x = y) : m2.get x = y := by
  rw [h.2.2 x (by rw [hc]; exact hj), hg]

theorem Tree.Rep.agreeOn {g : Nat → Nat} {m m2 : Heap T} {K : List Nat} {t : Tree T}
    {par : Option Nat} (h : t.Rep m par) (ha : Heap.AgreeOn g m m2 K) {j : Nat}
    (hc : ∀ x ∈ t.addrs, g x = j) (hj : j ∉ K) : t.Rep m2 par :=
  h.frame fun a hat => ha.2.2 a (by rw [hc a hat]; exact hj)

theorem Ctx.Rep.agreeOn_ctx {g : Nat → Nat} {m m2 : Heap T} {K : List Nat} {c : Ctx T}
    {h top : Option Nat} (hr : Ctx.Rep m c h top) (ha : Heap.AgreeOn g m m2 K) {j : Nat}
    (hc : ∀ x ∈ Ctx.addrs c, g x = j) (hj : j ∉ K) : Ctx.Rep m2 c h top :=
  hr.frame_ctx fun a hat => ha.2.2 a (by rw [hc a hat]; exact hj)

theorem Ctx.plug_append (c1 c2 : Ctx T) (s : Tree T) :
    Ctx.plug (c1 ++ c2) s = Ctx.plug c2 (Ctx.plug c1 s) := by
  induction c1 generalizing s with
  | nil => rfl
  | cons f c1 ih => cases f <;> simp [ih]

theorem Ctx.allL_append {c1 c2 : Ctx T} (h1 : Ctx.AllL c1) (h2 : Ctx.AllL c2) :
    Ctx.AllL (c1 ++ c2) := by
  induction c1 with
  | nil => exact h2
  | cons f c1 ih =>
    cases f with
    | L a v r => exact ih h1
    | R l a v => exact absurd h1 (by simp [Ctx.AllL])

/-- The leftmost node of a tree sits in a context of `L` frames, and `delMin` puts its
right subtree into that hole. -/
theorem Tree.min_decomp (l r : Tree T) (a : Nat) (v : T) :
    ∃ (cr : Ctx T) (sr : Tree T), Ctx.AllL cr ∧
      Tree.node l a v r =
        Ctx.plug cr (Tree.node Tree.nil (Tree.minAddr l a) (Tree.minVal l v) sr) ∧
      Tree.delMin (Tree.node l a v r) = Ctx.plug cr sr := by
  induction l generalizing r a v with
  | nil => exact ⟨[], r, trivial, rfl, rfl⟩
  | node ll la lv lr ihl _ =>
    obtain ⟨cr, sr, h1, h2, h3⟩ := ihl lr la lv
    refine ⟨cr ++ [Frame.L a v r], sr, Ctx.allL_append h1 trivial, ?_, ?_⟩
    · rw [Ctx.plug_append]
      simp only [Tree.minAddr, Tree.minVal]
      rw [← h2]; rfl
    · rw [Ctx.plug_append, ← h3]; rfl

/-- The statement `if (node->parent_ != nullptr) { relink }` replaces the pointer in
the hole of the context of `node`. -/
theorem Ctx.Rep.relinkParent {mem : Heap T} {ctx : Ctx T} {a : Nat} {n : TreeNode T}
    (hA : mem.get a = some n) (hpar : n.parent_ = Ctx.par ctx none)
    (h : Ctx.Rep mem ctx (some a) none) (ha : a ∉ Ctx.addrs ctx)
    (hnd : (Ctx.addrs ctx).Nodup) (x : Option Nat) :
    ∃ m2 S, mem.relinkParent a x = some m2 ∧ Ctx.Rep m2 ctx x none ∧ Heap.Agree mem m2 S ∧
      ∀ y ∈ S, y ∈ Ctx.addrs ctx := by
  cases ctx with
  | nil =>
    refine ⟨mem, [], ?_, trivial, Heap.Agree.refl _, by simp⟩
    simp [Heap.relinkParent, hA, hpar, Ctx.par]
  | cons f ctx =>
    obtain ⟨p, m2, hp, hpm, hrel, hC2, hag⟩ := h.relink ha hnd x
    refine ⟨m2, [p], ?_, hC2, hag, by simpa using hpm⟩
    simp [Heap.relinkParent, hA, hpar, hp, hrel]

/-- The statement `p->left_ = x` on the frame next to the hole, when the hole is a
left child. -/
theorem Ctx.Rep.setLeft {mem : Heap T} {np : Nat} {nv : T} {nr : Tree T} {c : Ctx T}
    {h top : Option Nat} (hr : Ctx.Rep mem (Frame.L np nv nr :: c) h top)
    (hnd : (Ctx.addrs (Frame.L np nv nr :: c)).Nodup) (x : Option Nat) :
    ∃ m2, mem.setLeft np x = some m2 ∧ Ctx.Rep m2 (Frame.L np nv nr :: c) x top ∧
      Heap.Agree mem m2 [np] := by
  obtain ⟨h1, h2, h3⟩ := hr
  simp only [Ctx.addrs_L, List.nodup_cons, List.mem_append, not_or, List.nodup_append] at hnd
  have hag := Heap.Agree.set h1 ⟨nv, x, nr.ptr, Ctx.par c top⟩
  refine ⟨_, Heap.setLeft_eq _ h1, ⟨?_, ?_, ?_⟩, hag⟩
  · simp [Heap.get_set_eq _ _ (Heap.lt_of_get_eq_some h1)]
  · exact h2.agree hag (by simpa using hnd.1.1)
  · exact h3.agree_ctx hag (by simpa using hnd.1.2)

/-- For a context of `L` frames nothing precedes the hole. -/
theorem Ctx.before_allL {c : Ctx T} (h : Ctx.AllL c) : Ctx.before c = [] := by
  induction c with
  | nil => rfl
  | cons f c ih =>
    cases f with
    | L a v r => exact ih h
    | R l a v => exact absurd h (by simp [Ctx.AllL])

end Erasure

section Erasure

variable {T : Type}

/-- The two-children situation holds in every container at a node whose right
subtree has its leftmost node `s` in the context `cr`. -/
theorem Models.spliceInv {c : BinarySearchTree T} {ctx : Ctx T} {l : Tree T} {a : Nat} {v : T}
    {cr : Ctx T} {s : Nat} {sv : T} {sr : Tree T}
    (h : Models c (Ctx.plug ctx
      (Tree.node l a v (Ctx.plug cr (Tree.node Tree.nil s sv sr))))) :
    ∃ g, SpliceInv c.mem ctx l a v cr s sv sr g := by
  obtain ⟨hA, hL, hR, hC, hndl, hndr, hndc, hal, har, hac, hlr, hlc, hrc⟩ := h.pieces
  obtain ⟨⟨hS, -, hSR⟩, hCR⟩ := (Ctx.rep_plug _ _ _ _).mp hR
  obtain ⟨hnd1, hndcr, hdisj⟩ := (Ctx.nodup_plug _ _).mp hndr
  obtain ⟨-, hndsr, -, hssr, -⟩ := (Tree.nodup_node _ _ _ _).mp hnd1
  have hmem : ∀ x, x ∈ (Ctx.plug cr (Tree.node Tree.nil s sv sr)).addrs ↔
      (x = s ∨ x ∈ sr.addrs) ∨ x ∈ Ctx.addrs cr := by
    intro x; rw [Ctx.mem_addrs_plug]; simp
  simp only [hmem] at har hlr hrc
  simp only [Tree.addrs_node, Tree.addrs_nil, List.nil_append, List.mem_cons] at hdisj
  rw [Ctx.ptr_plug] at hA
  refine ⟨fun x => if x ∈ Ctx.addrs ctx then 0 else if x = a then 1 else
    if x ∈ l.addrs then 2 else if x = s then 3 else if x ∈ sr.addrs then 4 else 5,
    ⟨hA, hL, hC, hS, hSR, hCR, hndl, hndsr, hndcr, hndc, ?_, ?_, ?_, ?_, ?_, ?_⟩⟩
  · intro x hx; simp [hx]
  · simp [hac]
  · intro x hx
    have h1 := hlc x hx
    have h2 : x ≠ a := by rintro rfl; exact hal hx
    simp [h1, h2, hx]
  · have h1 : s ∉ Ctx.addrs ctx := hrc s (Or.inl (Or.inl rfl))
    have h2 : s ≠ a := by rintro rfl; exact har (Or.inl (Or.inl rfl))
    have h3 : s ∉ l.addrs := fun hx => hlr s hx (Or.inl (Or.inl rfl))
    simp [h1, h2, h3]
  · intro x hx
    have h1 : x ∉ Ctx.addrs ctx := hrc x (Or.inl (Or.inr hx))
    have h2 : x ≠ a := by rintro rfl; exact har (Or.inl (Or.inr hx))
    have h3 : x ∉ l.addrs := fun hx2 => hlr x hx2 (Or.inl (Or.inr hx))
    have h4 : x ≠ s := by rintro rfl; exact hssr hx
    simp [h1, h2, h3, h4, hx]
  · intro x hx
    have h1 : x ∉ Ctx.addrs ctx := hrc x (Or.inr hx)
    have h2 : x ≠ a := by rintro rfl; exact har (Or.inr hx)
    have h3 : x ∉ l.addrs := fun hx2 => hlr x hx2 (Or.inr hx)
    have h4 : x ≠ s := by rintro rfl; exact hdisj x (Or.inl rfl) hx
    have h5 : x ∉ sr.addrs := fun hx2 => hdisj x (Or.inr hx2) hx
    simp [h1, h2, h3, h4, h5]

end Erasure

section Erasure

variable {T : Type}

theorem Tree.mem_addrs_of_mem_ptr {t : Tree T} {y : Nat} (hy : y ∈ t.ptr.toList) :
    y ∈ t.addrs := by
  cases t with
  | nil => simp at hy
  | node l a v r => simp at hy; simp [hy]

theorem SpliceInv.not_mem_ctx {mem : Heap T} {ctx : Ctx T} {l : Tree T} {a : Nat} {v : T}
    {cr : Ctx T} {s : Nat} {sv : T} {sr : Tree T} {g : Nat → Nat}
    (inv : SpliceInv mem ctx l a v cr s sv sr g) : a ∉ Ctx.addrs ctx := fun hx => by
  have := inv.col0 a hx
  rw [inv.col1] at this
  omega

/-- The branch `next_node->parent_ == node_to_erase`: the successor `s` takes over the
parent link and the left subtree of `a`. -/
theorem SpliceInv.spliceChild {mem : Heap T} {ctx : Ctx T} {l : Tree T} {a : Nat} {v : T}
    {s : Nat} {sv : T} {sr : Tree T} {g : Nat → Nat}
    (inv : SpliceInv mem ctx l a v [] s sv sr g) :
    ∃ m4, BinarySearchTree.erase.spliceChild mem a s = some m4 ∧
      (Tree.node l s sv sr).Rep m4 (Ctx.par ctx none) ∧ Ctx.Rep m4 ctx (some s) none ∧
      m4.length = mem.length ∧ ∀ y, (m4.get y).isSome = (mem.get y).isSome := by
  have hA : mem.get a = some ⟨v, l.ptr, some s, Ctx.par ctx none⟩ := inv.hA
  have hS : mem.get s = some ⟨sv, none, sr.ptr, some a⟩ := inv.hS
  -- next_node->left_ = node_to_erase->left_
  have e1 : Heap.copyLeft mem s a =
      some (List.set mem s (some ⟨sv, l.ptr, sr.ptr, some a⟩)) := by
    simp [Heap.copyLeft, hA, Heap.setLeft_eq _ hS]
  have hag1 := (Heap.Agree.set hS ⟨sv, l.ptr, sr.ptr, some a⟩).on g (K := [3])
    (by simp [inv.col3])
  have hS1 := Heap.get_set_eq mem (some (⟨sv, l.ptr, sr.ptr, some a⟩ : TreeNode T))
    (Heap.lt_of_get_eq_some hS)
  have hA1 := hag1.getOn inv.col1 (by decide) hA
  generalize List.set mem s (some ⟨sv, l.ptr, sr.ptr, some a⟩) = m1 at e1 hag1 hS1 hA1
  -- next_node->parent_ = node_to_erase->parent_
  have e2 : Heap.copyParent m1 s a =
      some (List.set m1 s (some ⟨sv, l.ptr, sr.ptr, Ctx.par ctx none⟩)) := by
    simp [Heap.copyParent, hA1, Heap.setParent_eq _ hS1]
  have hag2 := (Heap.Agree.set hS1 ⟨sv, l.ptr, sr.ptr, Ctx.par ctx none⟩).on g (K := [3])
    (by simp [inv.col3])
  have hS2 := Heap.get_set_eq m1 (some (⟨sv, l.ptr, sr.ptr, Ctx.par ctx none⟩ : TreeNode T))
    (Heap.lt_of_get_eq_some hS1)
  have hA2 := hag2.getOn inv.col1 (by decide) hA1
  generalize List.set m1 s (some ⟨sv, l.ptr, sr.ptr, Ctx.par ctx none⟩) = m2
    at e2 hag2 hS2 hA2
  -- relink the parent of node_to_erase
  have hC2 := inv.hC.agreeOn_ctx (hag1.transOn hag2) inv.col0 (by decide)
  obtain ⟨m3, S3, e3, hC3, hag3a, hS3⟩ :=
    Ctx.Rep.relinkParent hA2 rfl hC2 inv.not_mem_ctx inv.ndc (some s)
  have hag3 := hag3a.on g (K := [0]) (fun y hy => by simp [inv.col0 y (hS3 y hy)])
  have hA3 := hag3.getOn inv.col1 (by decide) hA2
  have hS3c := hag3.getOn inv.col3 (by decide) hS2
  -- node_to_erase->left_->parent_ = next_node
  have hL3 := inv.hL.agreeOn (hag1.transOn (hag2.transOn hag3)) inv.col2 (by decide)
  obtain ⟨m4, e4a, hL4, hag4a⟩ := hL3.reparent inv.ndl (some s)
  have e4 : Heap.adoptLeft m3 a s = some m4 := by simp [Heap.adoptLeft, hA3, e4a]
  have hag4 := hag4a.on g (K := [2])
    (fun y hy => by simp [inv.col2 y (Tree.mem_addrs_of_mem_ptr hy)])
  have hS4 := hag4.getOn inv.col3 (by decide) hS3c
  have hSR4 := inv.hSR.agreeOn (hag1.transOn (hag2.transOn (hag3.transOn hag4))) inv.col4
    (by decide)
  have hC4 := hC3.agreeOn_ctx hag4 inv.col0 (by decide)
  have hall := hag1.transOn (hag2.transOn (hag3.transOn hag4))
  refine ⟨m4, ?_, ⟨hS4, hL4, hSR4⟩, hC4, hall.1, hall.2.1⟩
  simp [BinarySearchTree.erase.spliceChild, e1, e2, e3, e4]

theorem Tree.Rep.agreeOn2 {g : Nat → Nat} {m m2 : Heap T} {K : List Nat} {t : Tree T}
    {par : Option Nat} (h : t.Rep m par) (ha : Heap.AgreeOn g m m2 K) {j k : Nat}
    (hc : ∀ x ∈ t.addrs, g x = j ∨ g x = k) (hj : j ∉ K) (hk : k ∉ K) : t.Rep m2 par :=
  h.frame fun a hat => ha.2.2 a (by rcases hc a hat with e | e <;> rw [e] <;> assumption)

/-- The branch in which `next_node` lies deeper in the right subtree: the successor `s`
is cut out of its place (its right subtree `sr` takes it) and takes over all three
links of `a`. -/
theorem SpliceInv.spliceDeep {mem : Heap T} {ctx : Ctx T} {l : Tree T} {a : Nat} {v : T}
    {np : Nat} {nv : T} {nr : Tree T} {cr : Ctx T} {s : Nat} {sv : T} {sr : Tree T}
    {g : Nat → Nat} (inv : SpliceInv mem ctx l a v (Frame.L np nv nr :: cr) s sv sr g) :
    ∃ m8, BinarySearchTree.erase.spliceDeep mem a s = some m8 ∧
      (Tree.node l s sv (Ctx.plug (Frame.L np nv nr :: cr) sr)).Rep m8 (Ctx.par ctx none) ∧
      Ctx.Rep m8 ctx (some s) none ∧
      m8.length = mem.length ∧ ∀ y, (m8.get y).isSome = (mem.get y).isSome := by
  have hA : mem.get a = some ⟨v, l.ptr, Ctx.root cr (some np), Ctx.par ctx none⟩ := inv.hA
  have hS : mem.get s = some ⟨sv, none, sr.ptr, some np⟩ := inv.hS
  have hnpc : g np = 5 := inv.col5 np (by simp)
  have hcolR : ∀ x ∈ (Ctx.plug (Frame.L np nv nr :: cr) sr).addrs, g x = 4 ∨ g x = 5 := by
    intro x hx
    rcases (Ctx.mem_addrs_plug _ _ _).mp hx with hx | hx
    · exact Or.inl (inv.col4 x hx)
    · exact Or.inr (inv.col5 x hx)
  have hndR : (Ctx.plug (Frame.L np nv nr :: cr) sr).addrs.Nodup := by
    refine (Ctx.nodup_plug _ _).mpr ⟨inv.ndsr, inv.ndcr, fun x hx hx2 => ?_⟩
    have h4 := inv.col4 x hx
    have h5 := inv.col5 x hx2
    omega
  have hptrR : (Ctx.plug (Frame.L np nv nr :: cr) sr).ptr = Ctx.root cr (some np) := by
    rw [Ctx.ptr_plug]; rfl
  -- next_node->parent_->left_ = next_node->right_
  obtain ⟨m1, e1a, hCR1, hag1a⟩ := inv.hCR.setLeft inv.ndcr sr.ptr
  have e1 : Heap.bypassLeft mem s = some m1 := by simp [Heap.bypassLeft, hS, e1a]
  have hag1 := hag1a.on g (K := [5]) (by simp [hnpc])
  have hS1 := hag1.getOn inv.col3 (by decide) hS
  have hA1 := hag1.getOn inv.col1 (by decide) hA
  -- next_node->right_->parent_ = next_node->parent_
  have hSR1 := inv.hSR.agreeOn hag1 inv.col4 (by decide)
  obtain ⟨m2, e2a, hSR2, hag2a⟩ := hSR1.reparent inv.ndsr (some np)
  have e2 : Heap.reparentRight m1 s = some m2 := by simp [Heap.reparentRight, hS1, e2a]
  have hag2 := hag2a.on g (K := [4])
    (fun y hy => by simp [inv.col4 y (Tree.mem_addrs_of_mem_ptr hy)])
  have hR2 : (Ctx.plug (Frame.L np nv nr :: cr) sr).Rep m2 (some a) :=
    (Ctx.rep_plug _ _ _ _).mpr ⟨hSR2, hCR1.agreeOn_ctx hag2 inv.col5 (by decide)⟩
  have hS2 := hag2.getOn inv.col3 (by decide) hS1
  have hA2 := hag2.getOn inv.col1 (by decide) hA1
  -- next_node->parent_ = node_to_erase->parent_
  have e3 : Heap.copyParent m2 s a =
      some (List.set m2 s (some ⟨sv, none, sr.ptr, Ctx.par ctx none⟩)) := by
    simp [Heap.copyParent, hA2, Heap.setParent_eq _ hS2]
  have hag3 := (Heap.Agree.set hS2 ⟨sv, none, sr.ptr, Ctx.par ctx none⟩).on g (K := [3])
    (by simp [inv.col3])
  have hS3 := Heap.get_set_eq m2 (some (⟨sv, none, sr.ptr, Ctx.par ctx none⟩ : TreeNode T))
    (Heap.lt_of_get_eq_some hS2)
  have hA3 := hag3.getOn inv.col1 (by decide) hA2
  generalize List.set m2 s (some ⟨sv, none, sr.ptr, Ctx.par ctx none⟩) = m3
    at e3 hag3 hS3 hA3
  -- relink the parent of node_to_erase
  have hC3 := inv.hC.agreeOn_ctx (hag1.transOn (hag2.transOn hag3)) inv.col0 (by decide)
  obtain ⟨m4, S4, e4, hC4, hag4a, hS4m⟩ :=
    Ctx.Rep.relinkParent hA3 rfl hC3 inv.not_mem_ctx inv.ndc (some s)
  have hag4 := hag4a.on g (K := [0]) (fun y hy => by simp [inv.col0 y (hS4m y hy)])
  have hA4 := hag4.getOn inv.col1 (by decide) hA3
  have hS4 := hag4.getOn inv.col3 (by decide) hS3
  -- next_node->right_ = node_to_erase->right_
  have e5 : Heap.copyRight m4 s a =
      some (List.set m4 s (some ⟨sv, none, Ctx.root cr (some np), Ctx.par ctx none⟩)) := by
    simp [Heap.copyRight, hA4, Heap.setRight_eq _ hS4]
  have hag5 := (Heap.Agree.set hS4
    ⟨sv, none, Ctx.root cr (some np), Ctx.par ctx none⟩).on g (K := [3]) (by simp [inv.col3])
  have hS5 := Heap.get_set_eq m4
    (some (⟨sv, none, Ctx.root cr (some np), Ctx.par ctx none⟩ : TreeNode T))
    (Heap.lt_of_get_eq_some hS4)
  have hA5 := hag5.getOn inv.col1 (by decide) hA4
  generalize List.set m4 s (some ⟨sv, none, Ctx.root cr (some np), Ctx.par ctx none⟩) = m5
    at e5 hag5 hS5 hA5
  -- next_node->left_ = node_to_erase->left_
  have e6 : Heap.copyLeft m5 s a =
      some (List.set m5 s (some ⟨sv, l.ptr, Ctx.root cr (some np), Ctx.par ctx none⟩)) := by
    simp [Heap.copyLeft, hA5, Heap.setLeft_eq _ hS5]
  have hag6 := (Heap.Agree.set hS5
    ⟨sv, l.ptr, Ctx.root cr (some np), Ctx.par ctx none⟩).on g (K := [3]) (by simp [inv.col3])
  have hS6 := Heap.get_set_eq m5
    (some (⟨sv, l.ptr, Ctx.root cr (some np), Ctx.par ctx none⟩ : TreeNode T))
    (Heap.lt_of_get_eq_some hS5)
  have hA6 := hag6.getOn inv.col1 (by decide) hA5
  generalize List.set m5 s (some ⟨sv, l.ptr, Ctx.root cr (some np), Ctx.par ctx none⟩) = m6
    at e6 hag6 hS6 hA6
  -- node_to_erase->right_->parent_ = next_node
  have hR6 := hR2.agreeOn2 (hag3.transOn (hag4.transOn (hag5.transOn hag6))) hcolR
    (by decide) (by decide)
  obtain ⟨m7, e7a, hR7, hag7a⟩ := hR6.reparent hndR (some s)
  rw [hptrR] at e7a
  have e7 : Heap.adoptRight m6 a s = some m7 := by simp [Heap.adoptRight, hA6, e7a]
  have hag7 := hag7a.on g (K := [4, 5]) (fun y hy => by
    rcases hcolR y (Tree.mem_addrs_of_mem_ptr hy) with e | e <;> simp [e])
  have hA7 := hag7.getOn inv.col1 (by decide) hA6
  have hS7 := hag7.getOn inv.col3 (by decide) hS6
  -- node_to_erase->left_->parent_ = next_node
  have hL7 := inv.hL.agreeOn (hag1.transOn (hag2.transOn (hag3.transOn (hag4.transOn
    (hag5.transOn (hag6.transOn hag7)))))) inv.col2 (by decide)
  obtain ⟨m8, e8a, hL8, hag8a⟩ := hL7.reparent inv.ndl (some s)
  have e8 : Heap.adoptLeft m7 a s = some m8 := by simp [Heap.adoptLeft, hA7, e8a]
  have hag8 := hag8a.on g (K := [2])
    (fun y hy => by simp [inv.col2 y (Tree.mem_addrs_of_mem_ptr hy)])
  have hS8 := hag8.getOn inv.col3 (by decide) hS7
  have hR8 := hR7.agreeOn2 hag8 hcolR (by decide) (by decide)
  have hC8 := hC4.agreeOn_ctx (hag5.transOn (hag6.transOn (hag7.transOn hag8))) inv.col0 (by decide)
  have hall := hag1.transOn (hag2.transOn (hag3.transOn (hag4.transOn
    (hag5.transOn (hag6.transOn (hag7.transOn hag8))))))
  refine ⟨m8, ?_, ⟨?_, hL8, hR8⟩, hC8, hall.1, hall.2.1⟩
  · simp [BinarySearchTree.erase.spliceDeep, e1, e2, e3, e4, e5, e6, e7, e8]
  · rw [hptrR]; exact hS8

end Erasure

section Erasure

variable {T : Type}

/-- The statement `if (node_to_erase == root_) root_ = next_node`. -/
theorem Ctx.root_swap {ctx : Ctx T} {a s : Nat} (ha : a ∉ Ctx.addrs ctx) :
    (if some a = Ctx.root ctx (some a) then some s else Ctx.root ctx (some a)) =
      Ctx.root ctx (some s) := by
  cases ctx with
  | nil => simp [Ctx.root]
  | cons f ctx =>
    obtain ⟨p, hp, hm⟩ := Ctx.root_mem f ctx (some a)
    have hne : a ≠ p := by rintro rfl; exact ha hm
    rw [Ctx.root_cons f ctx (some s) (some a), hp]
    simp [hne]

/-- The two-children branch of `erase`, followed by `delete node_to_erase`. -/
theorem Models.splice {c : BinarySearchTree T} {ctx : Ctx T} {ll lr rl rr : Tree T}
    {la ra a : Nat} {lv rv v : T}
    (h : Models c (Ctx.plug ctx
      (Tree.node (Tree.node ll la lv lr) a v (Tree.node rl ra rv rr)))) :
    ∃ d, BinarySearchTree.erase.splice c a = some d ∧
      Models ⟨d.mem.free a, d.root_, d.size_ - 1⟩
        (Ctx.plug ctx (Tree.join (Tree.node ll la lv lr) (Tree.node rl ra rv rr))) := by
  obtain ⟨hA, -, hR, -⟩ := h.pieces
  have hroot : c.root_ = Ctx.root ctx (some a) := h.root_eq
  have hdesc : descendLeft c.fuel c.mem ra = some (Tree.minAddr rl ra) := by
    refine descendLeft_eq hR ?_
    have h1 := h.length_le
    have h2 := (Tree.node rl ra rv rr).height_le_length
    rw [Ctx.length_addrs_plug] at h1
    simp only [Tree.addrs_node, List.length_append, List.length_cons] at h1 h2
    simp only [BinarySearchTree.fuel]
    omega
  obtain ⟨cr, sr, hall, hreq, hdel⟩ := Tree.min_decomp rl rr ra rv
  have hjoin : Tree.join (Tree.node ll la lv lr) (Tree.node rl ra rv rr) =
      Tree.node (Tree.node ll la lv lr) (Tree.minAddr rl ra) (Tree.minVal rl rv)
        (Ctx.plug cr sr) := by
    rw [← hdel]; rfl
  have hptr : Ctx.root cr (some (Tree.minAddr rl ra)) = some ra := by
    have := congrArg Tree.ptr hreq
    rw [Ctx.ptr_plug] at this
    exact this.symm
  rw [hjoin]
  generalize Tree.minAddr rl ra = s at *
  generalize Tree.minVal rl rv = sv at *
  rw [hreq] at h
  obtain ⟨g, inv⟩ := h.spliceInv
  have hS := inv.hS
  have haddrs : (Tree.node (Tree.node ll la lv lr) s sv (Ctx.plug cr sr)).addrs =
      (Tree.node ll la lv lr).addrs ++ (Ctx.plug cr (Tree.node Tree.nil s sv sr)).addrs := by
    simp [Ctx.addrs_plug, Ctx.before_allL hall]
  have hsplice : ∀ m, ((if (Ctx.par cr (some a)) = some a then
        BinarySearchTree.erase.spliceChild c.mem a s
      else BinarySearchTree.erase.spliceDeep c.mem a s) = some m) →
      BinarySearchTree.erase.splice c a =
        some ⟨m, if some a = c.root_ then some s else c.root_, c.size_⟩ := by
    intro m hm
    simp only [BinarySearchTree.erase.splice, hA, Tree.ptr_node, Option.some_bind, hdesc, hS,
      hm, Option.map_some']
  cases cr with
  | nil =>
    obtain ⟨m4, e, hrep, hctx, hlen, hsome⟩ := inv.spliceChild
    refine ⟨_, hsplice m4 (by simpa [Ctx.par] using e), ?_⟩
    have := h.erase_finish hlen hsome haddrs hrep hctx
    simp only [hroot, Ctx.root_swap inv.not_mem_ctx]
    exact this
  | cons f cr =>
    cases f with
    | R l2 a2 v2 => exact absurd hall (by simp [Ctx.AllL])
    | L np nv nr =>
      obtain ⟨m8, e, hrep, hctx, hlen, hsome⟩ := inv.spliceDeep
      have hne : np ≠ a := by
        rintro rfl
        have h5 := inv.col5 np (by simp)
        have h1 := inv.col1
        omega
      refine ⟨_, hsplice m8 (by simpa [Ctx.par, hne] using e), ?_⟩
      have := h.erase_finish hlen hsome haddrs hrep hctx
      simp only [hroot, Ctx.root_swap inv.not_mem_ctx]
      exact this

/-- The method `erase(ConstIterator)` at a node of the tree: the node is replaced by
the `join` of its subtrees. -/
theorem Models.erase {c : BinarySearchTree T} {ctx : Ctx T} {l r : Tree T} {a : Nat} {v : T}
    (h : Models c (Ctx.plug ctx (Tree.node l a v r))) :
    ∃ c2, c.erase ⟨some a⟩ = some c2 ∧ Models c2 (Ctx.plug ctx (Tree.join l r)) := by
  obtain ⟨hA, -⟩ := h.pieces
  cases l with
  | nil =>
    cases r with
    | nil =>
      obtain ⟨c2, e, hm, -⟩ := h.deleteLeaf
      exact ⟨c2, by simp [BinarySearchTree.erase, hA, TreeNode.IsLeaf, e], hm⟩
    | node rl ra rv rr =>
      obtain ⟨c2, e, hm⟩ := h.deleteOneChild (Or.inl ⟨rfl, by simp⟩)
      exact ⟨c2, by simp [BinarySearchTree.erase, hA, TreeNode.IsLeaf, e], hm⟩
  | node ll la lv lr =>
    cases r with
    | nil =>
      obtain ⟨c2, e, hm⟩ := h.deleteOneChild (Or.inr ⟨by simp, rfl⟩)
      exact ⟨c2, by simp [BinarySearchTree.erase, hA, TreeNode.IsLeaf, e], hm⟩
    | node rl ra rv rr =>
      obtain ⟨d, e, hm⟩ := h.splice
      exact ⟨_, by simp [BinarySearchTree.erase, hA, TreeNode.IsLeaf, e], hm⟩

end Erasure

/-! ## The BST order: lookup, counting, and its preservation by erasure -/

section Order

variable {T : Type} [LinearOrder T]

theorem Tree.Ordered.sorted {t : Tree T} (ho : t.Ordered) : t.values.Sorted (· ≤ ·) := by
  induction t with
  | nil => simp
  | node l a v r ihl ihr =>
    obtain ⟨h1, h2, h3, h4⟩ := ho
    simp only [Tree.values_node, List.Sorted, List.pairwise_append, List.pairwise_cons,
      List.mem_cons]
    refine ⟨ihl h3, ⟨h2, ihr h4⟩, ?_⟩
    intro x hx y hy
    rcases hy with rfl | hy
    · exact le_of_lt (h1 x hx)
    · exact le_trans (le_of_lt (h1 x hx)) (h2 y hy)

theorem Tree.Ordered.of_plug {c : Ctx T} {s : Tree T} (ho : (Ctx.plug c s).Ordered) :
    s.Ordered := by
  induction c generalizing s with
  | nil => exact ho
  | cons f c ih =>
    cases f with
    | L a v r => exact (ih ho).2.2.1
    | R l a v => exact (ih ho).2.2.2

/-- Replacing a subtree by an ordered tree with values among the old ones keeps the
BST order. -/
theorem Tree.Ordered.replace {c : Ctx T} {s s2 : Tree T} (ho : (Ctx.plug c s).Ordered)
    (ho2 : s2.Ordered) (hsub : ∀ x ∈ s2.values, x ∈ s.values) : (Ctx.plug c s2).Ordered := by
  induction c generalizing s s2 with
  | nil => exact ho2
  | cons f c ih =>
    cases f with
    | L a v r =>
      obtain ⟨h1, h2, h3, h4⟩ := Tree.Ordered.of_plug (c := c) ho
      refine ih (s := Tree.node s a v r) ho ⟨fun x hx => h1 x (hsub x hx), h2, ho2, h4⟩ ?_
      intro x hx
      simp only [Tree.values_node, List.mem_append, List.mem_cons] at hx ⊢
      rcases hx with hx | hx | hx
      · exact Or.inl (hsub x hx)
      · exact Or.inr (Or.inl hx)
      · exact Or.inr (Or.inr hx)
    | R l a v =>
      obtain ⟨h1, h2, h3, h4⟩ := Tree.Ordered.of_plug (c := c) ho
      refine ih (s := Tree.node l a v s) ho ⟨h1, fun x hx => h2 x (hsub x hx), h3, ho2⟩ ?_
      intro x hx
      simp only [Tree.values_node, List.mem_append, List.mem_cons] at hx ⊢
      rcases hx with hx | hx | hx
      · exact Or.inl hx
      · exact Or.inr (Or.inl hx)
      · exact Or.inr (Or.inr (hsub x hx))

omit [LinearOrder T] in
theorem Tree.values_eq_min_cons (l r : Tree T) (a : Nat) (v : T) :
    (Tree.node l a v r).values =
      Tree.minVal l v :: (Tree.delMin (Tree.node l a v r)).values := by
  rw [Tree.values_eq_map, Tree.elems_eq_min_cons, Tree.values_eq_map]
  rfl

theorem Tree.Ordered.join {l r : Tree T} {a : Nat} {v : T}
    (ho : (Tree.node l a v r).Ordered) : (Tree.join l r).Ordered := by
  obtain ⟨h1, h2, h3, h4⟩ := ho
  cases l with
  | nil => exact h4
  | node ll la lv lr =>
    cases r with
    | nil => exact h3
    | node rl ra rv rr =>
      have hv := Tree.values_eq_min_cons rl rr ra rv
      have hs := h4.sorted
      rw [hv] at hs h2
      simp only [List.sorted_cons] at hs
      refine ⟨fun x hx => lt_of_lt_of_le (h1 x hx) (h2 _ (by simp)), hs.1, h3, ?_⟩
      obtain ⟨cr, sr, -, hreq, hdel⟩ := Tree.min_decomp rl rr ra rv
      rw [hdel]
      have h4b := h4
      rw [hreq] at h4b
      refine h4b.replace (Tree.Ordered.of_plug h4b).2.2.2 ?_
      intro x hx
      simp [hx]

/-- In an ordered tree, `find` misses exactly the values that do not occur. -/
theorem Tree.findT_eq_none_iff {t : Tree T} (ho : t.Ordered) (v : T) :
    t.findT v = none ↔ v ∉ t.values := by
  induction t with
  | nil => simp [Tree.findT]
  | node l a w r ihl ihr =>
    obtain ⟨h1, h2, h3, h4⟩ := ho
    simp only [Tree.findT, Tree.values_node, List.mem_append, List.mem_cons, not_or]
    by_cases hwv : w < v
    · simp only [hwv, if_true, ihr h4]
      refine ⟨fun h => ⟨fun hl => ?_, ne_of_gt hwv, h⟩, fun h => h.2.2⟩
      exact absurd (h1 v hl) (not_lt.mpr (le_of_lt hwv))
    · simp only [hwv, if_false]
      by_cases hwe : w = v
      · simp [hwe]
      · simp only [hwe, if_false, ihl h3]
        have hvw : v < w := lt_of_le_of_ne (not_lt.mp hwv) (Ne.symm hwe)
        refine ⟨fun h => ⟨h, Ne.symm hwe, fun hr => ?_⟩, fun h => h.1⟩
        exact absurd (h2 v hr) (not_le.mpr hvw)

/-- In an ordered tree, `find` stops at the first node of the in-order sequence that
holds the value. -/
theorem Tree.findT_eq_some {t : Tree T} (ho : t.Ordered) {v : T} {a : Nat}
    (hf : t.findT v = some a) :
    ∃ pre post, t.elems = pre ++ (a, v) :: post ∧ ∀ x ∈ pre, x.2 < v := by
  induction t with
  | nil => simp [Tree.findT] at hf
  | node l b w r ihl ihr =>
    obtain ⟨h1, h2, h3, h4⟩ := ho
    simp only [Tree.findT] at hf
    by_cases hwv : w < v
    · simp only [hwv, if_true] at hf
      obtain ⟨pre, post, e, hpre⟩ := ihr h4 hf
      refine ⟨l.elems ++ (b, w) :: pre, post, by simp [e], ?_⟩
      intro x hx
      simp only [List.mem_append, List.mem_cons] at hx
      rcases hx with hx | rfl | hx
      · refine lt_trans (h1 x.2 ?_) hwv
        rw [Tree.values_eq_map]
        exact List.mem_map_of_mem _ hx
      · exact hwv
      · exact hpre x hx
    · simp only [hwv, if_false] at hf
      by_cases hwe : w = v
      · simp only [hwe, if_true, Option.some.injEq] at hf
        subst hf hwe
        refine ⟨l.elems, r.elems, rfl, ?_⟩
        intro x hx
        refine h1 x.2 ?_
        rw [Tree.values_eq_map]
        exact List.mem_map_of_mem _ hx
      · simp only [hwe, if_false] at hf
        obtain ⟨pre, post, e, hpre⟩ := ihl h3 hf
        exact ⟨pre, post ++ (b, w) :: r.elems, by simp [e], hpre⟩

/-- In an ordered tree, `count` returns the multiplicity. -/
theorem Tree.countT_eq {t : Tree T} (ho : t.Ordered) (v : T) :
    t.countT v = t.values.count v := by
  induction t with
  | nil => simp [Tree.countT]
  | node l a w r ihl ihr =>
    obtain ⟨h1, h2, h3, h4⟩ := ho
    simp only [Tree.countT, Tree.values_node, List.count_append, List.count_cons]
    by_cases hwv : w < v
    · have hl : l.values.count v = 0 := List.count_eq_zero.mpr fun hl =>
        absurd (h1 v hl) (not_lt.mpr (le_of_lt hwv))
      simp [hwv, ihr h4, hl, ne_of_lt hwv]
    · simp only [hwv, if_false]
      by_cases hwe : w = v
      · subst hwe
        have hl : l.values.count w = 0 := List.count_eq_zero.mpr fun hl =>
          absurd (h1 w hl) (lt_irrefl w)
        simp [ihr h4, hl]
      · have hvw : v < w := lt_of_le_of_ne (not_lt.mp hwv) (Ne.symm hwe)
        have hr : r.values.count v = 0 := List.count_eq_zero.mpr fun hr =>
          absurd (h2 v hr) (not_le.mpr hvw)
        simp [hwe, ihl h3, hr]

end Order

/-! ## The operations of the container in terms of the tree it holds -/

section Container

variable {T : Type}

/-- Erasing the node at address `a` removes exactly its entry from the in-order
sequence, and keeps the BST order. -/
theorem Models.erase_at {c : BinarySearchTree T} {t : Tree T} (h : Models c t)
    {pre post : List (Nat × T)} {a : Nat} {v : T} (he : t.elems = pre ++ (a, v) :: post) :
    ∃ c2 t2, c.erase ⟨some a⟩ = some c2 ∧ Models c2 t2 ∧ t2.elems = pre ++ post ∧
      ∀ [LinearOrder T], t.Ordered → t2.Ordered := by
  have ha : a ∈ t.addrs := by simp [Tree.addrs_eq_map, he]
  obtain ⟨ctx, l, v2, r, ht⟩ := Ctx.exists_plug_of_mem ha
  subst ht
  have hnd : ((Ctx.plug ctx (Tree.node l a v2 r)).elems.map Prod.fst).Nodup := by
    rw [← Tree.addrs_eq_map]; exact h.nodup
  have hel : (Ctx.plug ctx (Tree.node l a v2 r)).elems =
      (ctx.before ++ l.elems) ++ (a, v2) :: (r.elems ++ ctx.after) := by
    simp [Ctx.elems_plug]
  obtain ⟨hpre, -, hpost⟩ := split_unique hnd he hel
  obtain ⟨c2, e, hm⟩ := h.erase
  refine ⟨c2, _, e, hm, ?_, ?_⟩
  · simp [Ctx.elems_plug, Tree.elems_join, hpre, hpost]
  · intro _ ho
    refine ho.replace (Tree.Ordered.of_plug ho).join ?_
    intro x hx
    rw [Tree.values_join] at hx
    simp only [Tree.values_node, List.mem_append, List.mem_cons] at hx ⊢
    tauto

variable [LinearOrder T]

theorem Models.find_eq {c : BinarySearchTree T} {t : Tree T} (h : Models c t) (v : T) :
    c.find v = some ⟨t.findT v⟩ := by
  simp only [BinarySearchTree.find, h.root, find_loop_eq h.rep v h.height_lt_fuel,
    Option.map_some']

theorem Models.count_eq {c : BinarySearchTree T} {t : Tree T} (h : Models c t) (v : T) :
    c.count v = some (t.countT v : Int) := by
  simp only [BinarySearchTree.count, h.root, count_loop_eq h.rep v h.height_lt_fuel, zero_add]

/-- The method `erase(const T&)`: the first occurrence of the value in the in-order
sequence is removed; nothing happens when the value does not occur. -/
theorem Models.eraseValue {c : BinarySearchTree T} {t : Tree T} (h : Models c t)
    (ho : t.Ordered) (v : T) :
    ∃ c2 t2, c.eraseValue v = some c2 ∧ Models c2 t2 ∧ t2.Ordered ∧
      t2.values = t.values.erase v ∧ (v ∉ t.values → c2 = c) := by
  cases hf : t.findT v with
  | none =>
    have hv := (Tree.findT_eq_none_iff ho v).mp hf
    refine ⟨c, t, ?_, h, ho, (List.erase_of_not_mem hv).symm, fun _ => rfl⟩
    simp [BinarySearchTree.eraseValue, h.find_eq, hf, BinarySearchTree.end]
  | some a =>
    obtain ⟨pre, post, he, hpre⟩ := Tree.findT_eq_some ho hf
    obtain ⟨c2, t2, e, hm, he2, ho2⟩ := h.erase_at he
    have hvpre : v ∉ pre.map Prod.snd := by
      intro hmem
      obtain ⟨x, hx, rfl⟩ := List.mem_map.mp hmem
      exact lt_irrefl _ (hpre x hx)
    refine ⟨c2, t2, ?_, hm, ho2 ho, ?_, fun hv => ?_⟩
    · simp [BinarySearchTree.eraseValue, h.find_eq, hf, BinarySearchTree.end, e]
    · rw [Tree.values_eq_map, Tree.values_eq_map, he, he2]
      simp only [List.map_append, List.map_cons]
      rw [List.erase_append_right _ hvpre, List.erase_cons_head]
    · exfalso
      apply hv
      rw [Tree.values_eq_map, he]
      simp

end Container

/-! ## Teardown -/

section Teardown

variable {T : Type}

/-- The method `DeleteSubtree` removes a whole subtree and leaves the hole empty. -/
theorem Models.deleteSubtree {c : BinarySearchTree T} {k : Ctx T} {s : Tree T}
    (h : Models c (Ctx.plug k s)) {f : Nat} (hf : s.height < f) :
    ∃ c2, BinarySearchTree.DeleteSubtree f c s.ptr = some c2 ∧
      Models c2 (Ctx.plug k Tree.nil) ∧ c2.mem.length = c.mem.length := by
  induction s generalizing c k f with
  | nil =>
    cases f with
    | zero => omega
    | succ n => exact ⟨c, rfl, h, rfl⟩
  | node l a v r ihl ihr =>
    cases f with
    | zero => omega
    | succ n =>
      simp only [Tree.height] at hf
      obtain ⟨hA, -⟩ := h.pieces
      obtain ⟨c1, e1, hm1, hl1⟩ := ihl (c := c) (k := Frame.L a v r :: k) h (f := n)
        (by omega)
      simp only [Ctx.plug_L] at hm1
      obtain ⟨hA1, -⟩ := hm1.pieces
      obtain ⟨c2, e2, hm2, hl2⟩ := ihr (c := c1) (k := Frame.R Tree.nil a v :: k) hm1
        (f := n) (by omega)
      simp only [Ctx.plug_R] at hm2
      obtain ⟨c3, e3, hm3, hl3⟩ := hm2.deleteLeaf
      refine ⟨c3, ?_, hm3, by omega⟩
      simp only [BinarySearchTree.DeleteSubtree, Tree.ptr_node, hA, e1, hA1, e2, e3]

/-- Tearing down the whole tree leaves the empty container. -/
theorem Models.deleteAll {c : BinarySearchTree T} {t : Tree T} (h : Models c t) :
    ∃ c2, BinarySearchTree.DeleteSubtree c.fuel c c.root_ = some c2 ∧ Models c2 Tree.nil ∧
      c2.mem.length = c.mem.length := by
  have := h.deleteSubtree (k := []) h.height_lt_fuel
  rwa [← h.root] at this

end Teardown

/-! ## Deep copy -/

section Copy

variable {T : Type}

theorem Tree.values_shape (t : Tree T) : t.shape.values = t.values := by
  induction t with
  | nil => rfl
  | node l a v r ihl ihr => simp [Tree.shape, ihl, ihr]

theorem Tree.ordered_shape [LinearOrder T] (t : Tree T) : t.shape.Ordered ↔ t.Ordered := by
  induction t with
  | nil => rfl
  | node l a v r ihl ihr => simp [Tree.shape, Tree.Ordered, ihl, ihr, Tree.values_shape]

theorem Models.shaped {c : BinarySearchTree T} {t : Tree T} (h : Models c t) : Shaped c t :=
  ⟨h.root, h.rep, h.nodup, rfl, h.live⟩

theorem Shaped.models {c : BinarySearchTree T} {t : Tree T} (h : Shaped c t)
    (hs : c.size_ = t.addrs.length) : Models c t :=
  ⟨h.root, h.rep, h.nodup, hs, h.live⟩

/-- The statement `p->right_ = x` on the frame next to the hole, when the hole is a
right child. -/
theorem Ctx.Rep.setRight {mem : Heap T} {np : Nat} {nv : T} {nl : Tree T} {c : Ctx T}
    {h top : Option Nat} (hr : Ctx.Rep mem (Frame.R nl np nv :: c) h top)
    (hnd : (Ctx.addrs (Frame.R nl np nv :: c)).Nodup) (x : Option Nat) :
    ∃ m2, mem.setRight np x = some m2 ∧ Ctx.Rep m2 (Frame.R nl np nv :: c) x top ∧
      Heap.Agree mem m2 [np] := by
  obtain ⟨h1, h2, h3⟩ := hr
  simp only [Ctx.addrs_R, List.nodup_cons, List.mem_append, not_or, List.nodup_append] at hnd
  have hag := Heap.Agree.set h1 ⟨nv, nl.ptr, x, Ctx.par c top⟩
  refine ⟨_, Heap.setRight_eq _ h1, ⟨?_, ?_, ?_⟩, hag⟩
  · simp [Heap.get_set_eq _ _ (Heap.lt_of_get_eq_some h1)]
  · exact h2.agree hag (by simpa using hnd.1.1)
  · exact h3.agree_ctx hag (by simpa using hnd.1.2)

/-- The first half of `CopySubtree`: a fresh node is created and linked into the hole. -/
theorem Shaped.attach {c : BinarySearchTree T} {ctx : Ctx T}
    (h : Shaped c (Ctx.plug ctx Tree.nil)) (v : T) :
    ∃ m1 m2 : Heap T,
      Heap.setParent (c.mem ++ [some ⟨v, none, none, none⟩]) c.mem.length (Ctx.par ctx none) =
        some m1 ∧
      (match ctx with
        | [] => m2 = m1
        | Frame.L p _ _ :: _ => m1.setLeft p (some c.mem.length) = some m2
        | Frame.R _ p _ :: _ => m1.setRight p (some c.mem.length) = some m2) ∧
      Shaped ⟨m2, Ctx.root ctx (some c.mem.length), c.size_⟩
        (Ctx.plug ctx (Tree.node Tree.nil c.mem.length v Tree.nil)) := by
  obtain ⟨-, hC⟩ := (Ctx.rep_plug _ _ _ _).mp h.rep
  obtain ⟨-, hndc, -⟩ := (Ctx.nodup_plug _ _).mp h.nodup
  have hlive : ∀ y, (c.mem.get y).isSome → y ∈ Ctx.addrs ctx := fun y hy => by
    simpa [Ctx.mem_addrs_plug] using h.live y hy
  have hfresh : c.mem.length ∉ Ctx.addrs ctx := fun hx => by
    have := h.rep.lt_length ((Ctx.mem_addrs_plug _ _ _).mpr (Or.inr hx))
    simp at this
  have hnew : Heap.get (c.mem ++ [some ⟨v, none, none, none⟩]) c.mem.length =
      some ⟨v, none, none, none⟩ := Heap.get_append_length _ _
  have e1 := Heap.setParent_eq (Ctx.par ctx none) hnew
  have hag0 : ∀ y, y ≠ c.mem.length →
      Heap.get (c.mem ++ [some (⟨v, none, none, none⟩ : TreeNode T)]) y = c.mem.get y := by
    intro y hy
    rcases Nat.lt_or_gt_of_ne hy with hlt | hgt
    · exact Heap.get_append_lt _ _ hlt
    · rw [Heap.get_eq_none_of_le _ _ (by simp; omega), Heap.get_eq_none_of_le _ _ (by omega)]
  have hag1 := Heap.Agree.set hnew ⟨v, none, none, Ctx.par ctx none⟩
  have hN1 := Heap.get_set_eq (c.mem ++ [some (⟨v, none, none, none⟩ : TreeNode T)])
    (some (⟨v, none, none, Ctx.par ctx none⟩ : TreeNode T)) (Heap.lt_of_get_eq_some hnew)
  have hC1 : Ctx.Rep (List.set (c.mem ++ [some ⟨v, none, none, none⟩]) c.mem.length
      (some ⟨v, none, none, Ctx.par ctx none⟩)) ctx none none := by
    refine hC.frame_ctx fun y hy => ?_
    have hne : y ≠ c.mem.length := by rintro rfl; exact hfresh hy
    rw [hag1.2.2 y (by simpa using hne), hag0 y hne]
  have hlive1 : ∀ y, (Heap.get (List.set (c.mem ++ [some ⟨v, none, none, none⟩]) c.mem.length
      (some ⟨v, none, none, Ctx.par ctx none⟩)) y).isSome → y = c.mem.length ∨
      y ∈ Ctx.addrs ctx := by
    intro y hy
    by_cases hne : y = c.mem.length
    · exact Or.inl hne
    · rw [hag1.2.2 y (by simpa using hne), hag0 y hne] at hy
      exact Or.inr (hlive y hy)
  generalize List.set (c.mem ++ [some ⟨v, none, none, none⟩]) c.mem.length
      (some ⟨v, none, none, Ctx.par ctx none⟩) = m1 at e1 hag1 hN1 hC1 hlive1
  have finish : ∀ m2 : Heap T, Ctx.Rep m2 ctx (some c.mem.length) none →
      m2.get c.mem.length = some ⟨v, none, none, Ctx.par ctx none⟩ →
      (∀ y, (m2.get y).isSome = (Heap.get m1 y).isSome) →
      Shaped ⟨m2, Ctx.root ctx (some c.mem.length), c.size_⟩
        (Ctx.plug ctx (Tree.node Tree.nil c.mem.length v Tree.nil)) := by
    intro m2 hC2 hN2 hsome
    refine ⟨by simp [Ctx.ptr_plug],
      (Ctx.rep_plug _ _ _ _).mpr ⟨⟨hN2, trivial, trivial⟩, hC2⟩,
      ?_, rfl, ?_⟩
    · exact (Ctx.nodup_plug _ _).mpr ⟨by simp, hndc, by simpa using hfresh⟩
    · intro y hy
      simp only [hsome] at hy
      rw [Ctx.mem_addrs_plug]
      simpa using hlive1 y hy
  cases ctx with
  | nil => exact ⟨m1, m1, e1, rfl, finish m1 trivial hN1 fun _ => rfl⟩
  | cons f ctx =>
    cases f with
    | L p w r =>
      obtain ⟨m2, e2, hC2, hag2⟩ := hC1.setLeft hndc (some c.mem.length)
      have hne : c.mem.length ≠ p := by rintro e; exact hfresh (by rw [e]; simp)
      exact ⟨m1, m2, e1, e2, finish m2 hC2 (hag2.get (by simpa using hne) hN1) hag2.2.1⟩
    | R l p w =>
      obtain ⟨m2, e2, hC2, hag2⟩ := hC1.setRight hndc (some c.mem.length)
      have hne : c.mem.length ≠ p := by rintro e; exact hfresh (by rw [e]; simp)
      exact ⟨m1, m2, e1, e2, finish m2 hC2 (hag2.get (by simpa using hne) hN1) hag2.2.1⟩

/-- The method `CopySubtree` rebuilds the source subtree `s` in the hole of the
destination, node for node, on fresh addresses. -/
theorem Shaped.copySubtree {src : Heap T} {s : Tree T} {spar : Option Nat}
    (hs : s.Rep src spar) {c : BinarySearchTree T} {k : Ctx T}
    (h : Shaped c (Ctx.plug k Tree.nil)) {f : Nat} (hf : s.height < f) :
    ∃ c2 s2, BinarySearchTree.CopySubtree src f c (Ctx.par k none) s.ptr
        (Ctx.relation k) = some c2 ∧
      Shaped c2 (Ctx.plug k s2) ∧ s2.shape = s.shape ∧ c2.size_ = c.size_ := by
  induction s generalizing c k f spar with
  | nil =>
    cases f with
    | zero => omega
    | succ n => exact ⟨c, Tree.nil, rfl, h, rfl, rfl⟩
  | node l a v r ihl ihr =>
    cases f with
    | zero => omega
    | succ n =>
      simp only [Tree.height] at hf
      obtain ⟨hA, hL, hR⟩ := hs
      obtain ⟨m1, m2, e1, e2, hsh1⟩ := h.attach v
      have hroot : c.root_ = Ctx.root k none := by
        have := h.root
        rwa [Ctx.ptr_plug] at this
      obtain ⟨c2, l2, e3, hsh2, hshape2, hsz2⟩ := ihl hL
        (c := ⟨m2, Ctx.root k (some c.mem.length), c.size_⟩)
        (k := Frame.L c.mem.length v Tree.nil :: k) hsh1 (f := n) (by omega)
      obtain ⟨c3, r2, e4, hsh3, hshape3, hsz3⟩ := ihr hR (c := c2)
        (k := Frame.R l2 c.mem.length v :: k) hsh2 (f := n) (by omega)
      refine ⟨c3, Tree.node l2 c.mem.length v r2, ?_, hsh3, ?_, by rw [hsz3, hsz2]⟩
      · simp only [Ctx.par, Ctx.relation] at e3 e4
        simp only [BinarySearchTree.CopySubtree, Tree.ptr_node, hA, Heap.alloc, e1]
        cases k with
        | nil =>
          simp only [Ctx.root] at e3
          simp only [Ctx.relation, if_true, ← e2, e3, e4]
        | cons f k =>
          rw [Ctx.root_cons _ _ (some c.mem.length) none, ← hroot] at e3
          cases f with
          | L p w r2 =>
            simp [Ctx.relation, Ctx.par, e2, e3, e4]
          | R l3 p w =>
            simp [Ctx.relation, Ctx.par, e2, e3, e4]
      · simp [Tree.shape, hshape2, hshape3]

end Copy

/-! ## Assignment, and the invariant of every reachable container -/

section Assign

variable {T : Type}

theorem Tree.length_addrs_shape (t : Tree T) : t.shape.addrs.length = t.addrs.length := by
  induction t with
  | nil => rfl
  | node l a v r ihl ihr => simp [Tree.shape, ihl, ihr]

theorem Tree.length_addrs_of_shape_eq {s t : Tree T} (h : s.shape = t.shape) :
    s.addrs.length = t.addrs.length := by
  rw [← Tree.length_addrs_shape s, h, Tree.length_addrs_shape]

theorem Tree.values_of_shape_eq {s t : Tree T} (h : s.shape = t.shape) :
    s.values = t.values := by
  rw [← Tree.values_shape s, h, Tree.values_shape]

theorem models_fresh : Models (BinarySearchTree.fresh : BinarySearchTree T) Tree.nil :=
  ⟨rfl, trivial, by simp, rfl, fun a ha => by simp [BinarySearchTree.fresh, Heap.get] at ha⟩

/-- The copy assignment `this = rhs` gives `this` a tree of the same shape and values. -/
theorem Models.copyAssign {this rhs : BinarySearchTree T} {t tr : Tree T}
    (h : Models this t) (hr : Models rhs tr) :
    ∃ c2 t2, this.copyAssign rhs = some c2 ∧ Models c2 t2 ∧ t2.shape = tr.shape := by
  obtain ⟨c1, e1, hm1, -⟩ := h.deleteAll
  obtain ⟨c2, t2, e2, hsh, hshape, -⟩ :=
    Shaped.copySubtree (k := []) hr.rep hm1.shaped hr.height_lt_fuel
  have hsh2 : Shaped c2 t2 := hsh
  refine ⟨{ c2 with size_ := rhs.size_ }, t2, ?_,
    ⟨hsh2.root, hsh2.rep, hsh2.nodup, ?_, hsh2.live⟩, hshape⟩
  · rw [← hr.root] at e2
    simp only [Ctx.par, Ctx.relation] at e2
    simp [BinarySearchTree.copyAssign, e1, e2]
  · simp only [hr.size, Tree.length_addrs_of_shape_eq hshape]

/-- The move assignment `this = std::move(rhs)` gives `this` a tree of the same shape
and values, and leaves `rhs` empty. -/
theorem Models.moveAssign {this rhs : BinarySearchTree T} {t tr : Tree T}
    (h : Models this t) (hr : Models rhs tr) :
    ∃ c2 r2 t2, this.moveAssign rhs = some (c2, r2) ∧ Models c2 t2 ∧ t2.shape = tr.shape ∧
      Models r2 Tree.nil := by
  obtain ⟨c1, e1, hm1, -⟩ := h.deleteAll
  obtain ⟨c2, t2, e2, hsh, hshape, -⟩ :=
    Shaped.copySubtree (k := []) hr.rep hm1.shaped hr.height_lt_fuel
  obtain ⟨r2, e3, hm3, -⟩ := hr.deleteAll
  have hsh2 : Shaped c2 t2 := hsh
  refine ⟨{ c2 with size_ := rhs.size_ }, r2, t2, ?_,
    ⟨hsh2.root, hsh2.rep, hsh2.nodup, ?_, hsh2.live⟩, hshape, hm3⟩
  · rw [← hr.root] at e2
    simp only [Ctx.par, Ctx.relation] at e2
    simp [BinarySearchTree.moveAssign, e1, e2, e3]
  · simp only [hr.size, Tree.length_addrs_of_shape_eq hshape]

/-- Erasing through a valid iterator: nothing happens at `end()`, and a live node is
removed from the in-order sequence. -/
theorem Models.erase_liveOrEnd {c : BinarySearchTree T} {t : Tree T} (h : Models c t)
    {it : ConstIterator} (hv : c.LiveOrEnd it) :
    ∃ c2 t2, c.erase it = some c2 ∧ Models c2 t2 ∧
      ∀ [LinearOrder T], t.Ordered → t2.Ordered := by
  obtain ⟨p⟩ := it
  cases p with
  | none => exact ⟨c, t, rfl, h, fun ho => ho⟩
  | some a =>
    have ha : a ∈ t.addrs := h.live a hv
    rw [Tree.addrs_eq_map] at ha
    obtain ⟨⟨a2, v⟩, hmem, rfl⟩ := List.mem_map.mp ha
    obtain ⟨pre, post, he⟩ := List.append_of_mem hmem
    obtain ⟨c2, t2, e, hm, -, ho⟩ := h.erase_at he
    exact ⟨c2, t2, e, hm, ho⟩

variable [LinearOrder T]

/-- Every reachable container holds a tree in BST order. -/
theorem Reachable.isBST {c : BinarySearchTree T} (h : Reachable c) : IsBST c := by
  induction h with
  | fresh => exact ⟨Tree.nil, models_fresh, trivial⟩
  | insert v _ e ih =>
    obtain ⟨t, hm, ho⟩ := ih
    obtain ⟨c2, e2, hm2⟩ := hm.insert v
    rw [e] at e2
    cases e2
    exact ⟨_, hm2, (Tree.ins_values ho _ v).1⟩
  | emplace v _ e ih =>
    obtain ⟨t, hm, ho⟩ := ih
    obtain ⟨c2, e2, hm2⟩ := hm.emplace v
    rw [e] at e2
    cases e2
    exact ⟨_, hm2, (Tree.ins_values ho _ v).1⟩
  | eraseValue v _ e ih =>
    obtain ⟨t, hm, ho⟩ := ih
    obtain ⟨c2, t2, e2, hm2, ho2, -⟩ := hm.eraseValue ho v
    rw [e] at e2
    cases e2
    exact ⟨t2, hm2, ho2⟩
  | erase it _ hv e ih =>
    obtain ⟨t, hm, ho⟩ := ih
    obtain ⟨c2, t2, e2, hm2, ho2⟩ := hm.erase_liveOrEnd hv
    rw [e] at e2
    cases e2
    exact ⟨t2, hm2, ho2 ho⟩
  | copyAssign _ _ e ih1 ih2 =>
    obtain ⟨t, hm, -⟩ := ih1
    obtain ⟨tr, hmr, hor⟩ := ih2
    obtain ⟨c2, t2, e2, hm2, hshape⟩ := hm.copyAssign hmr
    rw [e] at e2
    cases e2
    exact ⟨t2, hm2, by rw [← Tree.ordered_shape, hshape, Tree.ordered_shape]; exact hor⟩
  | moveAssign _ _ e ih1 ih2 =>
    obtain ⟨t, hm, -⟩ := ih1
    obtain ⟨tr, hmr, hor⟩ := ih2
    obtain ⟨c2, r2, t2, e2, hm2, hshape, -⟩ := hm.moveAssign hmr
    rw [e] at e2
    cases e2
    exact ⟨t2, hm2, by rw [← Tree.ordered_shape, hshape, Tree.ordered_shape]; exact hor⟩
  | moveSource _ _ e ih1 ih2 =>
    obtain ⟨t, hm, -⟩ := ih1
    obtain ⟨tr, hmr, hor⟩ := ih2
    obtain ⟨c2, r2, t2, e2, -, -, hm3⟩ := hm.moveAssign hmr
    rw [e] at e2
    cases e2
    exact ⟨Tree.nil, hm3, trivial⟩

end Assign

/-! ## The BST invariant on the store, node counts and positions -/

section StoreLevel

variable {T : Type}

theorem Tree.Rep.mem_of_inSubtree {mem : Heap T} {p : Option Nat} {b : Nat}
    (hin : InSubtree mem p b) {t : Tree T} {par : Option Nat} (hp : t.ptr = p)
    (h : t.Rep mem par) : b ∈ t.addrs := by
  induction hin generalizing t par with
  | root a => exact Tree.ptr_mem_addrs hp
  | left hg _ ih =>
    cases t with
    | nil => cases hp
    | node l a2 v r =>
      simp only [Tree.ptr_node, Option.some.injEq] at hp
      subst hp
      obtain ⟨h1, h2, h3⟩ := h
      rw [h1] at hg
      cases hg
      have := ih (t := l) rfl h2
      simp [this]
  | right hg _ ih =>
    cases t with
    | nil => cases hp
    | node l a2 v r =>
      simp only [Tree.ptr_node, Option.some.injEq] at hp
      subst hp
      obtain ⟨h1, h2, h3⟩ := h
      rw [h1] at hg
      cases hg
      have := ih (t := r) rfl h3
      simp [this]

theorem Tree.Rep.value_mem {mem : Heap T} {t : Tree T} {par : Option Nat} (h : t.Rep mem par)
    {b : Nat} (hb : b ∈ t.addrs) {nb : TreeNode T} (hg : mem.get b = some nb) :
    nb.value_ ∈ t.values := by
  induction t generalizing par with
  | nil => simp at hb
  | node l a v r ihl ihr =>
    obtain ⟨h1, h2, h3⟩ := h
    simp only [Tree.addrs_node, List.mem_append, List.mem_cons] at hb
    rcases hb with hb | rfl | hb
    · simp [ihl h2 hb]
    · rw [h1] at hg
      cases hg
      simp
    · simp [ihr h3 hb]

theorem Tree.Rep.exists_of_value_mem {mem : Heap T} {t : Tree T} {par : Option Nat}
    (h : t.Rep mem par) {x : T} (hx : x ∈ t.values) :
    ∃ b nb, InSubtree mem t.ptr b ∧ mem.get b = some nb ∧ nb.value_ = x := by
  induction t generalizing par with
  | nil => simp at hx
  | node l a v r ihl ihr =>
    obtain ⟨h1, h2, h3⟩ := h
    simp only [Tree.values_node, List.mem_append, List.mem_cons] at hx
    rcases hx with hx | rfl | hx
    · obtain ⟨b, nb, hin, hg, hv⟩ := ihl h2 hx
      exact ⟨b, nb, InSubtree.left h1 hin, hg, hv⟩
    · exact ⟨a, _, InSubtree.root a, h1, rfl⟩
    · obtain ⟨b, nb, hin, hg, hv⟩ := ihr h3 hx
      exact ⟨b, nb, InSubtree.right h1 hin, hg, hv⟩

/-- The recursive node count of a represented tree. -/
theorem countNodes_eq {mem : Heap T} {t : Tree T} {par : Option Nat} (h : t.Rep mem par)
    {f : Nat} (hf : t.height < f) :
    countNodes f mem t.ptr = some t.addrs.length := by
  induction t generalizing par f with
  | nil =>
    cases f with
    | zero => omega
    | succ n => rfl
  | node l a v r ihl ihr =>
    cases f with
    | zero => omega
    | succ n =>
      simp only [Tree.height] at hf
      obtain ⟨h1, h2, h3⟩ := h
      simp only [countNodes, Tree.ptr_node, h1, ihl h2 (f := n) (by omega),
        ihr h3 (f := n) (by omega), Tree.addrs_node, List.length_append, List.length_cons]
      simp only [Option.some.injEq]
      omega

theorem Models.nodeCount_eq {c : BinarySearchTree T} {t : Tree T} (h : Models c t) :
    c.nodeCount = some t.addrs.length := by
  simp only [BinarySearchTree.nodeCount, h.root]
  exact countNodes_eq h.rep h.height_lt_fuel

/-- The successor and the value at a position of the in-order sequence. -/
theorem Models.at_split {c : BinarySearchTree T} {t : Tree T} (h : Models c t)
    {pre post : List (Nat × T)} {a : Nat} {v : T} (he : t.elems = pre ++ (a, v) :: post) :
    c.incr ⟨some a⟩ = some ⟨(post.map Prod.fst).head?⟩ ∧
      c.deref ⟨some a⟩ = some v := by
  have ha : a ∈ t.addrs := by simp [Tree.addrs_eq_map, he]
  obtain ⟨ctx, l, v2, r, ht⟩ := Ctx.exists_plug_of_mem ha
  subst ht
  have hnd : ((Ctx.plug ctx (Tree.node l a v2 r)).elems.map Prod.fst).Nodup := by
    rw [← Tree.addrs_eq_map]; exact h.nodup
  have hel : (Ctx.plug ctx (Tree.node l a v2 r)).elems =
      (ctx.before ++ l.elems) ++ (a, v2) :: (r.elems ++ ctx.after) := by
    simp [Ctx.elems_plug]
  obtain ⟨-, hv, hpost⟩ := split_unique hnd he hel
  obtain ⟨hA, -⟩ := h.pieces
  refine ⟨?_, by simp [BinarySearchTree.deref, hA, hv]⟩
  simp [BinarySearchTree.incr, h.next_eq, hpost, Tree.addrs_eq_map]

/-- The position `k` of the in-order sequence is reached by `k` increments. -/
theorem Models.iterAt_eq {c : BinarySearchTree T} {t : Tree T} (h : Models c t) {k : Nat}
    (hk : k ≤ t.addrs.length) : c.iterAt k = some ⟨t.addrs[k]?⟩ := by
  induction k with
  | zero =>
    simp only [BinarySearchTree.iterAt, h.begin_eq]
    cases t.addrs <;> simp
  | succ k ih =>
    have hk2 : k < t.elems.length := by
      simp only [Tree.addrs_eq_map, List.length_map] at hk
      omega
    have he : t.elems = t.elems.take k ++ t.elems[k] :: t.elems.drop (k + 1) := by
      rw [List.getElem_cons_drop, List.take_append_drop]
    obtain ⟨hinc, -⟩ := h.at_split (v := t.elems[k].2) (a := t.elems[k].1) he
    have hak : t.addrs[k]? = some t.elems[k].1 := by
      simp [Tree.addrs_eq_map, List.getElem?_eq_getElem hk2]
    simp only [BinarySearchTree.iterAt, ih (by omega), hak, Option.some_bind, hinc]
    simp [Tree.addrs_eq_map, List.head?_drop]

end StoreLevel

section StoreOrder

variable {T : Type} [LinearOrder T]

/-- A container that holds an ordered tree satisfies the BST invariant on its store. -/
theorem Models.bstInvariant {c : BinarySearchTree T} {t : Tree T} (h : Models c t)
    (ho : t.Ordered) : BSTInvariant c := by
  intro a n hg
  have ha : a ∈ t.addrs := h.live a (by simp [hg])
  obtain ⟨ctx, l, v, r, ht⟩ := Ctx.exists_plug_of_mem ha
  subst ht
  obtain ⟨hA, hL, hR, -⟩ := h.pieces
  rw [hA] at hg
  cases hg
  obtain ⟨h1, h2, -, -⟩ := Tree.Ordered.of_plug ho
  exact ⟨fun b nb hin hb => h1 _ (hL.value_mem (hL.mem_of_inSubtree hin rfl) hb),
    fun b nb hin hb => h2 _ (hR.value_mem (hR.mem_of_inSubtree hin rfl) hb)⟩

theorem Tree.Rep.ordered_of_store {mem : Heap T} {t : Tree T} {par : Option Nat}
    (h : t.Rep mem par)
    (hinv : ∀ (a : Nat) (n : TreeNode T), mem.get a = some n →
      (∀ (b : Nat) (nb : TreeNode T), InSubtree mem n.left_ b → mem.get b = some nb →
        nb.value_ < n.value_) ∧
      (∀ (b : Nat) (nb : TreeNode T), InSubtree mem n.right_ b → mem.get b = some nb →
        n.value_ ≤ nb.value_)) : t.Ordered := by
  induction t generalizing par with
  | nil => trivial
  | node l a v r ihl ihr =>
    obtain ⟨h1, h2, h3⟩ := h
    obtain ⟨hl, hr⟩ := hinv a _ h1
    refine ⟨fun x hx => ?_, fun x hx => ?_, ihl h2, ihr h3⟩
    · obtain ⟨b, nb, hin, hg, rfl⟩ := h2.exists_of_value_mem hx
      exact hl b nb hin hg
    · obtain ⟨b, nb, hin, hg, rfl⟩ := h3.exists_of_value_mem hx
      exact hr b nb hin hg

/-- A structurally consistent container with the BST invariant on its store holds an
ordered tree. -/
theorem isBST_iff (c : BinarySearchTree T) : IsBST c ↔ WellFormed c ∧ BSTInvariant c := by
  constructor
  · rintro ⟨t, hm, ho⟩
    exact ⟨⟨t, hm⟩, hm.bstInvariant ho⟩
  · rintro ⟨⟨t, hm⟩, hinv⟩
    exact ⟨t, hm, hm.rep.ordered_of_store hinv⟩

end StoreOrder

/-! ## Sequences of operations -/

section Sequences

variable {T : Type} [LinearOrder T]

theorem Reachable.of_insertAll {c c2 : BinarySearchTree T} (h : Reachable c) {vs : List T}
    (e : c.insertAll vs = some c2) : Reachable c2 := by
  induction vs generalizing c with
  | nil =>
    simp only [BinarySearchTree.insertAll, Option.some.injEq] at e
    exact e ▸ h
  | cons v vs ih =>
    simp only [BinarySearchTree.insertAll] at e
    cases hi : c.insert v with
    | none => simp [hi] at e
    | some c1 =>
      rw [hi] at e
      exact ih (Reachable.insert v h hi) e

theorem Reachable.of_eraseAll {c c2 : BinarySearchTree T} (h : Reachable c) {ys : List T}
    (e : c.eraseAll ys = some c2) : Reachable c2 := by
  induction ys generalizing c with
  | nil =>
    simp only [BinarySearchTree.eraseAll, Option.some.injEq] at e
    exact e ▸ h
  | cons v vs ih =>
    simp only [BinarySearchTree.eraseAll] at e
    cases hi : c.eraseValue v with
    | none => simp [hi] at e
    | some c1 =>
      rw [hi] at e
      exact ih (Reachable.eraseValue v h hi) e

theorem Reachable.ofList {c : BinarySearchTree T} {vs : List T}
    (e : BinarySearchTree.ofList vs = some c) : Reachable c :=
  Reachable.fresh.of_insertAll e

/-- Inserting a list always succeeds and adds exactly its values. -/
theorem Models.insertAll {c : BinarySearchTree T} {t : Tree T} (h : Models c t)
    (ho : t.Ordered) (vs : List T) :
    ∃ c2 t2, c.insertAll vs = some c2 ∧ Models c2 t2 ∧ t2.Ordered ∧
      List.Perm t2.values (vs ++ t.values) := by
  induction vs generalizing c t with
  | nil => exact ⟨c, t, rfl, h, ho, by simp⟩
  | cons v vs ih =>
    obtain ⟨c1, e1, hm1⟩ := h.insert v
    obtain ⟨ho1, l1, l2, hv, -, -, hv1⟩ := Tree.ins_values ho c.mem.length v
    obtain ⟨c2, t2, e2, hm2, ho2, hp⟩ := ih hm1 ho1
    refine ⟨c2, t2, by simp [BinarySearchTree.insertAll, e1, e2], hm2, ho2, hp.trans ?_⟩
    rw [hv1, hv]
    rw [List.perm_iff_count]
    intro x
    simp only [List.count_append, List.count_cons]
    omega

/-- Erasing a list of values always succeeds and removes them one occurrence at a time. -/
theorem Models.eraseAll {c : BinarySearchTree T} {t : Tree T} (h : Models c t)
    (ho : t.Ordered) (ys : List T) :
    ∃ c2 t2, c.eraseAll ys = some c2 ∧ Models c2 t2 ∧ t2.Ordered ∧
      t2.values = t.values.diff ys := by
  induction ys generalizing c t with
  | nil => exact ⟨c, t, rfl, h, ho, by simp⟩
  | cons y ys ih =>
    obtain ⟨c1, t1, e1, hm1, ho1, hv1, -⟩ := h.eraseValue ho y
    obtain ⟨c2, t2, e2, hm2, ho2, hv2⟩ := ih hm1 ho1
    refine ⟨c2, t2, by simp [BinarySearchTree.eraseAll, e1, e2], hm2, ho2, ?_⟩
    rw [hv2, hv1, List.diff_cons]

theorem diff_eq_nil_of_perm {l ys : List T} (hp : l.Perm ys) : l.diff ys = [] := by
  induction ys generalizing l with
  | nil => simpa using hp
  | cons y ys ih =>
    rw [List.diff_cons]
    refine ih ?_
    have := hp.erase y
    rwa [List.erase_cons_head] at this

omit [LinearOrder T] in
/-- The observations of a container that holds the empty tree. -/
theorem Models.nil_obs {c : BinarySearchTree T} (h : Models c Tree.nil) :
    c.size = 0 ∧ c.begin = some c.end ∧ c.to_vector = some [] ∧ c.root_ = none := by
  refine ⟨?_, ?_, ?_, h.root⟩
  · simpa [BinarySearchTree.size] using h.size
  · simpa [BinarySearchTree.end] using h.begin_eq
  · simpa using h.to_vector_eq

omit [LinearOrder T] in
theorem Models.size_eq {c : BinarySearchTree T} {t : Tree T} (h : Models c t) :
    c.size = (t.values.length : Int) := by
  simp [BinarySearchTree.size, h.size, Tree.length_values]

/-- A value that does not occur is not found (no order required). -/
theorem Tree.findT_eq_none_of_not_mem {t : Tree T} {v : T} (hv : v ∉ t.values) :
    t.findT v = none := by
  induction t with
  | nil => rfl
  | node l a w r ihl ihr =>
    simp only [Tree.values_node, List.mem_append, List.mem_cons, not_or] at hv
    simp only [Tree.findT]
    split
    · exact ihr hv.2.2
    · rw [if_neg (Ne.symm hv.2.1)]
      exact ihl hv.1

end Sequences

/-! ## The tree of a container is unique -/

section Unique

variable {T : Type}

theorem Tree.Rep.unique_tree {mem : Heap T} {t t2 : Tree T} {par par2 : Option Nat}
    (h : t.Rep mem par) (h2 : t2.Rep mem par2) (hp : t.ptr = t2.ptr) : t = t2 := by
  induction t generalizing t2 par par2 with
  | nil =>
    cases t2 with
    | nil => rfl
    | node l2 a2 v2 r2 => cases hp
  | node l a v r ihl ihr =>
    cases t2 with
    | nil => cases hp
    | node l2 a2 v2 r2 =>
      simp only [Tree.ptr_node, Option.some.injEq] at hp
      subst hp
      obtain ⟨h1, hl, hr⟩ := h
      obtain ⟨h3, hl2, hr2⟩ := h2
      rw [h1] at h3
      simp only [Option.some.injEq, TreeNode.mk.injEq] at h3
      obtain ⟨hv, hlp, hrp, -⟩ := h3
      rw [ihl hl hl2 hlp, ihr hr hr2 hrp, hv]

/-- The tree held by a container is determined by the container. -/
theorem Models.unique {c : BinarySearchTree T} {t t2 : Tree T} (h : Models c t)
    (h2 : Models c t2) : t = t2 :=
  h.rep.unique_tree h2.rep (h.root.symm.trans h2.root)

end Unique

/-! ## Backward iteration -/

section Backward

variable {T : Type}

/-- The loop `while (tmp->right_ != nullptr)` stops at the rightmost node. -/
theorem descendRight_eq {mem : Heap T} {l r : Tree T} {a : Nat} {v : T} {par : Option Nat}
    (h : (Tree.node l a v r).Rep mem par) {f : Nat}
    (hf : (Tree.node l a v r).height ≤ f) :
    descendRight f mem a = (Tree.node l a v r).addrs.getLast? := by
  induction r generalizing a v l par f with
  | nil =>
    cases f with
    | zero => simp [Tree.height] at hf
    | succ n => simp [descendRight, h.1]
  | node rl ra rv rr _ ihr =>
    cases f with
    | zero => simp [Tree.height] at hf
    | succ n =>
      simp only [descendRight, h.1, Tree.ptr_node]
      rw [ihr h.2.2 (by simp only [Tree.height] at hf ⊢; omega)]
      simp [List.getLast?_append, List.getLast?_cons]

/-- The climb of `Previous` returns the last node before the hole. -/
theorem prev_climb_eq {mem : Heap T} {c : Ctx T} {a : Nat}
    (h : Ctx.Rep mem c (some a) none) (ha : a ∉ Ctx.addrs c) (hnd : (Ctx.addrs c).Nodup)
    {f : Nat} (hf : c.length < f) :
    BinarySearchTree.Previous.climb f mem a (Ctx.par c none) =
      some ((c.before.map Prod.fst).getLast?) := by
  induction c generalizing a f with
  | nil =>
    cases f with
    | zero => simp at hf
    | succ n => simp [BinarySearchTree.Previous.climb, Ctx.par, Ctx.before]
  | cons f c ih =>
    cases f with
    | zero => simp at hf
    | succ n =>
      cases f with
      | R l b w =>
        obtain ⟨h1, h2, h3⟩ := h
        simp only [Ctx.addrs_R, List.mem_cons, List.mem_append, not_or] at ha
        have : l.ptr ≠ some a := Tree.ptr_ne_of_not_mem ha.2.1
        simp [BinarySearchTree.Previous.climb, Ctx.par, h1, this, Ctx.before,
          List.getLast?_append]
      | L b w r =>
        obtain ⟨h1, h2, h3⟩ := h
        simp only [Ctx.addrs_L, List.nodup_cons, List.mem_append, not_or,
          List.nodup_append] at hnd
        simp only [BinarySearchTree.Previous.climb, Ctx.par, h1, Ctx.before, if_true]
        exact ih h3 hnd.1.2 hnd.2.2.1 (by simpa using hf)

theorem Ctx.length_le_addrs (ctx : Ctx T) : ctx.length ≤ (Ctx.addrs ctx).length := by
  induction ctx with
  | nil => simp
  | cons f ctx ih => cases f <;> simp <;> omega

/-- The method `Previous` returns the node that precedes in the in-order sequence. -/
theorem Models.prev_eq {c : BinarySearchTree T} {ctx : Ctx T} {l r : Tree T} {a : Nat} {v : T}
    (h : Models c (Ctx.plug ctx (Tree.node l a v r))) :
    c.Previous ⟨some a⟩ = some ((ctx.before.map Prod.fst ++ l.addrs).getLast?) := by
  have hrep := (Ctx.rep_plug _ _ _ _).mp h.rep
  obtain ⟨⟨h1, h2, h3⟩, h4⟩ := hrep
  have hnd := (Ctx.nodup_plug _ _).mp h.nodup
  have hlen := h.length_le
  rw [Ctx.length_addrs_plug] at hlen
  simp only [BinarySearchTree.Previous, h1]
  cases l with
  | nil =>
    simp only [Tree.ptr_nil, Tree.addrs_nil, List.append_nil]
    refine prev_climb_eq h4 (hnd.2.2 a (by simp)) hnd.2.1 ?_
    have := ctx.length_le_addrs
    simp only [BinarySearchTree.fuel]
    omega
  | node ll la lv lr =>
    simp only [Tree.ptr_node]
    rw [descendRight_eq h2 ?_]
    · simp [List.getLast?_append, List.getLast?_cons]
    · have := (Tree.node ll la lv lr).height_le_length
      simp only [Tree.addrs_node, List.length_append, List.length_cons] at hlen this
      simp only [BinarySearchTree.fuel]
      omega

end Backward


section Backward2

variable {T : Type}

/-- The predecessor at a position of the in-order sequence. -/
theorem Models.decr_at_split {c : BinarySearchTree T} {t : Tree T} (h : Models c t)
    {pre post : List (Nat × T)} {a : Nat} {v : T} (he : t.elems = pre ++ (a, v) :: post) :
    c.decr ⟨some a⟩ = some ⟨(pre.map Prod.fst).getLast?⟩ := by
  have ha : a ∈ t.addrs := by simp [Tree.addrs_eq_map, he]
  obtain ⟨ctx, l, v2, r, ht⟩ := Ctx.exists_plug_of_mem ha
  subst ht
  have hnd : ((Ctx.plug ctx (Tree.node l a v2 r)).elems.map Prod.fst).Nodup := by
    rw [← Tree.addrs_eq_map]; exact h.nodup
  have hel : (Ctx.plug ctx (Tree.node l a v2 r)).elems =
      (ctx.before ++ l.elems) ++ (a, v2) :: (r.elems ++ ctx.after) := by
    simp [Ctx.elems_plug]
  obtain ⟨hpre, -, -⟩ := split_unique hnd he hel
  simp [BinarySearchTree.decr, h.prev_eq, hpre, Tree.addrs_eq_map]

/-- The decrement of `end()` is the last node of the in-order sequence. -/
theorem Models.decr_end {c : BinarySearchTree T} {t : Tree T} (h : Models c t) :
    c.decr c.end = some ⟨t.addrs.getLast?⟩ := by
  cases t with
  | nil =>
    have hr := h.root
    simp at hr
    simp [BinarySearchTree.decr, BinarySearchTree.end, hr]
  | node l a v r =>
    have hr := h.root
    simp at hr
    simp only [BinarySearchTree.decr, BinarySearchTree.end, hr]
    rw [descendRight_eq h.rep (f := c.fuel) (by have := h.height_lt_fuel; omega)]
    cases hx : (Tree.node l a v r).addrs.getLast? with
    | none => simp at hx
    | some x => rfl

end Backward2


/-! ## Comparison of containers -/

section Comparison

variable {T : Type} [DecidableEq T]

/-- The loop of `operator==`, started at corresponding positions of two sequences with
equally many remaining elements, compares the remaining values. -/
theorem Models.operatorEq_loop {a b : BinarySearchTree T} {ta tb : Tree T} (ha : Models a ta)
    (hb : Models b tb) {p q r s : List (Nat × T)} (hp : ta.elems = p ++ q)
    (hr : tb.elems = r ++ s) (hlen : q.length = s.length) {f : Nat} (hf : q.length < f) :
    BinarySearchTree.operatorEq.loop a b f ⟨(q.map Prod.fst).head?⟩ ⟨(s.map Prod.fst).head?⟩ =
      some (decide (q.map Prod.snd = s.map Prod.snd)) := by
  induction q generalizing p r s f with
  | nil =>
    cases f with
    | zero => simp at hf
    | succ n =>
      cases s with
      | nil => simp [BinarySearchTree.operatorEq.loop, BinarySearchTree.end]
      | cons e s => simp at hlen
  | cons e q ih =>
    obtain ⟨x, v⟩ := e
    cases s with
    | nil => simp at hlen
    | cons e2 s =>
      obtain ⟨y, w⟩ := e2
      cases f with
      | zero => simp at hf
      | succ n =>
        obtain ⟨hia, hda⟩ := ha.at_split hp
        obtain ⟨hib, hdb⟩ := hb.at_split hr
        have hih := ih (p := p ++ [(x, v)]) (r := r ++ [(y, w)]) (s := s) (by simp [hp])
          (by simp [hr]) (by simpa using hlen) (f := n) (by simpa using hf)
        simp only [BinarySearchTree.operatorEq.loop, BinarySearchTree.end, List.map_cons,
          List.head?_cons, hda, hdb, hia, hib]
        rw [if_neg (by simp)]
        by_cases hvw : v = w
        · subst hvw
          simp only [not_true_eq_false, if_false, hih]
          simp
        · simp [hvw]

/-- The comparison `operator==` returns whether the sizes and the in-order values agree. -/
theorem Models.operatorEq {a b : BinarySearchTree T} {ta tb : Tree T} (ha : Models a ta)
    (hb : Models b tb) :
    a.operatorEq b = some (decide (a.size = b.size ∧ ta.values = tb.values)) := by
  simp only [BinarySearchTree.operatorEq, BinarySearchTree.size]
  by_cases hs : b.size_ = a.size_
  · have hlen : ta.elems.length = tb.elems.length := by
      have h1 := ha.size
      have h2 := hb.size
      simp only [Tree.addrs_eq_map, List.length_map] at h1 h2
      omega
    have hf : ta.elems.length < a.fuel := by
      have := ha.length_le
      simp only [BinarySearchTree.fuel, Tree.addrs_eq_map, List.length_map] at this ⊢
      omega
    have := ha.operatorEq_loop hb (p := []) (r := []) rfl rfl hlen hf
    simp only [← Tree.addrs_eq_map, ← Tree.values_eq_map] at this
    simp [hs, ha.begin_eq, hb.begin_eq, this]
  · have hs2 : ¬ a.size_ = b.size_ := fun h => hs h.symm
    simp [hs, hs2]

end Comparison

section Listing

variable {T : Type}

/-- The recursive in-order listing of a represented tree. -/
theorem inorderListing_eq {mem : Heap T} {t : Tree T} {par : Option Nat} (h : t.Rep mem par)
    {f : Nat} (hf : t.height < f) :
    inorderListing f mem t.ptr = some t.values := by
  induction t generalizing par f with
  | nil =>
    cases f with
    | zero => omega
    | succ n => rfl
  | node l a v r ihl ihr =>
    cases f with
    | zero => omega
    | succ n =>
      simp only [Tree.height] at hf
      obtain ⟨h1, h2, h3⟩ := h
      simp only [inorderListing, Tree.ptr_node, h1, ihl h2 (f := n) (by omega),
        ihr h3 (f := n) (by omega), Tree.values_node]

end Listing

/-! ## Parent links -/

section Links

variable {T : Type}

/-- A child pointer of a represented node leads to a node whose parent pointer points
back. -/
theorem Tree.Rep.child_back {mem : Heap T} {t : Tree T} {par : Option Nat}
    (h : t.Rep mem par) {ch : Nat} (hp : t.ptr = some ch) :
    ∃ cn, mem.get ch = some cn ∧ cn.parent_ = par := by
  cases t with
  | nil => simp at hp
  | node l a v r =>
    simp only [Tree.ptr_node, Option.some.injEq] at hp
    subst hp
    exact ⟨_, h.1, rfl⟩

/-- The parent links of a container that holds a tree are consistent. -/
theorem Models.parentLinks {c : BinarySearchTree T} {t : Tree T} (h : Models c t) :
    ParentLinks c := by
  refine ⟨?_, ?_, ?_⟩
  · intro r hr
    rw [h.root] at hr
    exact h.rep.child_back hr
  · intro a n hg hroot
    have ha : a ∈ t.addrs := h.live a (by simp [hg])
    obtain ⟨ctx, l, v, r, ht⟩ := Ctx.exists_plug_of_mem ha
    subst ht
    obtain ⟨hA, -, -, hC, -, -, -, -, -, hac, -, -, -⟩ := h.pieces
    rw [hA, Option.some.injEq] at hg
    subst hg
    cases ctx with
    | nil =>
      exfalso
      apply hroot
      rw [h.root]
      rfl
    | cons f ctx =>
      cases f with
      | L b w br =>
        obtain ⟨h1, h2, h3⟩ := hC
        simp only [Ctx.addrs_L, List.mem_cons, List.mem_append, not_or] at hac
        exact ⟨b, _, rfl, h1, Or.inl ⟨rfl, Tree.ptr_ne_of_not_mem hac.2.1⟩⟩
      | R bl b w =>
        obtain ⟨h1, h2, h3⟩ := hC
        simp only [Ctx.addrs_R, List.mem_cons, List.mem_append, not_or] at hac
        exact ⟨b, _, rfl, h1, Or.inr ⟨Tree.ptr_ne_of_not_mem hac.2.1, rfl⟩⟩
  · intro p pn ch hg hch
    have hp : p ∈ t.addrs := h.live p (by simp [hg])
    obtain ⟨ctx, l, v, r, ht⟩ := Ctx.exists_plug_of_mem hp
    subst ht
    obtain ⟨hA, hL, hR, -⟩ := h.pieces
    rw [hA, Option.some.injEq] at hg
    subst hg
    rcases hch with hch | hch
    · exact hL.child_back hch
    · exact hR.child_back hch

end Links


/-! ## The in-order successor in the two-children erase -/

section Successor

variable {T : Type}

theorem Tree.minAddr_mem (ll lr : Tree T) (la : Nat) (lv : T) (a : Nat) :
    Tree.minAddr (Tree.node ll la lv lr) a ∈ (Tree.node ll la lv lr).addrs := by
  induction ll generalizing la lv lr a with
  | nil => simp [Tree.minAddr]
  | node l2 a2 v2 r2 ih _ =>
    have := ih r2 a2 v2 la
    simp only [Tree.minAddr, Tree.addrs_node, List.mem_append, List.mem_cons] at this ⊢
    exact Or.inl this

/-- The decomposition of `Tree.min_decomp`, with the case of a direct child told
apart: the context is empty exactly when the tree has no left subtree. -/
theorem Tree.min_decomp_direct (l r : Tree T) (a : Nat) (v : T) :
    ∃ (cr : Ctx T) (sr : Tree T), Ctx.AllL cr ∧
      Tree.node l a v r =
        Ctx.plug cr (Tree.node Tree.nil (Tree.minAddr l a) (Tree.minVal l v) sr) ∧
      Tree.delMin (Tree.node l a v r) = Ctx.plug cr sr ∧ (cr = [] ↔ l = Tree.nil) := by
  induction l generalizing r a v with
  | nil => exact ⟨[], r, trivial, rfl, rfl, by simp⟩
  | node ll la lv lr ihl _ =>
    obtain ⟨cr, sr, h1, h2, h3, -⟩ := ihl lr la lv
    refine ⟨cr ++ [Frame.L a v r], sr, Ctx.allL_append h1 trivial, ?_, ?_, by simp⟩
    · rw [Ctx.plug_append]
      simp only [Tree.minAddr, Tree.minVal]
      rw [← h2]; rfl
    · rw [Ctx.plug_append, ← h3]; rfl

/-- A cell outside the tree of a container is empty. -/
theorem Models.get_eq_none {c : BinarySearchTree T} {t : Tree T} (h : Models c t) {x : Nat}
    (hx : x ∉ t.addrs) : c.mem.get x = none := by
  cases hg : c.mem.get x with
  | none => rfl
  | some n => exact absurd (h.live x (by simp [hg])) hx

/-- The two-children branch of `erase` in terms of the tree: the leftmost node `s` of
the right subtree takes the place of the erased node, and the right subtree of `s`
takes the place of `s`. -/
theorem Models.erase_two_children {c : BinarySearchTree T} {t : Tree T} (h : Models c t)
    {x : Nat} {n : TreeNode T} (hx : c.mem.get x = some n) (hl : n.left_ ≠ none)
    (hr : n.right_ ≠ none) :
    ∃ (ctx : Ctx T) (l : Tree T) (cr : Ctx T) (s : Nat) (sv : T) (sr : Tree T)
        (c2 : BinarySearchTree T) (rp : Nat),
      t = Ctx.plug ctx (Tree.node l x n.value_ (Ctx.plug cr (Tree.node Tree.nil s sv sr))) ∧
      l.ptr = n.left_ ∧ Ctx.AllL cr ∧ n.right_ = some rp ∧
      descendLeft c.fuel c.mem rp = some s ∧ (cr = [] ↔ rp = s) ∧
      c.erase ⟨some x⟩ = some c2 ∧
      Models c2 (Ctx.plug ctx (Tree.node l s sv (Ctx.plug cr sr))) ∧
      c2.mem.get x = none := by
  have ha : x ∈ t.addrs := h.live x (by simp [hx])
  obtain ⟨ctx, l, v, r, ht⟩ := Ctx.exists_plug_of_mem ha
  subst ht
  obtain ⟨hA, hL, hR, hC, hndl, hndr, hndc, hal, har, hac, hlr, hlc, hrc⟩ := h.pieces
  rw [hA, Option.some.injEq] at hx
  subst hx
  simp only at hl hr ⊢
  obtain ⟨c2, e, hm2⟩ := h.erase
  cases l with
  | nil => simp at hl
  | node ll la lv lr =>
    cases r with
    | nil => simp at hr
    | node rl ra rv rr =>
      obtain ⟨cr, sr, hall, hdec, hdel, hdir⟩ := Tree.min_decomp_direct rl rr ra rv
      have hlen := h.length_le
      rw [Ctx.length_addrs_plug] at hlen
      have hfuel : (Tree.node rl ra rv rr).height ≤ c.fuel := by
        have := (Tree.node rl ra rv rr).height_le_length
        simp only [Tree.addrs_node, List.length_append, List.length_cons] at hlen this
        simp only [BinarySearchTree.fuel]
        omega
      have hjoin : Tree.join (Tree.node ll la lv lr) (Tree.node rl ra rv rr) =
          Tree.node (Tree.node ll la lv lr) (Tree.minAddr rl ra) (Tree.minVal rl rv)
            (Ctx.plug cr sr) := by
        simp only [Tree.join, hdel]
      rw [hjoin] at hm2
      refine ⟨ctx, Tree.node ll la lv lr, cr, Tree.minAddr rl ra, Tree.minVal rl rv, sr, c2,
        ra, by rw [hdec], rfl, hall, rfl, descendLeft_eq hR hfuel, ?_, e, hm2, ?_⟩
      · rw [hdir]
        constructor
        · intro h0; subst h0; rfl
        · intro h0
          cases rl with
          | nil => rfl
          | node l2 a2 v2 r2 =>
            exfalso
            have hmem := Tree.minAddr_mem l2 r2 a2 v2 ra
            rw [← h0] at hmem
            have := (Tree.nodup_node _ _ _ _).mp hndr
            exact this.2.2.1 hmem
      · apply hm2.get_eq_none
        intro hmem
        rw [Ctx.mem_addrs_plug] at hmem
        have hsub : ∀ y, y ∈ (Tree.node (Tree.node ll la lv lr) (Tree.minAddr rl ra)
            (Tree.minVal rl rv) (Ctx.plug cr sr)).addrs →
            y ∈ (Tree.node ll la lv lr).addrs ∨ y ∈ (Tree.node rl ra rv rr).addrs := by
          intro y hy
          have hj := Tree.addrs_join (Tree.node ll la lv lr) (Tree.node rl ra rv rr)
          rw [hjoin] at hj
          rw [hj] at hy
          exact List.mem_append.mp hy
        rcases hmem with hmem | hmem
        · rcases hsub x hmem with h1 | h1
          · exact hal h1
          · exact har h1
        · exact hac hmem

end Successor


/-! ## Duplicates: the first occurrence and repeated erasure -/

section Duplicates

variable {T : Type} [LinearOrder T]

/-- In a sorted list whose elements are all at least `v`, the elements equal to `v`
are the first `count v` elements, and the others are greater. -/
theorem sorted_take_count {l : List T} {v : T} (hs : l.Sorted (· ≤ ·))
    (hge : ∀ y ∈ l, v ≤ y) :
    l.take (l.count v) = List.replicate (l.count v) v ∧ ∀ y ∈ l.drop (l.count v), v < y := by
  induction l with
  | nil => simp
  | cons x l ih =>
    have hs2 := List.sorted_cons.mp hs
    by_cases hxv : x = v
    · subst hxv
      obtain ⟨h1, h2⟩ := ih hs2.2 (fun y hy => hge y (List.mem_cons_of_mem _ hy))
      simp only [List.count_cons_self, List.take_succ_cons, List.replicate_succ, h1,
        List.drop_succ_cons]
      exact ⟨trivial, h2⟩
    · have hlt : v < x := lt_of_le_of_ne (hge x (List.mem_cons_self _ _)) (Ne.symm hxv)
      have hall : ∀ y ∈ x :: l, v < y := by
        intro y hy
        rcases List.mem_cons.mp hy with rfl | hy
        · exact hlt
        · exact lt_of_lt_of_le hlt (hs2.1 y hy)
      have hc : (x :: l).count v = 0 := by
        rw [List.count_eq_zero]
        intro hmem
        exact lt_irrefl _ (hall v hmem)
      rw [hc]
      exact ⟨rfl, by simpa using hall⟩

/-- The node returned by `find(v)` in an ordered tree is the first occurrence of `v`
in in-order; the occurrences of `v` are the `count v` elements from there on. -/
theorem Models.find_first {c : BinarySearchTree T} {t : Tree T} (h : Models c t)
    (ho : t.Ordered) {v : T} (hv : v ∈ t.values) :
    ∃ a k, c.find v = some ⟨some a⟩ ∧ c.iterAt k = some ⟨some a⟩ ∧ k < t.values.length ∧
      t.values[k]? = some v ∧ (∀ x ∈ t.values.take k, x < v) ∧
      (t.values.drop k).take (t.values.count v) = List.replicate (t.values.count v) v ∧
      (∀ x ∈ t.values.drop (k + t.values.count v), v < x) ∧
      t.values.erase v = t.values.eraseIdx k := by
  cases hf : t.findT v with
  | none => exact absurd hv ((Tree.findT_eq_none_iff ho v).mp hf)
  | some a =>
    obtain ⟨pre, post, he, hpre⟩ := Tree.findT_eq_some ho hf
    have hvals : t.values = pre.map Prod.snd ++ v :: post.map Prod.snd := by
      simp [Tree.values_eq_map, he]
    have hadr : t.addrs = pre.map Prod.fst ++ a :: post.map Prod.fst := by
      simp [Tree.addrs_eq_map, he]
    have hpre2 : ∀ x ∈ pre.map Prod.snd, x < v := by
      intro x hx
      obtain ⟨y, hy, rfl⟩ := List.mem_map.mp hx
      exact hpre y hy
    have hvpre : v ∉ pre.map Prod.snd := fun hmem => lt_irrefl _ (hpre2 v hmem)
    have hsorted := ho.sorted
    rw [hvals] at hsorted
    have hs2 := (List.pairwise_append.mp hsorted).2.1
    have hge : ∀ y ∈ v :: post.map Prod.snd, v ≤ y := by
      intro y hy
      rcases List.mem_cons.mp hy with rfl | hy
      · exact le_refl _
      · exact (List.sorted_cons.mp hs2).1 y hy
    obtain ⟨ht, hd⟩ := sorted_take_count hs2 hge
    have hcount : t.values.count v = (v :: post.map Prod.snd).count v := by
      rw [hvals, List.count_append, List.count_eq_zero.mpr hvpre, Nat.zero_add]
    have hklen : (pre.map Prod.snd).length = pre.length := List.length_map _ _
    refine ⟨a, pre.length, by rw [h.find_eq, hf], ?_, ?_, ?_, ?_, ?_, ?_, ?_⟩
    · rw [h.iterAt_eq (by simp [hadr]), hadr]
      have hkl : (pre.map Prod.fst).length = pre.length := List.length_map _ _
      rw [← hkl, List.getElem?_append_right (le_refl _)]
      simp
    · simp [hvals]
    · rw [hvals, ← hklen, List.getElem?_append_right (le_refl _)]
      simp
    · rw [hvals, ← hklen, List.take_left]
      exact hpre2
    · rw [hcount, hvals, ← hklen, List.drop_left]
      exact ht
    · rw [hcount, hvals, ← hklen, ← List.drop_drop, List.drop_left]
      exact hd
    · rw [hvals, List.erase_append_right _ hvpre, List.erase_cons_head, ← hklen,
        List.eraseIdx_append_of_length_le (le_refl _)]
      simp

/-- Repeated `erase(v)`: after `j` calls, `j` occurrences of `v` are gone and nothing
else has changed. -/
theorem Models.eraseTimes {c : BinarySearchTree T} {t : Tree T} (h : Models c t)
    (ho : t.Ordered) (v : T) (j : Nat) (hj : j ≤ t.values.count v) :
    ∃ c2 t2, c.eraseTimes v j = some c2 ∧ Models c2 t2 ∧ t2.Ordered ∧
      t2.values.count v = t.values.count v - j ∧
      ∀ w, w ≠ v → t2.values.count w = t.values.count w := by
  induction j generalizing c t with
  | zero => exact ⟨c, t, rfl, h, ho, rfl, fun _ _ => rfl⟩
  | succ j ih =>
    obtain ⟨c1, t1, e1, hm1, ho1, hv1, -⟩ := h.eraseValue ho v
    have hmem : v ∈ t.values := List.count_pos_iff.mp (by omega)
    have hc1 : t1.values.count v = t.values.count v - 1 := by
      rw [hv1, List.count_erase_self]
    obtain ⟨c2, t2, e2, hm2, ho2, hc2, hw2⟩ := ih hm1 ho1 (by omega)
    refine ⟨c2, t2, by simp [BinarySearchTree.eraseTimes, e1, e2], hm2, ho2, by omega, ?_⟩
    intro w hw
    rw [hw2 w hw, hv1, List.count_erase_of_ne hw]

end Duplicates

/-! ## Repeated increments -/

section Advance

variable {T : Type}

/-- From the position `k` of the in-order sequence, `j` increments lead to the position
`k + j`; the position after the last one is `end()`. -/
theorem Models.incrTimes_eq {c : BinarySearchTree T} {t : Tree T} (h : Models c t) {k j : Nat}
    (hk : k + j ≤ t.addrs.length) :
    c.incrTimes ⟨t.addrs[k]?⟩ j = some ⟨t.addrs[k + j]?⟩ := by
  induction j with
  | zero => rfl
  | succ j ih =>
    have hk2 : k + j < t.elems.length := by
      simp only [Tree.addrs_eq_map, List.length_map] at hk
      omega
    have he : t.elems = t.elems.take (k + j) ++ t.elems[k + j] :: t.elems.drop (k + j + 1) := by
      rw [List.getElem_cons_drop, List.take_append_drop]
    obtain ⟨hinc, -⟩ := h.at_split (v := t.elems[k + j].2) (a := t.elems[k + j].1) he
    have hak : t.addrs[k + j]? = some t.elems[k + j].1 := by
      simp [Tree.addrs_eq_map, List.getElem?_eq_getElem hk2]
    simp only [BinarySearchTree.incrTimes, ih (by omega), hak, Option.some_bind, hinc]
    simp [Tree.addrs_eq_map, List.head?_drop, Nat.add_assoc]

end Advance

/-! ## Locality: a container inside a larger store -/

namespace Heap

variable {T : Type}

theorem Step.stay {m M : Heap T} (hp : Part m M) : Step m M m M :=
  ⟨hp, le_refl _, fun _ _ h => ⟨h, rfl⟩⟩

theorem Step.comp {m M m1 M1 m2 M2 : Heap T} (h1 : Step m M m1 M1)
    (h2 : Step m1 M1 m2 M2) : Step m M m2 M2 := by
  refine ⟨h2.1, le_trans h1.2.1 h2.2.1, fun y hy hd => ?_⟩
  obtain ⟨a1, a2⟩ := h1.2.2 y hy hd
  obtain ⟨b1, b2⟩ := h2.2.2 y (lt_of_lt_of_le hy h1.2.1) a1
  exact ⟨b1, b2.trans a2⟩

/-- The field assignments are local. -/
theorem Local.modify (a : Nat) (f : TreeNode T → TreeNode T) :
    Local (fun m : Heap T => m.modify a f) := by
  intro m M m2 hp h
  simp only [Heap.modify] at h
  cases hg : m.get a with
  | none => rw [hg] at h; simp at h
  | some n =>
    rw [hg] at h
    simp only [Option.some.injEq] at h
    subst h
    have hlt : a < m.length := Heap.lt_of_get_eq_some hg
    have hG := hp.2 a n hg
    have hisSome : ∀ y, (Heap.get (m.set a (some (f n))) y).isSome = (m.get y).isSome := by
      intro y
      by_cases hy : y = a
      · subst hy
        rw [Heap.get_set_eq _ _ hlt, hg]
        rfl
      · rw [Heap.get_set_ne _ _ hy]
    refine ⟨hisSome, M.set a (some (f n)), by simp [Heap.modify, hG], ⟨?_, ?_⟩, ?_, ?_⟩
    · simp [hp.1]
    · intro b nb hb
      by_cases hba : b = a
      · subst hba
        rw [Heap.get_set_eq _ _ hlt] at hb
        rw [Heap.get_set_eq _ _ (by rw [hp.1]; exact hlt)]
        exact hb
      · rw [Heap.get_set_ne _ _ hba] at hb ⊢
        exact hp.2 b nb hb
    · simp
    · intro y _ hd
      have hya : y ≠ a := by
        rintro rfl
        rw [hg] at hd
        cases hd
      rw [Heap.get_set_ne _ _ hya, Heap.get_set_ne _ _ hya]
      exact ⟨hd, rfl⟩

theorem Local.pure : Local (fun m : Heap T => some m) := by
  intro m M m2 hp h
  cases h
  exact ⟨fun _ => rfl, M, rfl, Step.stay hp⟩

theorem Local.bind {F G : Heap T → Option (Heap T)} (hF : Local F) (hG : Local G) :
    Local (fun m => (F m).bind G) := by
  intro m M m2 hp h
  obtain ⟨m1, h1, h2⟩ := Option.bind_eq_some.mp h
  obtain ⟨l1, M1, e1, s1⟩ := hF m M m1 hp h1
  obtain ⟨l2, M2, e2, s2⟩ := hG m1 M1 m2 s1.1 h2
  exact ⟨fun y => (l2 y).trans (l1 y), M2, by simp [e1, e2], s1.comp s2⟩

theorem Local.read (a : Nat) {G : TreeNode T → Heap T → Option (Heap T)}
    (hG : ∀ n, Local (G n)) : Local (fun m => (m.get a).bind (fun n => G n m)) := by
  intro m M m2 hp h
  obtain ⟨n, h1, h2⟩ := Option.bind_eq_some.mp h
  obtain ⟨l2, M2, e2, s2⟩ := hG n m M m2 hp h2
  exact ⟨l2, M2, by simp [hp.2 a n h1, e2], s2⟩

theorem Local.option {α : Type} (o : Option α) {G : α → Heap T → Option (Heap T)}
    (hG : ∀ x, Local (G x)) : Local (fun m => o.bind (fun x => G x m)) := by
  intro m M m2 hp h
  obtain ⟨x, h1, h2⟩ := Option.bind_eq_some.mp h
  obtain ⟨l2, M2, e2, s2⟩ := hG x m M m2 hp h2
  exact ⟨l2, M2, by simp [h1, e2], s2⟩

theorem Local.ite (p : Prop) [Decidable p] {F G : Heap T → Option (Heap T)} (hF : Local F)
    (hG : Local G) : Local (fun m => if p then F m else G m) := by
  intro m M m2 hp h
  by_cases hc : p
  · simp only [hc, if_true] at h ⊢
    exact hF m M m2 hp h
  · simp only [hc, if_false] at h ⊢
    exact hG m M m2 hp h

theorem Local.setLeft_loc (p : Nat) (x : Option Nat) : Local (fun m : Heap T => m.setLeft p x) :=
  Local.modify _ _

theorem Local.setRight_loc (p : Nat) (x : Option Nat) : Local (fun m : Heap T => m.setRight p x) :=
  Local.modify _ _

theorem Local.setParent_loc (p : Nat) (x : Option Nat) :
    Local (fun m : Heap T => m.setParent p x) :=
  Local.modify _ _

theorem Local.relink_loc (p node : Nat) (x : Option Nat) :
    Local (fun m : Heap T => m.relink p node x) := by
  have h : (fun m : Heap T => m.relink p node x) = fun m => (m.get p).bind
      (fun pn => if pn.left_ = some node then m.setLeft p x else m.setRight p x) := by
    funext m
    simp only [Heap.relink]
    cases m.get p <;> rfl
  rw [h]
  exact Local.read p (G := fun pn m => if pn.left_ = some node then m.setLeft p x
    else m.setRight p x) fun pn => Local.ite _ (Local.setLeft_loc p x) (Local.setRight_loc p x)

theorem Local.setParentIfSome_loc (q x : Option Nat) :
    Local (fun m : Heap T => m.setParentIfSome q x) := by
  cases q with
  | none => exact Local.pure
  | some a => exact Local.setParent_loc a x

theorem Local.relinkParent_loc (node : Nat) (x : Option Nat) :
    Local (fun m : Heap T => m.relinkParent node x) := by
  have h : (fun m : Heap T => m.relinkParent node x) = fun m => (m.get node).bind
      (fun n => n.parent_.elim (some m) (fun p => m.relink p node x)) := by
    funext m
    simp only [Heap.relinkParent]
    cases m.get node with
    | none => rfl
    | some n => cases hn : n.parent_ <;> simp [hn, Option.elim]
  rw [h]
  refine Local.read node (G := fun n m => n.parent_.elim (some m) (fun p => m.relink p node x))
    fun n => ?_
  show Local (fun m => n.parent_.elim (some m) (fun p => m.relink p node x))
  cases n.parent_ with
  | none => exact Local.pure
  | some p => exact Local.relink_loc p node x

theorem Local.copyLeft_loc (dst src : Nat) : Local (fun m : Heap T => m.copyLeft dst src) :=
  Local.read src fun n => Local.setLeft_loc dst n.left_

theorem Local.copyRight_loc (dst src : Nat) : Local (fun m : Heap T => m.copyRight dst src) :=
  Local.read src fun n => Local.setRight_loc dst n.right_

theorem Local.copyParent_loc (dst src : Nat) : Local (fun m : Heap T => m.copyParent dst src) :=
  Local.read src fun n => Local.setParent_loc dst n.parent_

theorem Local.adoptLeft_loc (node x : Nat) : Local (fun m : Heap T => m.adoptLeft node x) :=
  Local.read node fun n => Local.setParentIfSome_loc n.left_ (some x)

theorem Local.adoptRight_loc (node x : Nat) : Local (fun m : Heap T => m.adoptRight node x) :=
  Local.read node fun n => Local.setParentIfSome_loc n.right_ (some x)

theorem Local.bypassLeft_loc (next_node : Nat) :
    Local (fun m : Heap T => m.bypassLeft next_node) :=
  Local.read next_node fun s => Local.option s.parent_ fun np => Local.setLeft_loc np s.right_

theorem Local.reparentRight_loc (next_node : Nat) :
    Local (fun m : Heap T => m.reparentRight next_node) :=
  Local.read next_node fun s => Local.setParentIfSome_loc s.right_ s.parent_

theorem Local.spliceChild_loc (node_to_erase next_node : Nat) :
    Local (fun m : Heap T => BinarySearchTree.erase.spliceChild m node_to_erase next_node) :=
  Local.bind (Local.copyLeft_loc _ _) (Local.bind (Local.copyParent_loc _ _)
    (Local.bind (Local.relinkParent_loc _ _) (Local.adoptLeft_loc _ _)))

theorem Local.spliceDeep_loc (node_to_erase next_node : Nat) :
    Local (fun m : Heap T => BinarySearchTree.erase.spliceDeep m node_to_erase next_node) :=
  Local.bind (Local.bypassLeft_loc _) (Local.bind (Local.reparentRight_loc _)
    (Local.bind (Local.copyParent_loc _ _) (Local.bind (Local.relinkParent_loc _ _)
      (Local.bind (Local.copyRight_loc _ _) (Local.bind (Local.copyLeft_loc _ _)
        (Local.bind (Local.adoptRight_loc _ _) (Local.adoptLeft_loc _ _)))))))

/-- The statement `delete p` for a live node of the part. -/
theorem Step.free {m M : Heap T} (hp : Part m M) {a : Nat} (hl : (m.get a).isSome) :
    Step m M (m.free a) (M.free a) := by
  obtain ⟨n, hn⟩ := Option.isSome_iff_exists.mp hl
  have hlt : a < m.length := Heap.lt_of_get_eq_some hn
  refine ⟨⟨by simp [Heap.free, hp.1], ?_⟩, by simp [Heap.free], ?_⟩
  · intro b nb hb
    simp only [Heap.free] at hb ⊢
    by_cases hba : b = a
    · subst hba
      rw [Heap.get_set_eq _ _ hlt] at hb
      cases hb
    · rw [Heap.get_set_ne _ _ hba] at hb ⊢
      exact hp.2 b nb hb
  · intro y _ hd
    have hya : y ≠ a := by
      rintro rfl
      rw [hn] at hd
      cases hd
    simp only [Heap.free]
    rw [Heap.get_set_ne _ _ hya, Heap.get_set_ne _ _ hya]
    exact ⟨hd, rfl⟩

/-- The expression `new TreeNode(value)`. -/
theorem Step.alloc {m M : Heap T} (hp : Part m M) (v : T) :
    (M.alloc v).1 = (m.alloc v).1 ∧ Step m M (m.alloc v).2 (M.alloc v).2 := by
  refine ⟨hp.1, ⟨by simp [Heap.alloc, hp.1], ?_⟩, by simp [Heap.alloc], ?_⟩
  · intro b nb hb
    simp only [Heap.alloc] at hb ⊢
    rcases Nat.lt_trichotomy b m.length with hlt | heq | hgt
    · rw [Heap.get_append_lt _ _ hlt] at hb
      rw [Heap.get_append_lt _ _ (by rw [hp.1]; exact hlt)]
      exact hp.2 b nb hb
    · subst heq
      rw [Heap.get_append_length] at hb
      rw [← hp.1, Heap.get_append_length]
      exact hb
    · have := Heap.lt_of_get_eq_some hb
      simp only [List.length_append, List.length_singleton] at this
      omega
  · intro y hy hd
    simp only [Heap.alloc]
    rw [Heap.get_append_lt _ _ hy, Heap.get_append_lt _ _ (by rw [hp.1]; exact hy)]
    exact ⟨hd, rfl⟩

end Heap

section ReadOnly

variable {T : Type}

theorem descendLeft_part {m M : Heap T} (hp : Heap.Part m M) {f a r : Nat}
    (h : descendLeft f m a = some r) : descendLeft f M a = some r := by
  induction f generalizing a with
  | zero => simp [descendLeft] at h
  | succ f ih =>
    simp only [descendLeft] at h ⊢
    cases hg : m.get a with
    | none => rw [hg] at h; simp at h
    | some n =>
      rw [hg] at h
      rw [hp.2 a n hg]
      cases hl : n.left_ with
      | none => simpa [hl] using h
      | some l =>
        simp only [hl] at h ⊢
        exact ih h

theorem climb_part {m M : Heap T} (hp : Heap.Part m M) {f a : Nat} {p r : Option Nat}
    (h : BinarySearchTree.Next.climb f m a p = some r) :
    BinarySearchTree.Next.climb f M a p = some r := by
  induction f generalizing a p with
  | zero => simp [BinarySearchTree.Next.climb] at h
  | succ f ih =>
    cases p with
    | none => simpa [BinarySearchTree.Next.climb] using h
    | some q =>
      simp only [BinarySearchTree.Next.climb] at h ⊢
      cases hg : m.get q with
      | none => rw [hg] at h; simp at h
      | some n =>
        rw [hg] at h
        rw [hp.2 q n hg]
        by_cases hc : n.right_ = some a
        · simp only [hc, if_true] at h ⊢
          exact ih h
        · simpa [hc] using h

theorem Next_part {c : BinarySearchTree T} {M : Heap T} (hp : Heap.Part c.mem M)
    {it : ConstIterator} {r : Option Nat} (h : c.Next it = some r) :
    BinarySearchTree.Next ⟨M, c.root_, c.size_⟩ it = some r := by
  simp only [BinarySearchTree.Next, BinarySearchTree.fuel] at h ⊢
  cases hc : it.current_node_ with
  | none => rw [hc] at h; simp at h
  | some a =>
    rw [hc] at h
    simp only at h ⊢
    cases hg : c.mem.get a with
    | none => rw [hg] at h; simp at h
    | some n =>
      rw [hg] at h
      rw [hp.2 a n hg, hp.1]
      cases hr : n.right_ with
      | none =>
        simp only [hr] at h ⊢
        exact climb_part hp h
      | some q =>
        simp only [hr, Option.map_eq_some'] at h ⊢
        obtain ⟨x, hx, rfl⟩ := h
        exact ⟨x, descendLeft_part hp hx, rfl⟩

theorem incr_part {c : BinarySearchTree T} {M : Heap T} (hp : Heap.Part c.mem M)
    {it r : ConstIterator} (h : c.incr it = some r) :
    BinarySearchTree.incr ⟨M, c.root_, c.size_⟩ it = some r := by
  simp only [BinarySearchTree.incr, Option.map_eq_some'] at h ⊢
  obtain ⟨x, hx, rfl⟩ := h
  exact ⟨x, Next_part hp hx, rfl⟩

theorem deref_part {c : BinarySearchTree T} {M : Heap T} (hp : Heap.Part c.mem M)
    {it : ConstIterator} {v : T} (h : c.deref it = some v) :
    BinarySearchTree.deref ⟨M, c.root_, c.size_⟩ it = some v := by
  simp only [BinarySearchTree.deref] at h ⊢
  cases hc : it.current_node_ with
  | none => rw [hc] at h; simp at h
  | some a =>
    rw [hc] at h
    simp only [Option.map_eq_some'] at h ⊢
    obtain ⟨n, hn, rfl⟩ := h
    exact ⟨n, hp.2 a n hn, rfl⟩

theorem begin_part {c : BinarySearchTree T} {M : Heap T} (hp : Heap.Part c.mem M)
    {r : ConstIterator} (h : c.begin = some r) :
    BinarySearchTree.begin ⟨M, c.root_, c.size_⟩ = some r := by
  simp only [BinarySearchTree.begin, BinarySearchTree.fuel] at h ⊢
  cases hr : c.root_ with
  | none => simpa [hr] using h
  | some a =>
    simp only [hr, Option.map_eq_some'] at h ⊢
    obtain ⟨x, hx, rfl⟩ := h
    rw [hp.1]
    exact ⟨x, descendLeft_part hp hx, rfl⟩

theorem to_vector_loop_part {c : BinarySearchTree T} {M : Heap T} (hp : Heap.Part c.mem M)
    {f : Nat} {i : ConstIterator} {acc r : List T}
    (h : BinarySearchTree.to_vector.loop c f i acc = some r) :
    BinarySearchTree.to_vector.loop ⟨M, c.root_, c.size_⟩ f i acc = some r := by
  induction f generalizing i acc with
  | zero => simp [BinarySearchTree.to_vector.loop] at h
  | succ f ih =>
    simp only [BinarySearchTree.to_vector.loop, BinarySearchTree.end] at h ⊢
    by_cases hi : i = ⟨none⟩
    · simpa [hi] using h
    · simp only [hi, if_false] at h ⊢
      cases hd : c.deref i with
      | none => rw [hd] at h; simp at h
      | some v =>
        cases hn : c.incr i with
        | none => rw [hd, hn] at h; simp at h
        | some j =>
          rw [hd, hn] at h
          rw [deref_part hp hd, incr_part hp hn]
          exact ih h

theorem to_vector_part {c : BinarySearchTree T} {M : Heap T} (hp : Heap.Part c.mem M)
    {r : List T} (h : c.to_vector = some r) :
    BinarySearchTree.to_vector ⟨M, c.root_, c.size_⟩ = some r := by
  simp only [BinarySearchTree.to_vector] at h ⊢
  cases hb : c.begin with
  | none => rw [hb] at h; simp at h
  | some i =>
    rw [hb] at h
    rw [begin_part hp hb]
    simp only [BinarySearchTree.fuel] at h ⊢
    rw [hp.1]
    exact to_vector_loop_part hp h

variable [DecidableEq T]

theorem operatorEq_loop_part {a b : BinarySearchTree T} {M N : Heap T}
    (hpa : Heap.Part a.mem M) (hpb : Heap.Part b.mem N) {f : Nat} {i j : ConstIterator}
    {r : Bool} (h : BinarySearchTree.operatorEq.loop a b f i j = some r) :
    BinarySearchTree.operatorEq.loop ⟨M, a.root_, a.size_⟩ ⟨N, b.root_, b.size_⟩ f i j =
      some r := by
  induction f generalizing i j with
  | zero => simp [BinarySearchTree.operatorEq.loop] at h
  | succ f ih =>
    simp only [BinarySearchTree.operatorEq.loop, BinarySearchTree.end] at h ⊢
    by_cases hi : i = ⟨none⟩
    · simpa [hi] using h
    · simp only [hi, if_false] at h ⊢
      cases hda : a.deref i with
      | none => rw [hda] at h; simp at h
      | some x =>
        cases hdb : b.deref j with
        | none => rw [hda, hdb] at h; simp at h
        | some y =>
          rw [hda, hdb] at h
          rw [deref_part hpa hda, deref_part hpb hdb]
          simp only at h ⊢
          by_cases hxy : x = y
          · simp only [hxy, not_true_eq_false, if_false] at h ⊢
            cases hia : a.incr i with
            | none => rw [hia] at h; simp at h
            | some i2 =>
              cases hib : b.incr j with
              | none => rw [hia, hib] at h; simp at h
              | some j2 =>
                rw [hia, hib] at h
                rw [incr_part hpa hia, incr_part hpb hib]
                exact ih h
          · simpa [hxy] using h

theorem operatorEq_part {a b : BinarySearchTree T} {M N : Heap T}
    (hpa : Heap.Part a.mem M) (hpb : Heap.Part b.mem N) {r : Bool}
    (h : a.operatorEq b = some r) :
    BinarySearchTree.operatorEq ⟨M, a.root_, a.size_⟩ ⟨N, b.root_, b.size_⟩ = some r := by
  simp only [BinarySearchTree.operatorEq] at h ⊢
  by_cases hs : b.size_ ≠ a.size_
  · simpa [hs] using h
  · simp only [hs, if_false] at h ⊢
    cases hba : a.begin with
    | none => rw [hba] at h; simp at h
    | some i =>
      cases hbb : b.begin with
      | none => rw [hba, hbb] at h; simp at h
      | some j =>
        rw [hba, hbb] at h
        rw [begin_part hpa hba, begin_part hpb hbb]
        simp only [BinarySearchTree.fuel] at h ⊢
        rw [hpa.1]
        exact operatorEq_loop_part hpa hpb h

end ReadOnly

section Mutators

variable {T : Type}

open BinarySearchTree

theorem DeleteLeaf_local (leaf : Option Nat) :
    BinarySearchTree.Local (fun c : BinarySearchTree T => c.DeleteLeaf leaf) := by
  intro c M c2 hp h
  cases leaf with
  | none =>
    simp only [DeleteLeaf, Option.some.injEq] at h ⊢
    subst h
    exact ⟨M, rfl, Heap.Step.stay hp⟩
  | some a =>
    simp only [DeleteLeaf] at h ⊢
    cases hg : c.mem.get a with
    | none => rw [hg] at h; simp at h
    | some n =>
      rw [hg] at h
      rw [hp.2 a n hg]
      cases hpar : n.parent_ with
      | none =>
        simp only [hpar, Option.map_some', Option.some.injEq] at h ⊢
        subst h
        exact ⟨M.free a, rfl, Heap.Step.free hp (by simp [hg])⟩
      | some p =>
        simp only [hpar, Option.map_map, Option.map_eq_some', Function.comp] at h ⊢
        obtain ⟨m1, h1, rfl⟩ := h
        obtain ⟨l1, M1, e1, s1⟩ := Heap.Local.relink_loc p a none c.mem M m1 hp h1
        refine ⟨M1.free a, ⟨M1, e1, rfl⟩, s1.comp (Heap.Step.free s1.1 ?_)⟩
        rw [l1 a, hg]
        rfl

theorem DeleteSubtree_local (f : Nat) (p : Option Nat) :
    BinarySearchTree.Local (fun c : BinarySearchTree T => DeleteSubtree f c p) := by
  induction f generalizing p with
  | zero =>
    intro c M c2 hp h
    simp [DeleteSubtree] at h
  | succ f ih =>
    intro c M c2 hp h
    cases p with
    | none =>
      simp only [DeleteSubtree, Option.some.injEq] at h ⊢
      subst h
      exact ⟨M, rfl, Heap.Step.stay hp⟩
    | some a =>
      simp only [DeleteSubtree] at h ⊢
      cases hg : c.mem.get a with
      | none => rw [hg] at h; simp at h
      | some n =>
        rw [hg] at h
        rw [hp.2 a n hg]
        simp only at h ⊢
        cases h1 : DeleteSubtree f c n.left_ with
        | none => rw [h1] at h; simp at h
        | some c1 =>
          rw [h1] at h
          obtain ⟨M1, e1, s1⟩ := ih n.left_ c M c1 hp h1
          simp only at e1
          rw [e1]
          simp only at h ⊢
          cases hg1 : c1.mem.get a with
          | none => rw [hg1] at h; simp at h
          | some n1 =>
            rw [hg1] at h
            rw [s1.1.2 a n1 hg1]
            simp only at h ⊢
            cases h2 : DeleteSubtree f c1 n1.right_ with
            | none => rw [h2] at h; simp at h
            | some c3 =>
              rw [h2] at h
              obtain ⟨M2, e2, s2⟩ := ih n1.right_ c1 M1 c3 s1.1 h2
              simp only at e2
              rw [e2]
              simp only at h ⊢
              obtain ⟨M3, e3, s3⟩ := DeleteLeaf_local (some a) c3 M2 c2 s2.1 h
              exact ⟨M3, e3, (s1.comp s2).comp s3⟩

/-- The branches of `DeleteNodeWithOneChild` are local and keep the live addresses. -/
theorem promote_local (a : Nat) (child : TreeNode T → Option Nat) {c c2 : BinarySearchTree T}
    {M : Heap T} (hp : Heap.Part c.mem M)
    (h : DeleteNodeWithOneChild.promote c a child = some c2) :
    (∀ y, (c2.mem.get y).isSome = (c.mem.get y).isSome) ∧
    ∃ M2, DeleteNodeWithOneChild.promote ⟨M, c.root_, c.size_⟩ a child =
        some ⟨M2, c2.root_, c2.size_⟩ ∧ Heap.Step c.mem M c2.mem M2 := by
  simp only [DeleteNodeWithOneChild.promote, Option.bind_eq_bind, Option.bind_eq_some] at h ⊢
  obtain ⟨n, hn, ch, hch, m1, hm1, n1, hn1, h⟩ := h
  obtain ⟨l1, M1, e1, s1⟩ := Heap.Local.setParent_loc ch n.parent_ c.mem M m1 hp hm1
  cases hpar : n1.parent_ with
  | none =>
    simp only [hpar, Option.some.injEq] at h
    subst h
    refine ⟨l1, M1, ⟨n, hp.2 _ _ hn, ch, hch, M1, e1, n1, s1.1.2 _ _ hn1, ?_⟩, s1⟩
    simp [hpar]
  | some p =>
    simp only [hpar, Option.map_eq_some'] at h
    obtain ⟨m2, hm2, rfl⟩ := h
    obtain ⟨l2, M2, e2, s2⟩ := Heap.Local.relink_loc p a (child n1) m1 M1 m2 s1.1 hm2
    refine ⟨fun y => (l2 y).trans (l1 y), M2,
      ⟨n, hp.2 _ _ hn, ch, hch, M1, e1, n1, s1.1.2 _ _ hn1, ?_⟩, s1.comp s2⟩
    simp [hpar, e2]

theorem DeleteNodeWithOneChild_local (a : Nat) :
    BinarySearchTree.Local (fun c : BinarySearchTree T => c.DeleteNodeWithOneChild a) := by
  intro c M c2 hp h
  simp only [DeleteNodeWithOneChild, Option.bind_eq_bind] at h ⊢
  cases hn : c.mem.get a with
  | none => rw [hn] at h; simp at h
  | some n =>
    rw [hn, Option.some_bind] at h
    rw [hp.2 _ _ hn, Option.some_bind]
    have hlive : (c.mem.get a).isSome := by simp [hn]
    by_cases hr : n.right_ = none
    · simp only [hr, if_true, Option.bind_eq_some, Option.some.injEq] at h ⊢
      obtain ⟨d, hd, rfl⟩ := h
      obtain ⟨l1, M1, e1, s1⟩ := promote_local a _ hp hd
      exact ⟨M1.free a, ⟨⟨M1, d.root_, d.size_⟩, e1, rfl⟩,
        s1.comp (Heap.Step.free s1.1 (by rw [l1 a]; exact hlive))⟩
    · by_cases hl : n.left_ = none
      · simp only [hr, hl, if_true, if_false, Option.bind_eq_some, Option.some.injEq] at h ⊢
        obtain ⟨d, hd, rfl⟩ := h
        obtain ⟨l1, M1, e1, s1⟩ := promote_local a _ hp hd
        exact ⟨M1.free a, ⟨⟨M1, d.root_, d.size_⟩, e1, rfl⟩,
          s1.comp (Heap.Step.free s1.1 (by rw [l1 a]; exact hlive))⟩
      · simp only [hr, hl, if_false, Option.some_bind, Option.some.injEq] at h ⊢
        subst h
        exact ⟨M.free a, rfl, Heap.Step.free hp hlive⟩

/-- The two-children splice is local and keeps the live addresses. -/
theorem splice_local (a : Nat) {c c2 : BinarySearchTree T} {M : Heap T}
    (hp : Heap.Part c.mem M) (h : erase.splice c a = some c2) :
    (∀ y, (c2.mem.get y).isSome = (c.mem.get y).isSome) ∧
    ∃ M2, erase.splice ⟨M, c.root_, c.size_⟩ a = some ⟨M2, c2.root_, c2.size_⟩ ∧
      Heap.Step c.mem M c2.mem M2 := by
  simp only [erase.splice, Option.bind_eq_some, Option.map_eq_some',
    BinarySearchTree.fuel] at h ⊢
  obtain ⟨n, hn, r, hr, s, hs, nn, hnn, m2, hm2, rfl⟩ := h
  have key : ∃ l : (∀ y, (m2.get y).isSome = (c.mem.get y).isSome), ∃ M2,
      (if nn.parent_ = some a then erase.spliceChild M a s else erase.spliceDeep M a s) =
        some M2 ∧ Heap.Step c.mem M m2 M2 := by
    by_cases hc : nn.parent_ = some a
    · simp only [hc, if_true] at hm2 ⊢
      obtain ⟨l, M2, e, st⟩ := Heap.Local.spliceChild_loc a s c.mem M m2 hp hm2
      exact ⟨l, M2, e, st⟩
    · simp only [hc, if_false] at hm2 ⊢
      obtain ⟨l, M2, e, st⟩ := Heap.Local.spliceDeep_loc a s c.mem M m2 hp hm2
      exact ⟨l, M2, e, st⟩
  obtain ⟨l, M2, e, st⟩ := key
  refine ⟨l, M2, ⟨n, hp.2 _ _ hn, r, hr, s, ?_, nn, hp.2 _ _ hnn, M2, e, rfl⟩, st⟩
  rw [hp.1]
  exact descendLeft_part hp hs

theorem erase_local (it : ConstIterator) :
    BinarySearchTree.Local (fun c : BinarySearchTree T => c.erase it) := by
  intro c M c2 hp h
  simp only [BinarySearchTree.erase] at h ⊢
  cases hc : it.current_node_ with
  | none =>
    simp only [hc, Option.some.injEq] at h ⊢
    subst h
    exact ⟨M, rfl, Heap.Step.stay hp⟩
  | some a =>
    simp only [hc] at h ⊢
    cases hg : c.mem.get a with
    | none => rw [hg] at h; simp at h
    | some n =>
      rw [hg] at h
      rw [hp.2 a n hg]
      simp only at h ⊢
      by_cases hleaf : n.IsLeaf
      · simp only [hleaf, if_true] at h ⊢
        exact DeleteLeaf_local (some a) c M c2 hp h
      · simp only [hleaf] at h ⊢
        by_cases hone : n.right_ = none ∨ n.left_ = none
        · simp only [hone, if_true, Bool.false_eq_true, if_false] at h ⊢
          exact DeleteNodeWithOneChild_local a c M c2 hp h
        · simp only [hone, if_false, Bool.false_eq_true, Option.map_eq_some'] at h ⊢
          obtain ⟨d, hd, rfl⟩ := h
          obtain ⟨l, M2, e, st⟩ := splice_local a hp hd
          refine ⟨M2.free a, ⟨⟨M2, d.root_, d.size_⟩, e, rfl⟩,
            st.comp (Heap.Step.free st.1 ?_)⟩
          rw [l a, hg]
          rfl

end Mutators

section MutatorsOrdered

variable {T : Type} [LinearOrder T]

open BinarySearchTree

theorem Heap.Local.insertDescend_loc (node f fp : Nat) :
    Heap.Local (fun m : Heap T => InsertNode.descend node f m fp) := by
  induction f generalizing fp with
  | zero =>
    intro m M m2 hp h
    simp [InsertNode.descend] at h
  | succ f ih =>
    intro m M m2 hp h
    simp only [InsertNode.descend] at h ⊢
    cases hg1 : m.get node with
    | none => rw [hg1] at h; simp at h
    | some nd =>
      cases hg2 : m.get fp with
      | none => rw [hg1, hg2] at h; simp at h
      | some fn =>
        rw [hg1, hg2] at h
        rw [hp.2 _ _ hg1, hp.2 _ _ hg2]
        simp only at h ⊢
        by_cases hlt : nd.value_ < fn.value_
        · simp only [hlt, if_true] at h ⊢
          cases hl : fn.left_ with
          | none =>
            simp only [hl] at h ⊢
            exact (Heap.Local.bind (Heap.Local.setLeft_loc fp (some node))
              (Heap.Local.setParent_loc node (some fp))) m M m2 hp h
          | some l =>
            simp only [hl] at h ⊢
            exact ih l m M m2 hp h
        · simp only [hlt, if_false] at h ⊢
          cases hr : fn.right_ with
          | none =>
            simp only [hr] at h ⊢
            exact (Heap.Local.bind (Heap.Local.setRight_loc fp (some node))
              (Heap.Local.setParent_loc node (some fp))) m M m2 hp h
          | some r =>
            simp only [hr] at h ⊢
            exact ih r m M m2 hp h

theorem insert_local (v : T) :
    BinarySearchTree.Local (fun c : BinarySearchTree T => c.insert v) := by
  intro c M c2 hp h
  obtain ⟨ha, sa⟩ := Heap.Step.alloc hp v
  simp only [BinarySearchTree.insert, InsertNode, BinarySearchTree.fuel] at h ⊢
  cases hr : c.root_ with
  | none =>
    simp only [hr, Option.some.injEq] at h ⊢
    subst h
    exact ⟨(M.alloc v).2, by simp [ha], sa⟩
  | some r =>
    simp only [hr, Option.map_eq_some'] at h ⊢
    obtain ⟨m2, hm2, rfl⟩ := h
    obtain ⟨-, M2, e, st⟩ := Heap.Local.insertDescend_loc (c.mem.alloc v).1
      ((c.mem.alloc v).2.length + 1) r (c.mem.alloc v).2 (M.alloc v).2 m2 sa.1 hm2
    refine ⟨M2, ⟨M2, ?_, rfl⟩, sa.comp st⟩
    rw [ha, sa.1.1]
    exact e

theorem find_loop_part {m M : Heap T} (hp : Heap.Part m M) (v : T) {f : Nat}
    {p r : Option Nat} (h : find.loop v f m p = some r) : find.loop v f M p = some r := by
  induction f generalizing p with
  | zero => simp [find.loop] at h
  | succ f ih =>
    cases p with
    | none => simpa [find.loop] using h
    | some a =>
      simp only [find.loop] at h ⊢
      cases hg : m.get a with
      | none => rw [hg] at h; simp at h
      | some n =>
        rw [hg] at h
        rw [hp.2 _ _ hg]
        simp only at h ⊢
        by_cases h1 : n.value_ < v
        · simp only [h1, if_true] at h ⊢
          exact ih h
        · by_cases h2 : n.value_ = v
          · simpa [h1, h2] using h
          · simp only [h1, h2, if_false] at h ⊢
            exact ih h

theorem find_part {c : BinarySearchTree T} {M : Heap T} (hp : Heap.Part c.mem M) (v : T)
    {r : ConstIterator} (h : c.find v = some r) :
    BinarySearchTree.find ⟨M, c.root_, c.size_⟩ v = some r := by
  simp only [BinarySearchTree.find, Option.map_eq_some', BinarySearchTree.fuel] at h ⊢
  obtain ⟨x, hx, rfl⟩ := h
  rw [hp.1]
  exact ⟨x, find_loop_part hp v hx, rfl⟩

theorem eraseValue_local (v : T) :
    BinarySearchTree.Local (fun c : BinarySearchTree T => c.eraseValue v) := by
  intro c M c2 hp h
  simp only [BinarySearchTree.eraseValue] at h ⊢
  cases hf : c.find v with
  | none => rw [hf] at h; simp at h
  | some it =>
    rw [hf] at h
    rw [find_part hp v hf]
    simp only [BinarySearchTree.end] at h ⊢
    by_cases hit : it = ⟨none⟩
    · simp only [hit, ne_eq, not_true_eq_false, if_false, Option.some.injEq] at h ⊢
      subst h
      exact ⟨M, rfl, Heap.Step.stay hp⟩
    · simp only [ne_eq, hit, not_false_eq_true, if_true] at h ⊢
      exact erase_local it c M c2 hp h

end MutatorsOrdered

section CopyWorld

variable {T : Type}

open BinarySearchTree

/-- One level of `CopySubtree`, with the statements that create and attach the new node
gathered in `CopySubtree.link`. -/
theorem CopySubtree_succ (src : Heap T) (f : Nat) (c : BinarySearchTree T)
    (par : Option Nat) (second : Nat) (rel : Int) :
    CopySubtree src (f + 1) c par (some second) rel =
      (src.get second).bind fun sn =>
      (CopySubtree.link c sn.value_ par rel).bind fun c1 =>
      (CopySubtree src f c1 (some (c.mem.alloc sn.value_).1) sn.left_ (-1)).bind fun c2 =>
      CopySubtree src f c2 (some (c.mem.alloc sn.value_).1) sn.right_ 1 := by
  simp only [CopySubtree]
  cases src.get second with
  | none => rfl
  | some sn =>
    simp only [Option.some_bind]
    cases hL : CopySubtree.link c sn.value_ par rel with
    | none =>
      simp only [CopySubtree.link] at hL
      simp only [hL, Option.none_bind]
    | some c1 =>
      simp only [CopySubtree.link] at hL
      simp only [hL, Option.some_bind]
      cases CopySubtree src f c1 (some (c.mem.alloc sn.value_).1) sn.left_ (-1) <;> rfl

theorem link_local (v : T) (par : Option Nat) (rel : Int) :
    BinarySearchTree.Local (fun c : BinarySearchTree T => CopySubtree.link c v par rel) := by
  intro c M c2 hp h
  obtain ⟨ha, sa⟩ := Heap.Step.alloc hp v
  simp only [CopySubtree.link] at h ⊢
  cases h1 : (c.mem.alloc v).2.setParent (c.mem.alloc v).1 par with
  | none => rw [h1] at h; simp at h
  | some m1 =>
    rw [h1] at h
    obtain ⟨-, M1, e1, s1⟩ := Heap.Local.setParent_loc (c.mem.alloc v).1 par _ _ m1 sa.1 h1
    simp only at e1
    rw [ha, e1]
    simp only at h ⊢
    by_cases h0 : rel = 0
    · simp only [h0, if_true, Option.some.injEq] at h ⊢
      subst h
      exact ⟨M1, rfl, sa.comp s1⟩
    · simp only [h0, if_false] at h ⊢
      cases par with
      | none => simp at h
      | some fp =>
        simp only at h ⊢
        by_cases hm : rel = -1
        · simp only [hm, if_true, Option.map_eq_some'] at h ⊢
          obtain ⟨m2, hm2, rfl⟩ := h
          obtain ⟨-, M2, e2, s2⟩ := Heap.Local.setLeft_loc fp (some (c.mem.alloc v).1) m1 M1 m2
            s1.1 hm2
          simp only at e2
          exact ⟨M2, ⟨M2, e2, rfl⟩, (sa.comp s1).comp s2⟩
        · simp only [hm, if_false, Option.map_eq_some'] at h ⊢
          obtain ⟨m2, hm2, rfl⟩ := h
          obtain ⟨-, M2, e2, s2⟩ := Heap.Local.setRight_loc fp (some (c.mem.alloc v).1) m1 M1 m2
            s1.1 hm2
          simp only at e2
          exact ⟨M2, ⟨M2, e2, rfl⟩, (sa.comp s1).comp s2⟩

/-- The deep copy between two containers in one store runs as the deep copy from the
store of the source into the store of the destination, while the nodes of the source
are not nodes of the destination. -/
theorem CopySubtree_world {src : Heap T} (f : Nat) (c c2 : BinarySearchTree T) (M : Heap T)
    (par second : Option Nat) (rel : Int) (hs : Heap.Sub src M) (hp : Heap.Part c.mem M)
    (hd : ∀ y, (src.get y).isSome → y < c.mem.length ∧ c.mem.get y = none)
    (h : CopySubtree src f c par second rel = some c2) :
    ∃ M2, World.CopySubtree f ⟨M, c.root_, c.size_⟩ par second rel =
        some ⟨M2, c2.root_, c2.size_⟩ ∧ Heap.Step c.mem M c2.mem M2 := by
  induction f generalizing c c2 M par second rel with
  | zero => simp [CopySubtree] at h
  | succ f ih =>
    cases second with
    | none =>
      simp only [CopySubtree, Option.some.injEq] at h
      subst h
      exact ⟨M, by simp [World.CopySubtree], Heap.Step.stay hp⟩
    | some a =>
      rw [CopySubtree_succ] at h
      simp only [Option.bind_eq_some] at h
      obtain ⟨sn, hsn, c1, hc1, c3, hc3, h⟩ := h
      obtain ⟨M1, e1, s1⟩ := link_local sn.value_ par rel c M c1 hp hc1
      simp only at e1
      have hlen : M.length = c.mem.length := hp.1
      -- the source is untouched by a step of the destination
      have keep : ∀ {m1 M1 m2 M2 : Heap T}, Heap.Sub src M1 →
          (∀ y, (src.get y).isSome → y < m1.length ∧ m1.get y = none) →
          Heap.Step m1 M1 m2 M2 →
          Heap.Sub src M2 ∧ ∀ y, (src.get y).isSome → y < m2.length ∧ m2.get y = none := by
        intro m1 M1 m2 M2 hs1 hd1 st
        refine ⟨fun y n hy => ?_, fun y hy => ?_⟩
        · obtain ⟨hlt, hnone⟩ := hd1 y (by simp [hy])
          rw [(st.2.2 y hlt hnone).2]
          exact hs1 y n hy
        · obtain ⟨hlt, hnone⟩ := hd1 y hy
          exact ⟨lt_of_lt_of_le hlt st.2.1, (st.2.2 y hlt hnone).1⟩
      obtain ⟨hs1, hd1⟩ := keep hs hd s1
      obtain ⟨M3, e3, s3⟩ := ih c1 c3 M1 _ _ _ hs1 s1.1 hd1 hc3
      obtain ⟨hs3, hd3⟩ := keep hs1 hd1 s3
      obtain ⟨M2, e2, s2⟩ := ih c3 c2 M3 _ _ _ hs3 s3.1 hd3 h
      refine ⟨M2, ?_, (s1.comp s3).comp s2⟩
      simp only [World.CopySubtree, hs a sn hsn, Option.some_bind, e1, hs1 a sn hsn]
      have hfirst : (M.alloc sn.value_).1 = (c.mem.alloc sn.value_).1 := hlen
      rw [hfirst, e3]
      simp only [Option.some_bind, hs3 a sn hsn]
      exact e2

end CopyWorld

/-! ## Containers that share a store -/

section Shared

variable {T : Type}

open BinarySearchTree

theorem Tree.Rep.of_sub {m M : Heap T} {t : Tree T} {par : Option Nat} (h : t.Rep m par)
    (hs : Heap.Sub m M) : t.Rep M par := by
  induction t generalizing par with
  | nil => trivial
  | node l a v r ihl ihr => exact ⟨hs _ _ h.1, ihl h.2.1, ihr h.2.2⟩

/-- A container that holds a tree in a larger store owns a part of that store, in which
it holds the tree and nothing else. -/
theorem Holds.exists_part {c : BinarySearchTree T} {t : Tree T} (h : Holds c t) :
    ∃ m, Heap.Part m c.mem ∧ Models ⟨m, c.root_, c.size_⟩ t := by
  have hget : ∀ i, Heap.get ((List.range c.mem.length).map
      (fun i => if i ∈ t.addrs then c.mem.get i else none)) i =
      if i ∈ t.addrs then c.mem.get i else none := by
    intro i
    by_cases hi : i < c.mem.length
    · simp [Heap.get, List.getD_eq_getElem?_getD, List.getElem?_map, List.getElem?_range hi]
    · rw [Heap.get_eq_none_of_le _ _ (by simpa using hi),
        Heap.get_eq_none_of_le _ _ (not_lt.mp hi)]
      simp
  refine ⟨(List.range c.mem.length).map (fun i => if i ∈ t.addrs then c.mem.get i else none),
    ⟨by simp, ?_⟩, ⟨h.root, ?_, h.nodup, h.size, ?_⟩⟩
  · intro a n ha
    rw [hget] at ha
    by_cases hm : a ∈ t.addrs
    · simpa [hm] using ha
    · simp [hm] at ha
  · exact h.rep.frame (fun x hx => by rw [hget]; simp [hx])
  · intro a ha
    simp only at ha
    rw [hget] at ha
    by_contra hm
    simp [hm] at ha

theorem Models.holds_of_part {c : BinarySearchTree T} {t : Tree T} (h : Models c t)
    {M : Heap T} (hp : Heap.Part c.mem M) : Holds ⟨M, c.root_, c.size_⟩ t :=
  ⟨h.root, h.rep.of_sub hp.2, h.nodup, h.size⟩

/-- The method `to_vector()` on a container in a larger store. -/
theorem Holds.to_vector_shared {c : BinarySearchTree T} {t : Tree T} (h : Holds c t) :
    c.to_vector = some t.values := by
  obtain ⟨m, hp, hm⟩ := h.exists_part
  exact to_vector_part (c := ⟨m, c.root_, c.size_⟩) hp hm.to_vector_eq

theorem Holds.begin_shared {c : BinarySearchTree T} {t : Tree T} (h : Holds c t) :
    c.begin = some ⟨t.addrs.head?⟩ := by
  obtain ⟨m, hp, hm⟩ := h.exists_part
  exact begin_part (c := ⟨m, c.root_, c.size_⟩) hp hm.begin_eq

/-- The comparison `operator==` on containers in larger stores. -/
theorem Holds.operatorEq_shared [DecidableEq T] {a b : BinarySearchTree T} {ta tb : Tree T}
    (ha : Holds a ta) (hb : Holds b tb) :
    a.operatorEq b = some (decide (a.size = b.size ∧ ta.values = tb.values)) := by
  obtain ⟨ma, hpa, hma⟩ := ha.exists_part
  obtain ⟨mb, hpb, hmb⟩ := hb.exists_part
  exact operatorEq_part (a := ⟨ma, a.root_, a.size_⟩) (b := ⟨mb, b.root_, b.size_⟩) hpa hpb
    (hma.operatorEq hmb)

/-- A step of a container leaves a tree of the store in place when no node of that tree
is a live cell of the container. -/
theorem Holds.frame_step {m M m2 M2 : Heap T} {r : Option Nat} {s : Int} {t : Tree T}
    (h : Holds ⟨M, r, s⟩ t) (hlen : M.length = m.length) (st : Heap.Step m M m2 M2)
    (hdead : ∀ x ∈ t.addrs, m.get x = none) :
    Holds ⟨M2, r, s⟩ t ∧ (∀ x ∈ t.addrs, m2.get x = none) ∧
      ∀ x ∈ t.addrs, M2.get x = M.get x := by
  have hlt : ∀ x ∈ t.addrs, x < m.length := fun x hx => by
    rw [← hlen]; exact h.rep.lt_length hx
  have hkeep : ∀ x ∈ t.addrs, M2.get x = M.get x := fun x hx =>
    (st.2.2 x (hlt x hx) (hdead x hx)).2
  exact ⟨⟨h.root, h.rep.frame hkeep, h.nodup, h.size⟩,
    fun x hx => (st.2.2 x (hlt x hx) (hdead x hx)).1, hkeep⟩

end Shared

section WorldOps

variable {T : Type}

open BinarySearchTree

theorem World.obj_put_same (w : World T) (i : Nat) (c : BinarySearchTree T) :
    (w.put i c).obj i = c := by
  cases c
  simp [World.obj, World.put]

theorem World.obj_put_ne (w : World T) {i j : Nat} (h : j ≠ i) (c : BinarySearchTree T) :
    (w.put i c).obj j = ⟨c.mem, w.root_ j, w.size_ j⟩ := by
  simp [World.obj, World.put, Function.update_noteq h]

/-- A local method of the object `i` that succeeds on a container holding the tree of
`i` succeeds in the shared store, and the tree of another object `j` stays in place. -/
theorem World.Separate.step {w : World T} {i j : Nat} {ti tj : Tree T}
    (hs : w.Separate i j ti tj) (hij : i ≠ j)
    {F : BinarySearchTree T → Option (BinarySearchTree T)} (hF : BinarySearchTree.Local F)
    {P : Tree T → Prop}
    (hrun : ∀ c, Models c ti → ∃ c2 t2, F c = some c2 ∧ Models c2 t2 ∧ P t2) :
    ∃ c2 t2, F (w.obj i) = some c2 ∧ (w.put i c2).Separate i j t2 tj ∧ P t2 ∧
      ∀ x ∈ tj.addrs, c2.mem.get x = w.mem.get x := by
  obtain ⟨hi, hj, hdisj⟩ := hs
  obtain ⟨m, hp, hm⟩ := hi.exists_part
  obtain ⟨c2, t2, e, hm2, hP⟩ := hrun _ hm
  obtain ⟨M2, e2, st⟩ := hF _ w.mem c2 hp e
  have hdead : ∀ x ∈ tj.addrs, m.get x = none := by
    intro x hx
    cases hg : m.get x with
    | none => rfl
    | some n => exact absurd hx (hdisj x (hm.live x (by simp [hg])))
  obtain ⟨hj2, hdead2, hkeep⟩ := Holds.frame_step hj hp.1 st
    hdead
  refine ⟨⟨M2, c2.root_, c2.size_⟩, t2, e2, ⟨?_, ?_, ?_⟩, hP, hkeep⟩
  · rw [World.obj_put_same]
    exact hm2.holds_of_part st.1
  · rw [World.obj_put_ne _ (Ne.symm hij)]
    exact hj2
  · intro x hx hx2
    have h1 := hm2.rep.get_isSome hx
    rw [hdead2 x hx2] at h1
    cases h1

/-- Erasing at a node of the tree, or at `end()`, succeeds and leaves a tree. -/
theorem Models.erase_node {c : BinarySearchTree T} {t : Tree T} (h : Models c t)
    (it : ConstIterator) (hit : ∀ x, it.current_node_ = some x → x ∈ t.addrs) :
    ∃ c2 t2, c.erase it = some c2 ∧ Models c2 t2 := by
  obtain ⟨p⟩ := it
  cases p with
  | none => exact ⟨c, t, rfl, h⟩
  | some x =>
    obtain ⟨ctx, l, v, r, ht⟩ := Ctx.exists_plug_of_mem (hit x rfl)
    subst ht
    obtain ⟨c2, e, hm2⟩ := h.erase
    exact ⟨c2, _, e, hm2⟩

/-- The call `erase(it)` at an iterator into an object of the world succeeds and leaves
the tree of a separate object in place. -/
theorem World.Separate.erase_sep {w : World T} {i j : Nat} {ti tj : Tree T}
    (hs : w.Separate i j ti tj) (hij : i ≠ j) {it : ConstIterator} (hit : w.IterInto i it) :
    ∃ w2 t2, w.erase i it = some w2 ∧ w2.Separate i j t2 tj := by
  have hmem : ∀ x, it.current_node_ = some x → x ∈ ti.addrs := by
    intro x hx
    simp only [World.IterInto, hx] at hit
    exact hs.1.rep.mem_of_inSubtree hit hs.1.root.symm
  obtain ⟨c2, t2, e, hs2, -, -⟩ := hs.step hij (erase_local it) (P := fun _ => True)
    (fun c hm => by
      obtain ⟨c2, t2, e, hm2⟩ := hm.erase_node it hmem
      exact ⟨c2, t2, e, hm2, trivial⟩)
  exact ⟨w.put i c2, t2, by simp only [World.erase] at e ⊢; simp [e], hs2⟩

end WorldOps

section WorldOps2

variable {T : Type} [LinearOrder T]

open BinarySearchTree

theorem Tree.findT_mem {t : Tree T} {v : T} {a : Nat} (h : t.findT v = some a) :
    a ∈ t.addrs := by
  induction t with
  | nil => simp [Tree.findT] at h
  | node l b w r ihl ihr =>
    simp only [Tree.findT] at h
    simp only [Tree.addrs_node, List.mem_append, List.mem_cons]
    split at h
    · exact Or.inr (Or.inr (ihr h))
    · split at h
      · simp only [Option.some.injEq] at h
        exact Or.inr (Or.inl h.symm)
      · exact Or.inl (ihl h)

theorem Models.eraseValue_any {c : BinarySearchTree T} {t : Tree T} (h : Models c t) (v : T) :
    ∃ c2 t2, c.eraseValue v = some c2 ∧ Models c2 t2 := by
  cases hf : t.findT v with
  | none =>
    refine ⟨c, t, ?_, h⟩
    simp [BinarySearchTree.eraseValue, h.find_eq, hf, BinarySearchTree.end]
  | some a =>
    obtain ⟨c2, t2, e, hm2⟩ := h.erase_node ⟨some a⟩
      (fun x hx => by cases hx; exact Tree.findT_mem hf)
    refine ⟨c2, t2, ?_, hm2⟩
    simp [BinarySearchTree.eraseValue, h.find_eq, hf, BinarySearchTree.end, e]

/-- The call `insert(v)` on an object of the world succeeds and leaves the tree of a
separate object in place. -/
theorem World.Separate.insert_sep {w : World T} {i j : Nat} {ti tj : Tree T}
    (hs : w.Separate i j ti tj) (hij : i ≠ j) (v : T) :
    ∃ w2 t2, w.insert i v = some w2 ∧ w2.Separate i j t2 tj := by
  obtain ⟨c2, t2, e, hs2, -, -⟩ := hs.step hij (insert_local v) (P := fun _ => True)
    (fun c hm => by
      obtain ⟨c2, e, hm2⟩ := hm.insert v
      exact ⟨c2, _, e, hm2, trivial⟩)
  exact ⟨w.put i c2, t2, by simp only [World.insert] at e ⊢; simp [e], hs2⟩

/-- The call `erase(v)` on an object of the world succeeds and leaves the tree of a
separate object in place. -/
theorem World.Separate.eraseValue_sep {w : World T} {i j : Nat} {ti tj : Tree T}
    (hs : w.Separate i j ti tj) (hij : i ≠ j) (v : T) :
    ∃ w2 t2, w.eraseValue i v = some w2 ∧ w2.Separate i j t2 tj := by
  obtain ⟨c2, t2, e, hs2, -, -⟩ := hs.step hij (eraseValue_local v) (P := fun _ => True)
    (fun c hm => by
      obtain ⟨c2, t2, e, hm2⟩ := hm.eraseValue_any v
      exact ⟨c2, t2, e, hm2, trivial⟩)
  exact ⟨w.put i c2, t2, by simp only [World.eraseValue] at e ⊢; simp [e], hs2⟩

/-- Whatever is done to the object `i` afterwards, a separate object `j` keeps its
tree. -/
theorem World.Separate.evolves {w w3 : World T} {i j : Nat} {ti tj : Tree T}
    (hs : w.Separate i j ti tj) (hij : i ≠ j) (hev : World.Evolves i w w3) :
    ∃ t3, w3.Separate i j t3 tj := by
  induction hev with
  | refl => exact ⟨ti, hs⟩
  | insert v _ e ih =>
    obtain ⟨t1, hs1⟩ := ih
    obtain ⟨w2, t2, e2, hs2⟩ := hs1.insert_sep hij v
    rw [e] at e2
    cases e2
    exact ⟨t2, hs2⟩
  | eraseValue v _ e ih =>
    obtain ⟨t1, hs1⟩ := ih
    obtain ⟨w2, t2, e2, hs2⟩ := hs1.eraseValue_sep hij v
    rw [e] at e2
    cases e2
    exact ⟨t2, hs2⟩
  | erase it _ hit e ih =>
    obtain ⟨t1, hs1⟩ := ih
    obtain ⟨w2, t2, e2, hs2⟩ := hs1.erase_sep hij hit
    rw [e] at e2
    cases e2
    exact ⟨t2, hs2⟩

end WorldOps2

section WorldCopy

variable {T : Type}

open BinarySearchTree

/-- The statements `DeleteSubtree(root_); CopySubtree(nullptr, root_, rhs.root_);` of
the two assignments, for the destination `b` and the source `a` in one store: they
succeed, `b` then holds a tree of fresh nodes with the shape of the tree of `a`, and the
nodes of `a` are as before. -/
theorem World.Separate.rebuild {w : World T} {a b : Nat} {ta tb : Tree T}
    (hs : w.Separate a b ta tb) :
    ∃ c1 c2 t2, DeleteSubtree (w.obj b).fuel (w.obj b) (w.root_ b) = some c1 ∧
      World.CopySubtree c1.fuel c1 none (w.root_ a) 0 = some c2 ∧
      Holds ⟨c2.mem, w.root_ a, w.size_ a⟩ ta ∧ Holds ⟨c2.mem, c2.root_, w.size_ a⟩ t2 ∧
      t2.shape = ta.shape ∧ (∀ x ∈ ta.addrs, x ∉ t2.addrs) ∧
      ∀ x ∈ ta.addrs, c2.mem.get x = w.mem.get x := by
  obtain ⟨ha, hb, hdisj⟩ := hs
  -- teardown of the destination
  obtain ⟨mb, hpb, hmb⟩ := hb.exists_part
  obtain ⟨c1, e1, hm1, hlen1⟩ := hmb.deleteAll
  obtain ⟨M1, e1w, st1⟩ := DeleteSubtree_local _ _ _ w.mem c1 hpb e1
  have hpb1 : w.mem.length = mb.length := hpb.1
  have hdead : ∀ x ∈ ta.addrs, mb.get x = none := by
    intro x hx
    cases hg : mb.get x with
    | none => rfl
    | some n => exact absurd (hmb.live x (by simp [hg])) (hdisj x hx)
  obtain ⟨ha1, hdead1, hkeep1⟩ := Holds.frame_step ha hpb1 st1 hdead
  -- deep copy of the source
  obtain ⟨ma, hpa, hma⟩ := ha1.exists_part
  have hpa1 : M1.length = ma.length := hpa.1
  have hst1 : M1.length = c1.mem.length := st1.1.1
  have hfuel : ta.height < c1.mem.length + 1 := by
    have := hma.height_lt_fuel
    simp only [BinarySearchTree.fuel] at this
    omega
  obtain ⟨c2, t2, e2, hsh, hshape, -⟩ :=
    Shaped.copySubtree (k := []) hma.rep hm1.shaped hfuel
  have hsh2 : Shaped c2 t2 := hsh
  simp only [Ctx.par, Ctx.relation] at e2
  obtain ⟨M2, e2w, st2⟩ := CopySubtree_world _ c1 c2 M1 none ta.ptr 0 hpa.2 st1.1
    (fun y hy => by
      obtain ⟨n, hn⟩ := Option.isSome_iff_exists.mp hy
      have hlt := Heap.lt_of_get_eq_some hn
      exact ⟨by omega, hdead1 y (hma.live y hy)⟩) e2
  obtain ⟨ha2, hdead2, hkeep2⟩ := Holds.frame_step ha1 hst1 st2 hdead1
  have hsize : w.size_ a = (t2.addrs.length : Int) := by
    have := ha.size
    simp only [World.obj] at this
    rw [this, Tree.length_addrs_of_shape_eq hshape]
  refine ⟨⟨M1, c1.root_, c1.size_⟩, ⟨M2, c2.root_, c2.size_⟩, t2, ?_, ?_, ha2,
    ⟨hsh2.root, hsh2.rep.of_sub st2.1.2, hsh2.nodup, hsize⟩, hshape, ?_, ?_⟩
  · simp only [World.obj, BinarySearchTree.fuel] at e1w ⊢
    rw [hpb1]
    exact e1w
  · have hroot : w.root_ a = ta.ptr := ha.root
    simp only [BinarySearchTree.fuel]
    rw [hroot, hst1]
    exact e2w
  · intro x hx hx2
    have h1 := hsh2.rep.get_isSome hx2
    rw [hdead2 x hx] at h1
    cases h1
  · intro x hx
    exact (hkeep2 x hx).trans (hkeep1 x hx)

/-- The copy assignment `b = a` between two separate objects. -/
theorem World.Separate.copyAssign_sep {w : World T} {a b : Nat} {ta tb : Tree T}
    (hs : w.Separate a b ta tb) (hab : a ≠ b) :
    ∃ w2 t2, w.copyAssign b a = some w2 ∧ w2.Separate a b ta t2 ∧ t2.shape = ta.shape ∧
      w2.root_ a = w.root_ a ∧ w2.size_ a = w.size_ a ∧ w2.size_ b = w.size_ a ∧
      ∀ x ∈ ta.addrs, w2.mem.get x = w.mem.get x := by
  obtain ⟨c1, c2, t2, e1, e2, ha2, hb2, hshape, hdisj2, hkeep⟩ := hs.rebuild
  refine ⟨w.put b { c2 with size_ := w.size_ a }, t2, ?_, ⟨?_, ?_, hdisj2⟩, hshape, ?_, ?_, ?_,
    hkeep⟩
  · simp [World.copyAssign, Ne.symm hab, e1, e2]
  · rw [World.obj_put_ne _ hab]
    exact ha2
  · rw [World.obj_put_same]
    exact hb2
  · simp [World.put, Function.update_noteq hab]
  · simp [World.put, Function.update_noteq hab]
  · simp [World.put]

/-- The move assignment `b = std::move(a)` between two separate objects. -/
theorem World.Separate.moveAssign_sep {w : World T} {a b : Nat} {ta tb : Tree T}
    (hs : w.Separate a b ta tb) (hab : a ≠ b) :
    ∃ w2 t2, w.moveAssign b a = some w2 ∧ w2.Separate a b Tree.nil t2 ∧
      t2.shape = ta.shape ∧ w2.size_ b = w.size_ a := by
  obtain ⟨c1, c2, t2, e1, e2, ha2, hb2, hshape, hdisj2, -⟩ := hs.rebuild
  -- teardown of the source
  obtain ⟨ma, hpa, hma⟩ := ha2.exists_part
  obtain ⟨r, e3, hm3, -⟩ := hma.deleteAll
  obtain ⟨M3, e3w, st3⟩ := DeleteSubtree_local _ _ _ c2.mem r hpa e3
  have hpa1 : c2.mem.length = ma.length := hpa.1
  have hdead : ∀ x ∈ t2.addrs, ma.get x = none := by
    intro x hx
    cases hg : ma.get x with
    | none => rfl
    | some n => exact absurd hx (hdisj2 x (hma.live x (by simp [hg])))
  obtain ⟨hb3, -, -⟩ := Holds.frame_step hb2 hpa1 st3 hdead
  have ha3 : Holds ⟨M3, r.root_, r.size_⟩ (Tree.nil : Tree T) := hm3.holds_of_part st3.1
  refine ⟨(w.put b { c2 with size_ := w.size_ a }).put a ⟨M3, r.root_, r.size_⟩, t2, ?_,
    ⟨?_, ?_, by simp⟩, hshape, ?_⟩
  · simp only [World.moveAssign, Ne.symm hab, ne_eq, not_false_eq_true, if_true, e1,
      Option.some_bind, e2, Option.map_eq_some']
    refine ⟨⟨M3, r.root_, r.size_⟩, ?_, rfl⟩
    simp only [BinarySearchTree.fuel] at e3w ⊢
    rw [hpa1]
    exact e3w
  · rw [World.obj_put_same]
    exact ha3
  · rw [World.obj_put_ne _ (Ne.symm hab)]
    simp only [World.put, Function.update_same]
    exact hb3
  · simp [World.put, Function.update_noteq (Ne.symm hab)]

end WorldCopy

section SuccessorCells

variable {T : Type}

/-- The cells around the spliced successor: what the tree-level description of the
two-children erase says about the store. -/
theorem Models.splice_cells {c c2 : BinarySearchTree T} {ctx cr : Ctx T} {l sr : Tree T}
    {x s : Nat} {v sv : T}
    (h : Models c (Ctx.plug ctx (Tree.node l x v (Ctx.plug cr (Tree.node Tree.nil s sv sr)))))
    (h2 : Models c2 (Ctx.plug ctx (Tree.node l s sv (Ctx.plug cr sr)))) :
    (∃ sn q, c.mem.get s = some sn ∧ sn.value_ = sv ∧ sn.left_ = none ∧
      c2.mem.get s = some ⟨sv, l.ptr, q, Ctx.par ctx none⟩ ∧ (cr = [] → q = sn.right_) ∧
      (cr ≠ [] → q = (Ctx.plug cr (Tree.node Tree.nil s sv sr)).ptr)) ∧
    c2.root_ = (if c.root_ = some x then some s else c.root_) ∧
    (∀ p, Ctx.par ctx none = some p → ∃ pn, c.mem.get p = some pn ∧
      ((pn.left_ = some x ∧ pn.right_ ≠ some x ∧
          c2.mem.get p = some ⟨pn.value_, some s, pn.right_, pn.parent_⟩) ∨
        (pn.right_ = some x ∧ pn.left_ ≠ some x ∧
          c2.mem.get p = some ⟨pn.value_, pn.left_, some s, pn.parent_⟩))) := by
  obtain ⟨hA, hL, hR, hC, -, -, -, -, -, hac, -, -, -⟩ := h.pieces
  obtain ⟨hA2, -, -, hC2, -, -, -, -, -, -, -, -, -⟩ := h2.pieces
  refine ⟨?_, ?_, ?_⟩
  · have hS := ((Ctx.rep_plug _ _ _ _).mp hR).1.1
    refine ⟨_, _, hS, rfl, rfl, hA2, ?_, ?_⟩
    · rintro rfl
      rfl
    · intro hne
      cases cr with
      | nil => exact absurd rfl hne
      | cons f cr =>
        simp only [Ctx.ptr_plug]
        exact Ctx.root_cons f cr sr.ptr (Tree.node Tree.nil s sv sr).ptr
  · rw [h.root_eq, h2.root_eq]
    simp only [Tree.ptr_node]
    have := Ctx.root_swap (s := s) hac
    rw [← this]
    by_cases hc : some x = Ctx.root ctx (some x)
    · rw [if_pos hc, if_pos hc.symm]
    · rw [if_neg hc, if_neg (fun e => hc e.symm)]
  · intro p hp
    cases ctx with
    | nil => simp [Ctx.par] at hp
    | cons f ctx =>
      cases f with
      | L b w br =>
        simp only [Ctx.par, Option.some.injEq] at hp
        subst hp
        simp only [Ctx.addrs_L, List.mem_cons, List.mem_append, not_or] at hac
        exact ⟨_, hC.1, Or.inl ⟨rfl, Tree.ptr_ne_of_not_mem hac.2.1, hC2.1⟩⟩
      | R bl b w =>
        simp only [Ctx.par, Option.some.injEq] at hp
        subst hp
        simp only [Ctx.addrs_R, List.mem_cons, List.mem_append, not_or] at hac
        exact ⟨_, hC.1, Or.inr ⟨rfl, Tree.ptr_ne_of_not_mem hac.2.1, hC2.1⟩⟩

end SuccessorCells

/-! ## The position of an inserted node -/

section InsertPosition

variable {T : Type} [LinearOrder T]

/-- Where `ins` puts the new node in the in-order sequence of nodes: after every node
whose value is not greater than `v` and before every node with a greater value; the
other nodes keep their places relative to each other. -/
theorem Tree.ins_elems {t : Tree T} (ho : t.Ordered) (a : Nat) (v : T) :
    ∃ e1 e2, t.elems = e1 ++ e2 ∧ (∀ x ∈ e1, x.2 ≤ v) ∧ (∀ x ∈ e2, v < x.2) ∧
      (t.ins a v).elems = e1 ++ (a, v) :: e2 := by
  induction t with
  | nil => exact ⟨[], [], by simp [Tree.ins]⟩
  | node l b w r ihl ihr =>
    obtain ⟨h1, h2, h3, h4⟩ := ho
    simp only [Tree.ins]
    by_cases hvw : v < w
    · simp only [hvw, if_true]
      obtain ⟨e1, e2, q1, q2, q3, q4⟩ := ihl h3
      refine ⟨e1, e2 ++ (b, w) :: r.elems, by simp [q1], q2, ?_, by simp [q4]⟩
      intro x hx
      simp only [List.mem_append, List.mem_cons] at hx
      rcases hx with hx | rfl | hx
      · exact q3 x hx
      · exact hvw
      · exact lt_of_lt_of_le hvw (h2 x.2 (by
          rw [Tree.values_eq_map]; exact List.mem_map_of_mem _ hx))
    · simp only [hvw, if_false]
      have hwv : w ≤ v := not_lt.mp hvw
      obtain ⟨e1, e2, q1, q2, q3, q4⟩ := ihr h4
      refine ⟨l.elems ++ (b, w) :: e1, e2, by simp [q1], ?_, q3, by simp [q4]⟩
      intro x hx
      simp only [List.mem_append, List.mem_cons] at hx
      rcases hx with hx | rfl | hx
      · exact le_of_lt (lt_of_lt_of_le (h1 x.2 (by
          rw [Tree.values_eq_map]; exact List.mem_map_of_mem _ hx)) hwv)
      · exact hwv
      · exact q2 x hx

/-- The method `insert(v)` on an ordered tree: the node it allocates (at the next fresh
address) ends up at the in-order position that follows every element not greater than
`v`, and every other node keeps its position relative to the others. -/
theorem Models.insert_position {c : BinarySearchTree T} {t : Tree T} (h : Models c t)
    (ho : t.Ordered) (v : T) :
    ∃ c2 l1 l2, c.insert v = some c2 ∧ c.to_vector = some (l1 ++ l2) ∧
      (∀ x ∈ l1, x ≤ v) ∧ (∀ x ∈ l2, v < x) ∧ c2.to_vector = some (l1 ++ v :: l2) ∧
      c.mem.get c.mem.length = none ∧
      c2.iterAt l1.length = some ⟨some c.mem.length⟩ ∧
      c2.deref ⟨some c.mem.length⟩ = some v ∧
      (∀ k, k < l1.length → c2.iterAt k = c.iterAt k) ∧
      (∀ k, l1.length ≤ k → k ≤ l1.length + l2.length → c2.iterAt (k + 1) = c.iterAt k) := by
  obtain ⟨c2, e, hm2⟩ := h.insert v
  obtain ⟨e1, e2, q1, q2, q3, q4⟩ := Tree.ins_elems ho c.mem.length v
  have hv : t.values = e1.map Prod.snd ++ e2.map Prod.snd := by
    simp [Tree.values_eq_map, q1]
  have hv2 : (t.ins c.mem.length v).values = e1.map Prod.snd ++ v :: e2.map Prod.snd := by
    simp [Tree.values_eq_map, q4]
  have ha : t.addrs = e1.map Prod.fst ++ e2.map Prod.fst := by
    simp [Tree.addrs_eq_map, q1]
  have ha2 : (t.ins c.mem.length v).addrs =
      e1.map Prod.fst ++ c.mem.length :: e2.map Prod.fst := by
    simp [Tree.addrs_eq_map, q4]
  have hl1 : (e1.map Prod.snd).length = (e1.map Prod.fst).length := by simp
  have hlen : t.addrs.length = e1.length + e2.length := by simp [ha]
  have hlen2 : (t.ins c.mem.length v).addrs.length = e1.length + e2.length + 1 := by
    simp [ha2]; omega
  refine ⟨c2, e1.map Prod.snd, e2.map Prod.snd, e, by rw [h.to_vector_eq, hv], ?_, ?_,
    by rw [hm2.to_vector_eq, hv2], Heap.get_eq_none_of_le _ _ (le_refl _), ?_,
    (hm2.at_split q4).2, ?_, ?_⟩
  · intro x hx
    obtain ⟨y, hy, rfl⟩ := List.mem_map.mp hx
    exact q2 y hy
  · intro x hx
    obtain ⟨y, hy, rfl⟩ := List.mem_map.mp hx
    exact q3 y hy
  · rw [hm2.iterAt_eq (by rw [hlen2]; simp; omega), ha2, hl1,
      List.getElem?_append_right (le_refl _)]
    simp
  · intro k hk
    simp only [List.length_map] at hk
    rw [hm2.iterAt_eq (by omega), h.iterAt_eq (by omega), ha, ha2,
      List.getElem?_append_left (by simpa using hk),
      List.getElem?_append_left (by simpa using hk)]
  · intro k hk1 hk2
    simp only [List.length_map] at hk1 hk2
    rw [hm2.iterAt_eq (by omega), h.iterAt_eq (by omega), ha, ha2,
      List.getElem?_append_right (by simp; omega),
      List.getElem?_append_right (by simpa using hk1)]
    simp only [List.length_map]
    have : k + 1 - e1.length = (k - e1.length) + 1 := by omega
    rw [this, List.getElem?_cons_succ]

end InsertPosition

/-! ## The claims -/

section Claims

open BinarySearchTree

variable {T : Type} [LinearOrder T]

theorem example53831_ofList : ofList [5, 3, 8, 3, 1] = some example53831 := by decide

theorem example4261357_ofList : ofList [4, 2, 6, 1, 3, 5, 7] = some example4261357 := by decide

theorem example53831_reachable : Reachable example53831 :=
  Reachable.ofList example53831_ofList

theorem example4261357_reachable : Reachable example4261357 :=
  Reachable.ofList example4261357_ofList

/-- Claim C1. Every container reached from the empty container by `insert`, `emplace`,
`erase(value)` and `erase(iterator)` (and by the assignments) is structurally consistent
and satisfies the BST invariant: at every node, the values of the left subtree are
strictly less than the value of the node and the values of the right subtree are
greater than or equal to it. -/
theorem C1_bst_invariant_preserved (c : BinarySearchTree T) (h : Reachable c) :
    WellFormed c ∧ BSTInvariant c := by
  obtain ⟨t, hm, ho⟩ := h.isBST
  exact ⟨⟨t, hm⟩, hm.bstInvariant ho⟩

/-- The invariant of C1 in the container built from 5, 3, 8, 3, 1. -/
theorem C1_witness :
    Reachable example53831 ∧ WellFormed example53831 ∧ BSTInvariant example53831 :=
  ⟨example53831_reachable, C1_bst_invariant_preserved example53831 example53831_reachable⟩

/-- Claim C2. In every reachable container (insert, emplace, both erases, copy and move
assignment) `size()` equals the number of nodes of the tree, which equals the length
of `to_vector()`. -/
theorem C2_size_consistency (c : BinarySearchTree T) (h : Reachable c) :
    ∃ xs, c.to_vector = some xs ∧ c.nodeCount = some xs.length ∧
      c.size = (xs.length : Int) := by
  obtain ⟨t, hm, -⟩ := h.isBST
  refine ⟨t.values, hm.to_vector_eq, ?_, hm.size_eq⟩
  rw [hm.nodeCount_eq, Tree.length_values]

/-- Size consistency in the container built from 5, 3, 8, 3, 1. -/
theorem C2_witness : Reachable example53831 ∧
    ∃ xs, example53831.to_vector = some xs ∧ example53831.nodeCount = some xs.length ∧
      example53831.size = (xs.length : Int) :=
  ⟨example53831_reachable, C2_size_consistency example53831 example53831_reachable⟩

/-- Claim C3. In every reachable container `to_vector()` is non-decreasing: no element
is less than the element before it. In particular this holds after inserting any list
`vs` into the empty container and then erasing any list `es` of values. -/
theorem C3_to_vector_ascending (c : BinarySearchTree T) (h : Reachable c) (vs es : List T) :
    (∃ xs, c.to_vector = some xs ∧ xs.Sorted (· ≤ ·) ∧
      List.Chain' (fun x y => ¬ y < x) xs) ∧
    (∃ c2 ys, (ofList vs).bind (fun c1 => c1.eraseAll es) = some c2 ∧
      c2.to_vector = some ys ∧ ys.Sorted (· ≤ ·)) := by
  constructor
  · obtain ⟨t, hm, ho⟩ := h.isBST
    refine ⟨t.values, hm.to_vector_eq, ho.sorted, ?_⟩
    exact (ho.sorted.imp (fun h => not_lt.mpr h)).chain'
  · obtain ⟨c1, t1, e1, hm1, ho1, -⟩ := (models_fresh (T := T)).insertAll trivial vs
    obtain ⟨c2, t2, e2, hm2, ho2, -⟩ := hm1.eraseAll ho1 es
    exact ⟨c2, t2.values, by simp [ofList, e1, e2], hm2.to_vector_eq, ho2.sorted⟩

/-- Ascending order in the container built from 5, 3, 8, 3, 1. -/
theorem C3_witness : Reachable example53831 ∧
    example53831.to_vector = some [1, 3, 3, 5, 8] ∧
    ((∃ xs, example53831.to_vector = some xs ∧ xs.Sorted (· ≤ ·) ∧
      List.Chain' (fun x y => ¬ y < x) xs) ∧
    (∃ c2 ys, (ofList ([2, 1, 2] : List Int)).bind (fun c1 => c1.eraseAll [2]) = some c2 ∧
      c2.to_vector = some ys ∧ ys.Sorted (· ≤ ·))) :=
  ⟨example53831_reachable, by decide,
    C3_to_vector_ascending example53831 example53831_reachable [2, 1, 2] [2]⟩

/-- Claim C4. On a structurally consistent container with the BST invariant,
`insert(v)` succeeds; the new `to_vector()` is the old one with `v` placed after all
elements that are not greater than `v` and before all greater ones, and `size()` grows
by 1. The placed element is the new node: the node that `insert` allocates (at the
address `c.mem.length`, not live before) is at the in-order position `l1.length`, reached
from `begin()` by that many increments, so it comes after every earlier node with an
equal value; the nodes at earlier positions are the same nodes as before, and the node
at every later position is the node that was one position earlier. On the empty
container the result is `[v]`. -/
theorem C4_insert_stable (c : BinarySearchTree T) (hwf : WellFormed c) (hinv : BSTInvariant c)
    (v : T) :
    (∃ c2 l1 l2, c.insert v = some c2 ∧ c.to_vector = some (l1 ++ l2) ∧
      (∀ x ∈ l1, x ≤ v) ∧ (∀ x ∈ l2, v < x) ∧ c2.to_vector = some (l1 ++ v :: l2) ∧
      c2.size = c.size + 1 ∧
      c.mem.get c.mem.length = none ∧
      c2.iterAt l1.length = some ⟨some c.mem.length⟩ ∧
      c2.deref ⟨some c.mem.length⟩ = some v ∧
      (∀ k, k < l1.length → c2.iterAt k = c.iterAt k) ∧
      (∀ k, l1.length ≤ k → k ≤ l1.length + l2.length →
        c2.iterAt (k + 1) = c.iterAt k)) ∧
    (fresh.insert v).bind to_vector = some [v] := by
  obtain ⟨t, hm, ho⟩ := (isBST_iff c).mpr ⟨hwf, hinv⟩
  constructor
  · obtain ⟨c2, l1, l2, e, hv, h1, h2, hv2, h3, h4, h5, h6, h7⟩ := hm.insert_position ho v
    obtain ⟨c3, e3, hm2⟩ := hm.insert v
    rw [e] at e3
    cases e3
    refine ⟨c2, l1, l2, e, hv, h1, h2, hv2, ?_, h3, h4, h5, h6, h7⟩
    have hx := hm.to_vector_eq
    have hx2 := hm2.to_vector_eq
    rw [hv, Option.some.injEq] at hx
    rw [hv2, Option.some.injEq] at hx2
    rw [hm2.size_eq, hm.size_eq, ← hx, ← hx2]
    simp only [List.length_append, List.length_cons]
    push_cast
    ring
  · obtain ⟨c2, e, hm2⟩ := (models_fresh (T := T)).insert v
    rw [e, Option.some_bind, hm2.to_vector_eq]
    simp [Tree.ins]

/-- Inserting a third 3 into the container built from 5, 3, 8, 3, 1: the new node
(address 5) is at position 3, after the two older nodes holding 3 (addresses 1 and 3,
positions 1 and 2). -/
theorem C4_witness : WellFormed example53831 ∧ BSTInvariant example53831 ∧
    (example53831.insert 3).bind to_vector = some [1, 3, 3, 3, 5, 8] ∧
    (example53831.insert 3).bind (fun c => c.iterAt 3) = some ⟨some 5⟩ ∧
    (example53831.iterAt 1, example53831.iterAt 2) = (some ⟨some 1⟩, some ⟨some 3⟩) ∧
    (example53831.insert 3).map (fun c => (c.iterAt 1, c.iterAt 2)) =
      some (some ⟨some 1⟩, some ⟨some 3⟩) ∧
    ((∃ c2 l1 l2, example53831.insert 3 = some c2 ∧
      example53831.to_vector = some (l1 ++ l2) ∧
      (∀ x ∈ l1, x ≤ 3) ∧ (∀ x ∈ l2, 3 < x) ∧ c2.to_vector = some (l1 ++ 3 :: l2) ∧
      c2.size = example53831.size + 1 ∧
      example53831.mem.get example53831.mem.length = none ∧
      c2.iterAt l1.length = some ⟨some example53831.mem.length⟩ ∧
      c2.deref ⟨some example53831.mem.length⟩ = some 3 ∧
      (∀ k, k < l1.length → c2.iterAt k = example53831.iterAt k) ∧
      (∀ k, l1.length ≤ k → k ≤ l1.length + l2.length →
        c2.iterAt (k + 1) = example53831.iterAt k)) ∧
    (fresh.insert (3 : Int)).bind to_vector = some [3]) :=
  ⟨((isBST_iff _).mp example53831_reachable.isBST).1,
    ((isBST_iff _).mp example53831_reachable.isBST).2, by decide, by decide, by decide,
    by decide,
    C4_insert_stable example53831 ((isBST_iff _).mp example53831_reachable.isBST).1
      ((isBST_iff _).mp example53831_reachable.isBST).2 3⟩

/-- Claim C6. In a reachable container in which the value `v` occurs, `erase(v)`
succeeds and `to_vector()` afterwards is the previous sequence with exactly one
occurrence of `v` removed, every other element (further copies of `v` included)
unchanged and in the same order; `size()` is one less. -/
theorem C6_erase_value_removes_one (c : BinarySearchTree T) (h : Reachable c) (v : T)
    (xs : List T) (hx : c.to_vector = some xs) (hv : v ∈ xs) :
    ∃ c2 l1 l2, c.eraseValue v = some c2 ∧ xs = l1 ++ v :: l2 ∧
      c2.to_vector = some (l1 ++ l2) ∧ c2.size = c.size - 1 := by
  obtain ⟨t, hm, ho⟩ := h.isBST
  rw [hm.to_vector_eq, Option.some.injEq] at hx
  subst hx
  obtain ⟨c2, t2, e, hm2, -, hv2, -⟩ := hm.eraseValue ho v
  obtain ⟨l1, l2, -, hsplit, herase⟩ := List.exists_erase_eq hv
  refine ⟨c2, l1, l2, e, hsplit, by rw [hm2.to_vector_eq, hv2, herase], ?_⟩
  rw [hm2.size_eq, hm.size_eq, hv2, herase, hsplit]
  simp only [List.length_append, List.length_cons]
  push_cast
  ring

/-- Erasing 3 once from the container built from 5, 3, 8, 3, 1 gives `[1, 3, 5, 8]`
with `size() == 4`. -/
theorem C6_witness : Reachable example53831 ∧
    example53831.to_vector = some [1, 3, 3, 5, 8] ∧ (3 : Int) ∈ [1, 3, 3, 5, 8] ∧
    (example53831.eraseValue 3).bind to_vector = some [1, 3, 5, 8] ∧
    (example53831.eraseValue 3).map size = some 4 ∧
    ∃ c2 l1 l2, example53831.eraseValue 3 = some c2 ∧ [1, 3, 3, 5, 8] = l1 ++ 3 :: l2 ∧
      c2.to_vector = some (l1 ++ l2) ∧ c2.size = example53831.size - 1 :=
  ⟨example53831_reachable, by decide, by decide, by decide, by decide,
    C6_erase_value_removes_one example53831 example53831_reachable 3 [1, 3, 3, 5, 8]
      (by decide) (by decide)⟩

/-- Claim C7. Erasing something absent changes nothing: in a structurally consistent
container, `erase(v)` for a value `v` that does not occur returns the container
unchanged (same store, root and size), and so does `erase(end())`; on the empty
container both leave it empty with `size() == 0`. -/
theorem C7_erase_absent_noop (c : BinarySearchTree T) (hwf : WellFormed c) (v : T)
    (xs : List T) (hx : c.to_vector = some xs) (hv : v ∉ xs) :
    c.eraseValue v = some c ∧ c.erase c.end = some c ∧
    (fresh : BinarySearchTree T).eraseValue v = some fresh ∧
    (fresh : BinarySearchTree T).erase (fresh : BinarySearchTree T).end = some fresh ∧
    (fresh : BinarySearchTree T).size = 0 := by
  obtain ⟨t, hm⟩ := hwf
  rw [hm.to_vector_eq, Option.some.injEq] at hx
  subst hx
  refine ⟨?_, rfl, ?_, rfl, rfl⟩
  · simp [BinarySearchTree.eraseValue, hm.find_eq, Tree.findT_eq_none_of_not_mem hv,
      BinarySearchTree.end]
  · simp [BinarySearchTree.eraseValue, (models_fresh (T := T)).find_eq, Tree.findT,
      BinarySearchTree.end]

/-- Erasing the absent value 4 from the container built from 5, 3, 8, 3, 1. -/
theorem C7_witness : WellFormed example53831 ∧
    example53831.to_vector = some [1, 3, 3, 5, 8] ∧ (4 : Int) ∉ [1, 3, 3, 5, 8] ∧
    (example53831.eraseValue 4 = some example53831 ∧
      example53831.erase example53831.end = some example53831 ∧
      (fresh : BinarySearchTree Int).eraseValue 4 = some fresh ∧
      (fresh : BinarySearchTree Int).erase (fresh : BinarySearchTree Int).end = some fresh ∧
      (fresh : BinarySearchTree Int).size = 0) :=
  ⟨((isBST_iff _).mp example53831_reachable.isBST).1, by decide, by decide,
    C7_erase_absent_noop example53831 ((isBST_iff _).mp example53831_reachable.isBST).1 4
      [1, 3, 3, 5, 8] (by decide) (by decide)⟩

/-- Claim C8. On a structurally consistent container with the BST invariant, `count(v)`
is the number of elements of `to_vector()` equal to `v`; so after inserting any list
`vs` into the empty container `count(v)` is the number of times `v` was inserted, and
it is 0 when `v` does not occur. -/
theorem C8_count_multiplicity (c : BinarySearchTree T) (hwf : WellFormed c)
    (hinv : BSTInvariant c) (v : T) (vs : List T) :
    (∃ xs, c.to_vector = some xs ∧ c.count v = some (xs.count v : Int) ∧
      (v ∉ xs → c.count v = some 0)) ∧
    (∃ c2, ofList vs = some c2 ∧ c2.count v = some (vs.count v : Int)) := by
  obtain ⟨t, hm, ho⟩ := (isBST_iff c).mpr ⟨hwf, hinv⟩
  constructor
  · refine ⟨t.values, hm.to_vector_eq, by rw [hm.count_eq, Tree.countT_eq ho], fun hv => ?_⟩
    rw [hm.count_eq, Tree.countT_eq ho, List.count_eq_zero.mpr hv]
    rfl
  · obtain ⟨c2, t2, e, hm2, ho2, hp⟩ := (models_fresh (T := T)).insertAll trivial vs
    refine ⟨c2, e, ?_⟩
    rw [hm2.count_eq, Tree.countT_eq ho2, hp.count_eq]
    simp

/-- Counting 3 in the container built from 5, 3, 8, 3, 1 gives 2. -/
theorem C8_witness : WellFormed example53831 ∧ BSTInvariant example53831 ∧
    example53831.count 3 = some 2 ∧
    ((∃ xs, example53831.to_vector = some xs ∧
      example53831.count 3 = some (xs.count 3 : Int) ∧
      ((3 : Int) ∉ xs → example53831.count 3 = some 0)) ∧
    (∃ c2, ofList ([3, 7, 3, 9, 3] : List Int) = some c2 ∧
      c2.count 3 = some (([3, 7, 3, 9, 3] : List Int).count 3 : Int))) :=
  ⟨((isBST_iff _).mp example53831_reachable.isBST).1,
    ((isBST_iff _).mp example53831_reachable.isBST).2, by decide,
    C8_count_multiplicity example53831 ((isBST_iff _).mp example53831_reachable.isBST).1
      ((isBST_iff _).mp example53831_reachable.isBST).2 3 [3, 7, 3, 9, 3]⟩

/-- Claim C9. On a structurally consistent container with the BST invariant, `find(v)`
returns `end()` exactly when no element of `to_vector()` equals `v` (and `contains(v)`
is then false); otherwise it is positioned at a node whose value is `v`. On the empty
container `find` returns `end()` and `begin() == end()`. -/
theorem C9_find_iff_occurs (c : BinarySearchTree T) (hwf : WellFormed c)
    (hinv : BSTInvariant c) (v : T) :
    (∃ it xs, c.find v = some it ∧ c.to_vector = some xs ∧ (it = c.end ↔ v ∉ xs) ∧
      c.contains v = some (decide (v ∈ xs)) ∧ (it ≠ c.end → c.deref it = some v)) ∧
    (fresh : BinarySearchTree T).find v = some (fresh : BinarySearchTree T).end ∧
    (fresh : BinarySearchTree T).begin = some (fresh : BinarySearchTree T).end := by
  obtain ⟨t, hm, ho⟩ := (isBST_iff c).mpr ⟨hwf, hinv⟩
  refine ⟨⟨⟨t.findT v⟩, t.values, hm.find_eq v, hm.to_vector_eq, ?_, ?_, ?_⟩, ?_, rfl⟩
  · rw [← Tree.findT_eq_none_iff ho v]
    simp [BinarySearchTree.end]
  · have := Tree.findT_eq_none_iff ho v
    simp only [BinarySearchTree.contains, hm.find_eq, Option.map_some', BinarySearchTree.end,
      Option.some.injEq]
    by_cases hmem : v ∈ t.values
    · cases hf : t.findT v with
      | none => exact absurd hmem (this.mp hf)
      | some a => simp [hmem]
    · have he : t.findT v = none := this.mpr hmem
      simp [hmem, he]
  · intro hne
    cases hf : t.findT v with
    | none => simp [hf, BinarySearchTree.end] at hne
    | some a =>
      obtain ⟨pre, post, he, -⟩ := Tree.findT_eq_some ho hf
      exact (hm.at_split he).2
  · simp [(models_fresh (T := T)).find_eq, Tree.findT, BinarySearchTree.end]

/-- Looking up 8 and 4 in the container built from 5, 3, 8, 3, 1. -/
theorem C9_witness : WellFormed example53831 ∧ BSTInvariant example53831 ∧
    example53831.find 8 = some ⟨some 2⟩ ∧ example53831.find 4 = some example53831.end ∧
    ((∃ it xs, example53831.find 8 = some it ∧ example53831.to_vector = some xs ∧
      (it = example53831.end ↔ (8 : Int) ∉ xs) ∧
      example53831.contains 8 = some (decide ((8 : Int) ∈ xs)) ∧
      (it ≠ example53831.end → example53831.deref it = some 8)) ∧
    (fresh : BinarySearchTree Int).find 8 = some (fresh : BinarySearchTree Int).end ∧
    (fresh : BinarySearchTree Int).begin = some (fresh : BinarySearchTree Int).end) :=
  ⟨((isBST_iff _).mp example53831_reachable.isBST).1,
    ((isBST_iff _).mp example53831_reachable.isBST).2, by decide, by decide,
    C9_find_iff_occurs example53831 ((isBST_iff _).mp example53831_reachable.isBST).1
      ((isBST_iff _).mp example53831_reachable.isBST).2 8⟩

/-- Claim C10. Round trip to empty: inserting the elements of any list `xs` into the
empty container and then calling `erase(y)` for each `y` of any permutation `ys` of
`xs` succeeds and leaves an empty container: `size() == 0`, `begin() == end()`,
`to_vector()` is empty (and the root is null). -/
theorem C10_round_trip_to_empty (xs ys : List T) (hp : ys.Perm xs) :
    ∃ c, (ofList xs).bind (fun c1 => c1.eraseAll ys) = some c ∧ c.size = 0 ∧
      c.begin = some c.end ∧ c.to_vector = some [] ∧ c.root_ = none := by
  obtain ⟨c1, t1, e1, hm1, ho1, hp1⟩ := (models_fresh (T := T)).insertAll trivial xs
  obtain ⟨c2, t2, e2, hm2, ho2, hv2⟩ := hm1.eraseAll ho1 ys
  have hnil : t2.values = [] := by
    rw [hv2]
    refine diff_eq_nil_of_perm (hp1.trans ?_)
    simpa using hp.symm
  have ht2 : t2 = Tree.nil := by
    cases t2 with
    | nil => rfl
    | node l a v r => simp at hnil
  subst ht2
  obtain ⟨h1, h2, h3, h4⟩ := hm2.nil_obs
  exact ⟨c2, by simp [ofList, e1, e2], h1, h2, h3, h4⟩

/-- Inserting 5, 3, 8, 3, 1 and erasing 3, 1, 8, 3, 5 leaves the empty container. -/
theorem C10_witness : List.Perm ([3, 1, 8, 3, 5] : List Int) [5, 3, 8, 3, 1] ∧
    ∃ c, (ofList ([5, 3, 8, 3, 1] : List Int)).bind (fun c1 => c1.eraseAll [3, 1, 8, 3, 5]) =
        some c ∧ c.size = 0 ∧ c.begin = some c.end ∧ c.to_vector = some [] ∧
      c.root_ = none :=
  ⟨by decide, C10_round_trip_to_empty [5, 3, 8, 3, 1] [3, 1, 8, 3, 5] (by decide)⟩

/-- Claim C11. For two structurally consistent containers `a` and `b` (their `size_`
fields equal their numbers of nodes), `a == b` returns a result, and the result is
`true` exactly when `a.size() == b.size()` and `a.to_vector()` equals `b.to_vector()`
element for element; `a != b` returns the negation. -/
theorem C11_equality_is_sequence_equality (a b : BinarySearchTree T) (ha : WellFormed a)
    (hb : WellFormed b) :
    ∃ xs ys, a.to_vector = some xs ∧ b.to_vector = some ys ∧
      a.operatorEq b = some (decide (a.size = b.size ∧ xs = ys)) ∧
      a.operatorNe b = some (!decide (a.size = b.size ∧ xs = ys)) ∧
      (a.operatorEq b = some true ↔
        a.size = b.size ∧ xs.length = ys.length ∧ ∀ i : Nat, xs[i]? = ys[i]?) := by
  obtain ⟨ta, hma⟩ := ha
  obtain ⟨tb, hmb⟩ := hb
  have he := hma.operatorEq hmb
  refine ⟨ta.values, tb.values, hma.to_vector_eq, hmb.to_vector_eq, he, ?_, ?_⟩
  · simp only [BinarySearchTree.operatorNe, he, Option.map_some']
  · rw [he]
    simp only [Option.some.injEq, decide_eq_true_eq]
    constructor
    · rintro ⟨h1, h2⟩
      exact ⟨h1, by rw [h2], fun i => by rw [h2]⟩
    · rintro ⟨h1, -, h3⟩
      exact ⟨h1, List.ext_getElem? h3⟩

/-- The containers built from 5, 3, 8, 3, 1 and from 4, 2, 6, 1, 3, 5, 7 are not equal,
and the first one is equal to itself. -/
theorem C11_witness : WellFormed example53831 ∧ WellFormed example4261357 ∧
    example53831.operatorEq example4261357 = some false ∧
    example53831.operatorEq example53831 = some true ∧
    ∃ xs ys, example53831.to_vector = some xs ∧ example4261357.to_vector = some ys ∧
      example53831.operatorEq example4261357 =
        some (decide (example53831.size = example4261357.size ∧ xs = ys)) ∧
      example53831.operatorNe example4261357 =
        some (!decide (example53831.size = example4261357.size ∧ xs = ys)) ∧
      (example53831.operatorEq example4261357 = some true ↔
        example53831.size = example4261357.size ∧ xs.length = ys.length ∧
          ∀ i : Nat, xs[i]? = ys[i]?) :=
  ⟨((isBST_iff _).mp example53831_reachable.isBST).1,
    ((isBST_iff _).mp example4261357_reachable.isBST).1, by decide, by decide,
    C11_equality_is_sequence_equality example53831 example4261357
      ((isBST_iff _).mp example53831_reachable.isBST).1
      ((isBST_iff _).mp example4261357_reachable.isBST).1⟩

/-- Claim C12. For every list `xs` and every permutation `ys` of it, the container built
by inserting `xs` in order into the empty container and the one built from `ys` compare
equal with `operator==` (in both directions, and `operator!=` is false). The shapes may
differ: inserting 1, 2, 3 gives a chain to the right, inserting 2, 1, 3 a root with two
children, and the two containers compare equal. -/
theorem C12_equality_ignores_shape (xs ys : List T) (hp : ys.Perm xs) :
    (∃ a b, ofList xs = some a ∧ ofList ys = some b ∧ a.operatorEq b = some true ∧
      b.operatorEq a = some true ∧ a.operatorNe b = some false) ∧
    (∃ (a b : BinarySearchTree Int) (ta tb : Tree Int),
      ofList [1, 2, 3] = some a ∧ ofList [2, 1, 3] = some b ∧ Models a ta ∧ Models b tb ∧
      ta.shape ≠ tb.shape ∧ a.operatorEq b = some true) := by
  constructor
  · obtain ⟨a, ta, ea, hma, hoa, hpa⟩ := (models_fresh (T := T)).insertAll trivial xs
    obtain ⟨b, tb, eb, hmb, hob, hpb⟩ := (models_fresh (T := T)).insertAll trivial ys
    have hperm : ta.values.Perm tb.values := by
      simp only [Tree.values, List.append_nil] at hpa hpb
      exact hpa.trans (hp.symm.trans hpb.symm)
    have hv : ta.values = tb.values := List.eq_of_perm_of_sorted hperm hoa.sorted hob.sorted
    have hs : a.size = b.size := by rw [hma.size_eq, hmb.size_eq, hv]
    have h1 := hma.operatorEq hmb
    have h2 := hmb.operatorEq hma
    rw [decide_eq_true ⟨hs, hv⟩] at h1
    rw [decide_eq_true ⟨hs.symm, hv.symm⟩] at h2
    exact ⟨a, b, ea, eb, h1, h2, by simp [BinarySearchTree.operatorNe, h1]⟩
  · refine ⟨⟨[some ⟨1, none, some 1, none⟩, some ⟨2, none, some 2, some 0⟩,
        some ⟨3, none, none, some 1⟩], some 0, 3⟩,
      ⟨[some ⟨2, some 1, some 2, none⟩, some ⟨1, none, none, some 0⟩,
        some ⟨3, none, none, some 0⟩], some 0, 3⟩,
      Tree.node Tree.nil 0 1 (Tree.node Tree.nil 1 2 (Tree.node Tree.nil 2 3 Tree.nil)),
      Tree.node (Tree.node Tree.nil 1 1 Tree.nil) 0 2 (Tree.node Tree.nil 2 3 Tree.nil),
      by decide, by decide, ⟨rfl, ?_, by decide, rfl, ?_⟩, ⟨rfl, ?_, by decide, rfl, ?_⟩,
      by simp [Tree.shape], by decide⟩
    · simp [Tree.Rep, Heap.get, Tree.ptr]
    · intro x hx
      obtain ⟨n, hn⟩ := Option.isSome_iff_exists.mp hx
      have hlt : x < 3 := Heap.lt_of_get_eq_some hn
      interval_cases x <;> simp [Tree.addrs]
    · simp [Tree.Rep, Heap.get, Tree.ptr]
    · intro x hx
      obtain ⟨n, hn⟩ := Option.isSome_iff_exists.mp hx
      have hlt : x < 3 := Heap.lt_of_get_eq_some hn
      interval_cases x <;> simp [Tree.addrs]

/-- Inserting 5, 3, 8, 3, 1 and inserting 1, 3, 3, 5, 8 give equal containers. -/
theorem C12_witness : List.Perm ([1, 3, 3, 5, 8] : List Int) [5, 3, 8, 3, 1] ∧
    (ofList ([5, 3, 8, 3, 1] : List Int)).bind
      (fun a => (ofList [1, 3, 3, 5, 8]).bind (fun b => a.operatorEq b)) = some true ∧
    ((∃ a b, ofList ([5, 3, 8, 3, 1] : List Int) = some a ∧ ofList [1, 3, 3, 5, 8] = some b ∧
      a.operatorEq b = some true ∧ b.operatorEq a = some true ∧
      a.operatorNe b = some false) ∧
    (∃ (a b : BinarySearchTree Int) (ta tb : Tree Int),
      ofList [1, 2, 3] = some a ∧ ofList [2, 1, 3] = some b ∧ Models a ta ∧ Models b tb ∧
      ta.shape ≠ tb.shape ∧ a.operatorEq b = some true)) :=
  ⟨by decide, by decide, C12_equality_ignores_shape [5, 3, 8, 3, 1] [1, 3, 3, 5, 8] (by decide)⟩

/-- The example world is what `insert` of 2, 1, 3 on object 0 and of 7 on object 1 make
of the empty world. -/
theorem exampleWorld_built :
    (((((⟨[], fun _ => none, fun _ => 0⟩ : World Int).insert 0 2).bind
      (fun w => w.insert 0 1)).bind (fun w => w.insert 0 3)).bind
      (fun w => w.insert 1 7)).map (fun w => (w.mem, w.obj 0, w.obj 1)) =
      some (exampleWorld.mem, exampleWorld.obj 0, exampleWorld.obj 1) := by
  decide

theorem exampleWorld_separate : exampleWorld.Separate 0 1
    (Tree.node (Tree.node Tree.nil 1 1 Tree.nil) 0 2 (Tree.node Tree.nil 2 3 Tree.nil))
    (Tree.node Tree.nil 3 7 Tree.nil) :=
  ⟨⟨rfl, by simp [Tree.Rep, Heap.get, Tree.ptr, exampleWorld, World.obj], by decide, rfl⟩,
    ⟨rfl, by simp [Tree.Rep, Heap.get, Tree.ptr, exampleWorld, World.obj], by decide, rfl⟩,
    by decide⟩

/-- Claim C13. Let `a` and `b` be two distinct container objects whose nodes lie in one
store, `a` holding the tree `ta` and `b` any tree of other nodes (empty or not). The copy
assignment `b = a` succeeds; afterwards `b` holds a tree of nodes of its own with the
shape and values of `ta`, `a` still holds `ta` in unchanged cells with unchanged
`root_` and `size_`, `to_vector()` and `size()` of `b` equal those of `a`, and `a == b`
is true. Every later `insert`, `erase(value)` and `erase(iterator into a)` on `a`
succeeds, and after any sequence of them `b` still holds the same tree, separate from
the tree of `a`, and `b.to_vector()` is unchanged. The same holds
for the copy constructor, which assigns to a default-initialised object `n`. The
self-assignment `a = a` leaves the whole state unchanged. -/
theorem C13_copy_equal_independent (w : World T) (a b : Nat) (hab : a ≠ b) (ta tb : Tree T)
    (hs : w.Separate a b ta tb) :
    (∃ w2 tb2, w.copyAssign b a = some w2 ∧ w2.Separate a b ta tb2 ∧ tb2.shape = ta.shape ∧
      w2.root_ a = w.root_ a ∧ w2.size_ a = w.size_ a ∧
      (∀ x ∈ ta.addrs, w2.mem.get x = w.mem.get x) ∧
      (w2.obj a).to_vector = (w.obj a).to_vector ∧
      (w2.obj b).to_vector = (w.obj a).to_vector ∧ (w2.obj b).size = (w.obj a).size ∧
      (w2.obj a).operatorEq (w2.obj b) = some true ∧
      (∀ v, ∃ w3, w2.insert a v = some w3) ∧ (∀ v, ∃ w3, w2.eraseValue a v = some w3) ∧
      (∀ it, w2.IterInto a it → ∃ w3, w2.erase a it = some w3) ∧
      (∀ w3, World.Evolves a w2 w3 →
        (∃ t3, w3.Separate a b t3 tb2) ∧ (w3.obj b).to_vector = (w2.obj b).to_vector)) ∧
    (∀ n, n ≠ a → ∃ w2 tn, w.copyConstruct n a = some w2 ∧ w2.Separate a n ta tn ∧
      tn.shape = ta.shape ∧ (w2.obj a).to_vector = (w.obj a).to_vector ∧
      (w2.obj n).to_vector = (w.obj a).to_vector ∧ (w2.obj n).size = (w.obj a).size ∧
      (w2.obj a).operatorEq (w2.obj n) = some true ∧
      (∀ w3, World.Evolves a w2 w3 →
        (∃ t3, w3.Separate a n t3 tn) ∧ (w3.obj n).to_vector = (w2.obj n).to_vector)) ∧
    w.copyAssign a a = some w := by
  have key : ∀ (u : World T) (d : Nat) (td : Tree T), a ≠ d → u.Separate a d ta td →
      u.obj a = w.obj a →
      ∃ w2 t2, u.copyAssign d a = some w2 ∧ w2.Separate a d ta t2 ∧ t2.shape = ta.shape ∧
        w2.root_ a = w.root_ a ∧ w2.size_ a = w.size_ a ∧
        (∀ x ∈ ta.addrs, w2.mem.get x = w.mem.get x) ∧
        (w2.obj a).to_vector = (w.obj a).to_vector ∧
        (w2.obj d).to_vector = (w.obj a).to_vector ∧ (w2.obj d).size = (w.obj a).size ∧
        (w2.obj a).operatorEq (w2.obj d) = some true ∧
        (∀ v, ∃ w3, w2.insert a v = some w3) ∧ (∀ v, ∃ w3, w2.eraseValue a v = some w3) ∧
        (∀ it, w2.IterInto a it → ∃ w3, w2.erase a it = some w3) ∧
        (∀ w3, World.Evolves a w2 w3 →
          (∃ t3, w3.Separate a d t3 t2) ∧
            (w3.obj d).to_vector = (w2.obj d).to_vector) := by
    intro u d td had hsu hobj
    obtain ⟨w2, t2, e, hs2, hshape, hroot, hsize, hsized, hkeep⟩ := hsu.copyAssign_sep had
    have hu : Holds (w.obj a) ta := hobj ▸ hsu.1
    have hmem : u.mem = w.mem := congrArg BinarySearchTree.mem hobj
    have hr : u.root_ a = w.root_ a := congrArg BinarySearchTree.root_ hobj
    have hz : u.size_ a = w.size_ a := congrArg BinarySearchTree.size_ hobj
    have hva : (w.obj a).to_vector = some ta.values := hu.to_vector_shared
    have hvals : t2.values = ta.values := Tree.values_of_shape_eq hshape
    have hsz : (w2.obj d).size = (w2.obj a).size := by
      simp only [BinarySearchTree.size, World.obj, hsized, hsize]
    refine ⟨w2, t2, e, hs2, hshape, hroot.trans hr, hsize.trans hz,
      fun x hx => (hkeep x hx).trans (by rw [hmem]), ?_, ?_, ?_, ?_,
      fun v => ?_, fun v => ?_, fun it hit => ?_, fun w3 hev => ?_⟩
    · rw [hs2.1.to_vector_shared, hva]
    · rw [hs2.2.1.to_vector_shared, hva, hvals]
    · simp only [BinarySearchTree.size, World.obj, hsized, hz]
    · rw [hs2.1.operatorEq_shared hs2.2.1, decide_eq_true ⟨hsz.symm, hvals.symm⟩]
    · obtain ⟨w3, -, e3, -⟩ := hs2.insert_sep had v
      exact ⟨w3, e3⟩
    · obtain ⟨w3, -, e3, -⟩ := hs2.eraseValue_sep had v
      exact ⟨w3, e3⟩
    · obtain ⟨w3, -, e3, -⟩ := hs2.erase_sep had hit
      exact ⟨w3, e3⟩
    · obtain ⟨t3, hs3⟩ := hs2.evolves had hev
      exact ⟨⟨t3, hs3⟩, by rw [hs3.2.1.to_vector_shared, hs2.2.1.to_vector_shared]⟩
  refine ⟨key w b tb hab hs rfl, fun n hn => ?_, by simp [World.copyAssign]⟩
  have hobj : (w.construct n).obj a = w.obj a := by
    simp [World.obj, World.construct, Function.update_noteq (Ne.symm hn)]
  have hsn : (w.construct n).Separate a n ta Tree.nil := by
    refine ⟨hobj ▸ hs.1, ⟨?_, trivial, by simp, ?_⟩, by simp⟩
    · simp [World.obj, World.construct]
    · simp [World.obj, World.construct]
  obtain ⟨w2, t2, e, h1, h2, -, -, -, h6, h7, h8, h9, -, -, -, h13⟩ :=
    key (w.construct n) n Tree.nil (Ne.symm hn) hsn hobj
  exact ⟨w2, t2, e, h1, h2, h6, h7, h8, h9, h13⟩

/-- In the world with object 0 built from 2, 1, 3 and object 1 built from 7, the
assignment of object 0 to object 1 followed by `insert(5)` on object 0 leaves object 1
with 1, 2, 3 and object 0 with 1, 2, 3, 5. -/
theorem C13_witness : (0 : Nat) ≠ 1 ∧
    exampleWorld.Separate 0 1
      (Tree.node (Tree.node Tree.nil 1 1 Tree.nil) 0 2 (Tree.node Tree.nil 2 3 Tree.nil))
      (Tree.node Tree.nil 3 7 Tree.nil) ∧
    (exampleWorld.copyAssign 1 0).bind (fun w2 => (w2.insert 0 5).map
      (fun w3 => ((w2.obj 1).to_vector, (w3.obj 1).to_vector, (w3.obj 0).to_vector))) =
      some (some [1, 2, 3], some [1, 2, 3], some [1, 2, 3, 5]) ∧
    ((∃ w2 tb2, exampleWorld.copyAssign 1 0 = some w2 ∧
      w2.Separate 0 1
        (Tree.node (Tree.node Tree.nil 1 1 Tree.nil) 0 2 (Tree.node Tree.nil 2 3 Tree.nil))
        tb2 ∧
      tb2.shape = (Tree.node (Tree.node Tree.nil 1 1 Tree.nil) 0 (2 : Int)
        (Tree.node Tree.nil 2 3 Tree.nil)).shape ∧
      w2.root_ 0 = exampleWorld.root_ 0 ∧ w2.size_ 0 = exampleWorld.size_ 0 ∧
      (∀ x ∈ (Tree.node (Tree.node Tree.nil 1 1 Tree.nil) 0 (2 : Int)
        (Tree.node Tree.nil 2 3 Tree.nil)).addrs, w2.mem.get x = exampleWorld.mem.get x) ∧
      (w2.obj 0).to_vector = (exampleWorld.obj 0).to_vector ∧
      (w2.obj 1).to_vector = (exampleWorld.obj 0).to_vector ∧
      (w2.obj 1).size = (exampleWorld.obj 0).size ∧
      (w2.obj 0).operatorEq (w2.obj 1) = some true ∧
      (∀ v, ∃ w3, w2.insert 0 v = some w3) ∧ (∀ v, ∃ w3, w2.eraseValue 0 v = some w3) ∧
      (∀ it, w2.IterInto 0 it → ∃ w3, w2.erase 0 it = some w3) ∧
      (∀ w3, World.Evolves 0 w2 w3 →
        (∃ t3, w3.Separate 0 1 t3 tb2) ∧ (w3.obj 1).to_vector = (w2.obj 1).to_vector)) ∧
    (∀ n, n ≠ 0 → ∃ w2 tn, exampleWorld.copyConstruct n 0 = some w2 ∧
      w2.Separate 0 n
        (Tree.node (Tree.node Tree.nil 1 1 Tree.nil) 0 2 (Tree.node Tree.nil 2 3 Tree.nil))
        tn ∧
      tn.shape = (Tree.node (Tree.node Tree.nil 1 1 Tree.nil) 0 (2 : Int)
        (Tree.node Tree.nil 2 3 Tree.nil)).shape ∧
      (w2.obj 0).to_vector = (exampleWorld.obj 0).to_vector ∧
      (w2.obj n).to_vector = (exampleWorld.obj 0).to_vector ∧
      (w2.obj n).size = (exampleWorld.obj 0).size ∧
      (w2.obj 0).operatorEq (w2.obj n) = some true ∧
      (∀ w3, World.Evolves 0 w2 w3 →
        (∃ t3, w3.Separate 0 n t3 tn) ∧ (w3.obj n).to_vector = (w2.obj n).to_vector)) ∧
    exampleWorld.copyAssign 0 0 = some exampleWorld) :=
  ⟨by decide, exampleWorld_separate, by decide,
    C13_copy_equal_independent exampleWorld 0 1 (by decide) _ _ exampleWorld_separate⟩

/-- Claim C14. Let `a` and `b` be two distinct container objects whose nodes lie in one
store, `a` holding the tree `ta` and `b` any tree of other nodes. The move assignment
`b = std::move(a)` succeeds; afterwards `b` holds a tree with the shape and values of
`ta`, so `b.to_vector()` and `b.size()` are the former `a.to_vector()` and `a.size()`,
and the source `a` is empty: `root_` is null, `begin() == end()`, `to_vector()` is empty
and `size() == 0`. The same holds for the move constructor, which assigns to a
default-initialised object `n`. -/
theorem C14_move_transfers {E : Type} (w : World E) (a b : Nat) (hab : a ≠ b)
    (ta tb : Tree E) (hs : w.Separate a b ta tb) :
    (∃ w2 tb2, w.moveAssign b a = some w2 ∧ Holds (w2.obj b) tb2 ∧ tb2.shape = ta.shape ∧
      (w.obj a).to_vector = some ta.values ∧
      (w2.obj b).to_vector = (w.obj a).to_vector ∧ (w2.obj b).size = (w.obj a).size ∧
      w2.root_ a = none ∧ (w2.obj a).begin = some (w2.obj a).end ∧
      (w2.obj a).to_vector = some [] ∧ (w2.obj a).size = 0 ∧ (w2.obj a).empty = true) ∧
    (∀ n, n ≠ a → ∃ w2 tn, w.moveConstruct n a = some w2 ∧ Holds (w2.obj n) tn ∧
      tn.shape = ta.shape ∧
      (w2.obj n).to_vector = (w.obj a).to_vector ∧ (w2.obj n).size = (w.obj a).size ∧
      w2.root_ a = none ∧ (w2.obj a).begin = some (w2.obj a).end ∧
      (w2.obj a).to_vector = some [] ∧ (w2.obj a).size = 0 ∧ (w2.obj a).empty = true) := by
  have key : ∀ (u : World E) (d : Nat) (td : Tree E), a ≠ d → u.Separate a d ta td →
      u.obj a = w.obj a →
      ∃ w2 t2, u.moveAssign d a = some w2 ∧ Holds (w2.obj d) t2 ∧ t2.shape = ta.shape ∧
        (w.obj a).to_vector = some ta.values ∧
        (w2.obj d).to_vector = (w.obj a).to_vector ∧ (w2.obj d).size = (w.obj a).size ∧
        w2.root_ a = none ∧ (w2.obj a).begin = some (w2.obj a).end ∧
        (w2.obj a).to_vector = some [] ∧ (w2.obj a).size = 0 ∧ (w2.obj a).empty = true := by
    intro u d td had hsu hobj
    obtain ⟨w2, t2, e, hs2, hshape, hsized⟩ := hsu.moveAssign_sep had
    have hu : Holds (w.obj a) ta := hobj ▸ hsu.1
    have hz : u.size_ a = w.size_ a := congrArg BinarySearchTree.size_ hobj
    have hva : (w.obj a).to_vector = some ta.values := hu.to_vector_shared
    have hvals : t2.values = ta.values := Tree.values_of_shape_eq hshape
    have hroot : w2.root_ a = none := hs2.1.root
    have hsize : w2.size_ a = 0 := by
      have := hs2.1.size
      simpa [World.obj] using this
    refine ⟨w2, t2, e, hs2.2.1, hshape, hva, ?_, ?_, hroot, ?_, ?_, hsize, ?_⟩
    · rw [hs2.2.1.to_vector_shared, hva, hvals]
    · simp only [BinarySearchTree.size, World.obj, hsized, hz]
    · rw [hs2.1.begin_shared]
      rfl
    · rw [hs2.1.to_vector_shared]
      rfl
    · simp [BinarySearchTree.empty, World.obj, hsize]
  refine ⟨key w b tb hab hs rfl, fun n hn => ?_⟩
  have hobj : (w.construct n).obj a = w.obj a := by
    simp [World.obj, World.construct, Function.update_noteq (Ne.symm hn)]
  have hsn : (w.construct n).Separate a n ta Tree.nil := by
    refine ⟨hobj ▸ hs.1, ⟨?_, trivial, by simp, ?_⟩, by simp⟩
    · simp [World.obj, World.construct]
    · simp [World.obj, World.construct]
  obtain ⟨w2, t2, e, h1, h2, -, h4, h5, h6, h7, h8, h9, h10⟩ :=
    key (w.construct n) n Tree.nil (Ne.symm hn) hsn hobj
  exact ⟨w2, t2, e, h1, h2, h4, h5, h6, h7, h8, h9, h10⟩

/-- In the world with object 0 built from 2, 1, 3 and object 1 built from 7, moving
object 0 to object 1 leaves object 1 with 1, 2, 3 and size 3, and object 0 empty. -/
theorem C14_witness : (0 : Nat) ≠ 1 ∧
    exampleWorld.Separate 0 1
      (Tree.node (Tree.node Tree.nil 1 1 Tree.nil) 0 2 (Tree.node Tree.nil 2 3 Tree.nil))
      (Tree.node Tree.nil 3 7 Tree.nil) ∧
    (exampleWorld.moveAssign 1 0).map (fun w2 => ((w2.obj 1).to_vector, (w2.obj 1).size,
      w2.root_ 0, (w2.obj 0).to_vector, (w2.obj 0).size)) =
      some (some [1, 2, 3], 3, none, some [], 0) ∧
    ((∃ w2 tb2, exampleWorld.moveAssign 1 0 = some w2 ∧ Holds (w2.obj 1) tb2 ∧
      tb2.shape = (Tree.node (Tree.node Tree.nil 1 1 Tree.nil) 0 (2 : Int)
        (Tree.node Tree.nil 2 3 Tree.nil)).shape ∧
      (exampleWorld.obj 0).to_vector = some (Tree.node (Tree.node Tree.nil 1 1 Tree.nil) 0
        (2 : Int) (Tree.node Tree.nil 2 3 Tree.nil)).values ∧
      (w2.obj 1).to_vector = (exampleWorld.obj 0).to_vector ∧
      (w2.obj 1).size = (exampleWorld.obj 0).size ∧
      w2.root_ 0 = none ∧ (w2.obj 0).begin = some (w2.obj 0).end ∧
      (w2.obj 0).to_vector = some [] ∧ (w2.obj 0).size = 0 ∧ (w2.obj 0).empty = true) ∧
    (∀ n, n ≠ 0 → ∃ w2 tn, exampleWorld.moveConstruct n 0 = some w2 ∧ Holds (w2.obj n) tn ∧
      tn.shape = (Tree.node (Tree.node Tree.nil 1 1 Tree.nil) 0 (2 : Int)
        (Tree.node Tree.nil 2 3 Tree.nil)).shape ∧
      (w2.obj n).to_vector = (exampleWorld.obj 0).to_vector ∧
      (w2.obj n).size = (exampleWorld.obj 0).size ∧
      w2.root_ 0 = none ∧ (w2.obj 0).begin = some (w2.obj 0).end ∧
      (w2.obj 0).to_vector = some [] ∧ (w2.obj 0).size = 0 ∧ (w2.obj 0).empty = true)) :=
  ⟨by decide, exampleWorld_separate, by decide,
    C14_move_transfers exampleWorld 0 1 (by decide) _ _ exampleWorld_separate⟩

/-- Claim C15. In a structurally consistent container, for an iterator at a live node
`a`: `++it` returns an iterator `it2` and `--it2` is again the iterator at `a`. The
container has a last position `n` (with `size() == n + 1`), reached from `begin()` by
`n` increments; one more increment gives `end()`, and `--end()` is that last position. -/
theorem C15_iterator_symmetry {E : Type} (c : BinarySearchTree E) (hwf : WellFormed c) (a : Nat)
    (hlive : (c.mem.get a).isSome) :
    (∃ it2, c.incr ⟨some a⟩ = some it2 ∧ c.decr it2 = some ⟨some a⟩) ∧
    (∃ (n last : Nat), c.size = (n : Int) + 1 ∧ c.iterAt n = some ⟨some last⟩ ∧
      c.incr ⟨some last⟩ = some c.end ∧ c.iterAt (n + 1) = some c.end ∧
      c.decr c.end = some ⟨some last⟩) := by
  obtain ⟨t, hm⟩ := hwf
  have ha : a ∈ t.addrs := hm.live a hlive
  constructor
  · obtain ⟨k, hk, hak⟩ := List.getElem_of_mem ha
    have hk2 : k < t.elems.length := by
      simpa [Tree.addrs_eq_map] using hk
    have hfst : t.elems[k].1 = a := by
      simpa [Tree.addrs_eq_map] using hak
    have he : t.elems = t.elems.take k ++ (a, t.elems[k].2) :: t.elems.drop (k + 1) := by
      rw [← hfst, Prod.mk.eta, List.getElem_cons_drop, List.take_append_drop]
    obtain ⟨hinc, -⟩ := hm.at_split he
    refine ⟨_, hinc, ?_⟩
    cases hpost : t.elems.drop (k + 1) with
    | nil =>
      rw [hpost] at he
      have hadr : t.addrs = (t.elems.take k).map Prod.fst ++ [a] := by
        rw [Tree.addrs_eq_map]
        conv_lhs => rw [he]
        simp
      have := hm.decr_end
      simp only [BinarySearchTree.end] at this
      rw [List.map_nil, List.head?_nil, this, hadr]
      simp [List.getLast?_append]
    | cons e post =>
      obtain ⟨b, w⟩ := e
      rw [hpost] at he
      have he2 : t.elems = (t.elems.take k ++ [(a, t.elems[k].2)]) ++ (b, w) :: post := by
        rw [List.append_assoc]; exact he
      have := hm.decr_at_split he2
      rw [List.map_cons, List.head?_cons, this]
      simp [List.getLast?_append]
  · have hpos : 0 < t.addrs.length := List.length_pos_of_mem ha
    obtain ⟨n, hn⟩ : ∃ n, t.addrs.length = n + 1 := ⟨t.addrs.length - 1, by omega⟩
    have hlast : t.addrs.getLast? = some (t.addrs[n]) := by
      rw [List.getLast?_eq_getElem?]
      simp [hn]
    have hn2 : n < t.elems.length := by
      simp only [Tree.addrs_eq_map, List.length_map] at hn
      omega
    have he : t.elems = t.elems.take n ++ (t.addrs[n], t.elems[n].2) :: [] := by
      have h1 : t.elems.drop (n + 1) = [] := by
        apply List.drop_eq_nil_of_le
        simp only [Tree.addrs_eq_map, List.length_map] at hn
        omega
      have h2 : t.addrs[n] = t.elems[n].1 := by simp [Tree.addrs_eq_map]
      rw [h2, Prod.mk.eta, ← h1, List.getElem_cons_drop, List.take_append_drop]
    obtain ⟨hinc, -⟩ := hm.at_split he
    have hend : c.iterAt (n + 1) = some c.end := by
      rw [hm.iterAt_eq (by omega), List.getElem?_eq_none (by omega)]
      rfl
    refine ⟨n, t.addrs[n], ?_, ?_, hinc, hend, ?_⟩
    · rw [hm.size_eq, Tree.length_values, hn]
      push_cast
      rfl
    · rw [hm.iterAt_eq (by omega), List.getElem?_eq_getElem (by omega)]
    · rw [hm.decr_end, hlast]

/-- In the container built from 5, 3, 8, 3, 1, incrementing and decrementing at the
root (address 0) returns to the root; the last position holds 8. -/
theorem C15_witness : WellFormed example53831 ∧ (example53831.mem.get 0).isSome ∧
    (example53831.incr ⟨some 0⟩).bind example53831.decr = some ⟨some 0⟩ ∧
    (example53831.decr example53831.end).bind example53831.deref = some 8 ∧
    ((∃ it2, example53831.incr ⟨some 0⟩ = some it2 ∧
      example53831.decr it2 = some ⟨some 0⟩) ∧
    (∃ (n last : Nat), example53831.size = (n : Int) + 1 ∧
      example53831.iterAt n = some ⟨some last⟩ ∧
      example53831.incr ⟨some last⟩ = some example53831.end ∧
      example53831.iterAt (n + 1) = some example53831.end ∧
      example53831.decr example53831.end = some ⟨some last⟩)) :=
  ⟨((isBST_iff _).mp example53831_reachable.isBST).1, by decide, by decide, by decide,
    C15_iterator_symmetry example53831 ((isBST_iff _).mp example53831_reachable.isBST).1 0
      (by decide)⟩

/-- Claim C16. In a reachable container in which `count(v)` is `k` with `k >= 1`:
`erase(v)` succeeds, the new `count(v)` is `k - 1`, and `count(w)` is unchanged for every
`w` different from `v`. For every `j <= k`, `j` successive calls of `erase(v)` succeed and
leave `count(v) == k - j`; as long as `j < k` the value is still found, and after exactly
`k` calls `count(v) == 0` and `find(v) == end()`. -/
theorem C16_erase_lowers_count (c : BinarySearchTree T) (h : Reachable c) (v : T) (k : Nat)
    (hk : c.count v = some (k : Int)) (hpos : 1 ≤ k) :
    (∃ c2, c.eraseValue v = some c2 ∧ c2.count v = some ((k : Int) - 1) ∧
      ∀ w, w ≠ v → c2.count w = c.count w) ∧
    (∀ j, j ≤ k → ∃ cj, c.eraseTimes v j = some cj ∧ cj.count v = some ((k : Int) - j) ∧
      (j < k → cj.find v ≠ some cj.end)) ∧
    (∃ c3, c.eraseTimes v k = some c3 ∧ c3.count v = some 0 ∧ c3.find v = some c3.end) := by
  obtain ⟨t, hm, ho⟩ := h.isBST
  have hkt : t.values.count v = k := by
    rw [hm.count_eq, Tree.countT_eq ho] at hk
    exact_mod_cast Option.some.inj hk
  have key : ∀ j, j ≤ k → ∃ cj, c.eraseTimes v j = some cj ∧
      cj.count v = some ((k : Int) - j) ∧ (∀ w, w ≠ v → cj.count w = c.count w) ∧
      (j < k → cj.find v ≠ some cj.end) ∧ (j = k → cj.find v = some cj.end) := by
    intro j hj
    obtain ⟨cj, tj, ej, hmj, hoj, hcj, hwj⟩ := hm.eraseTimes ho v j (by omega)
    refine ⟨cj, ej, ?_, ?_, ?_, ?_⟩
    · rw [hmj.count_eq, Tree.countT_eq hoj, hcj, hkt]
      push_cast [hj]
      rfl
    · intro w hw
      rw [hmj.count_eq, hm.count_eq, Tree.countT_eq hoj, Tree.countT_eq ho, hwj w hw]
    · intro hlt
      have hmem : v ∈ tj.values := List.count_pos_iff.mp (by omega)
      rw [hmj.find_eq]
      intro hf
      simp only [BinarySearchTree.end, Option.some.injEq, ConstIterator.mk.injEq] at hf
      exact (Tree.findT_eq_none_iff hoj v).mp hf hmem
    · intro hjk
      have hnot : v ∉ tj.values := List.count_eq_zero.mp (by omega)
      rw [hmj.find_eq, (Tree.findT_eq_none_iff hoj v).mpr hnot]
      rfl
  refine ⟨?_, ?_, ?_⟩
  · obtain ⟨c1, e1, hc1, hw1, -, -⟩ := key 1 hpos
    simp only [BinarySearchTree.eraseTimes, Option.bind_eq_some] at e1
    obtain ⟨c2, e2, e3⟩ := e1
    cases e3
    exact ⟨_, e2, by simpa using hc1, hw1⟩
  · intro j hj
    obtain ⟨cj, ej, hcj, -, hlt, -⟩ := key j hj
    exact ⟨cj, ej, hcj, hlt⟩
  · obtain ⟨c3, e3, hc3, -, -, hend⟩ := key k (le_refl _)
    exact ⟨c3, e3, by simpa using hc3, hend rfl⟩

/-- In the container built from 5, 3, 8, 3, 1 the value 3 has count 2; one `erase(3)`
leaves count 1 and two leave count 0. -/
theorem C16_witness : Reachable example53831 ∧ example53831.count 3 = some 2 ∧
    (example53831.eraseTimes 3 1).bind (fun c => c.count 3) = some 1 ∧
    (example53831.eraseTimes 3 2).bind (fun c => c.count 3) = some 0 ∧
    ((∃ c2, example53831.eraseValue 3 = some c2 ∧ c2.count 3 = some (((2 : Nat) : Int) - 1) ∧
      ∀ w, w ≠ 3 → c2.count w = example53831.count w) ∧
    (∀ j, j ≤ 2 → ∃ cj, example53831.eraseTimes 3 j = some cj ∧
      cj.count 3 = some (((2 : Nat) : Int) - j) ∧ (j < 2 → cj.find 3 ≠ some cj.end)) ∧
    (∃ c3, example53831.eraseTimes 3 2 = some c3 ∧ c3.count 3 = some 0 ∧
      c3.find 3 = some c3.end)) :=
  ⟨example53831_reachable, by decide, by decide, by decide,
    C16_erase_lowers_count example53831 example53831_reachable 3 2 (by decide) (by decide)⟩

/-- Claim C17. In a structurally consistent container with `n` nodes, the values that
`to_vector()` collects with `begin()` and `operator++` are the recursive in-order
listing (left subtree, node, right subtree) of the tree, of length `n`. The positions
reached from `begin()` by `k < n` increments are at `n` distinct live nodes and hold the
`k`-th value of the listing, and `n` increments reach `end()`. From every live node, at
in-order position `k`, `n - k` increments reach `end()`. -/
theorem C17_iterator_is_inorder {E : Type} (c : BinarySearchTree E) (hwf : WellFormed c) :
    ∃ (n : Nat) (xs : List E), c.nodeCount = some n ∧ xs.length = n ∧
      inorderListing c.fuel c.mem c.root_ = some xs ∧ c.to_vector = some xs ∧
      (∀ k, k < n → ∃ a, c.iterAt k = some ⟨some a⟩ ∧ (c.mem.get a).isSome ∧
        c.deref ⟨some a⟩ = xs[k]?) ∧
      (∀ j k, j < k → k < n → c.iterAt j ≠ c.iterAt k) ∧
      c.iterAt n = some c.end ∧
      (∀ a, (c.mem.get a).isSome → ∃ k, k < n ∧ c.iterAt k = some ⟨some a⟩ ∧
        c.incrTimes ⟨some a⟩ (n - k) = some c.end) := by
  obtain ⟨t, hm⟩ := hwf
  have hlen : t.elems.length = t.addrs.length := by simp [Tree.addrs_eq_map]
  have hat : ∀ k (hk : k < t.addrs.length), (c.mem.get (t.addrs[k])).isSome ∧
      c.deref ⟨some (t.addrs[k])⟩ = t.values[k]? := by
    intro k hk
    have hk2 : k < t.elems.length := by omega
    have hfst : t.elems[k].1 = t.addrs[k] := by simp [Tree.addrs_eq_map]
    have he : t.elems = t.elems.take k ++ (t.addrs[k], t.elems[k].2) :: t.elems.drop (k + 1) := by
      rw [← hfst, Prod.mk.eta, List.getElem_cons_drop, List.take_append_drop]
    obtain ⟨-, hderef⟩ := hm.at_split he
    have hvk : t.values[k]? = some t.elems[k].2 := by
      simp [Tree.values_eq_map, List.getElem?_eq_getElem hk2]
    refine ⟨?_, by rw [hderef, hvk]⟩
    simp only [BinarySearchTree.deref] at hderef
    cases hg : c.mem.get (t.addrs[k]) with
    | none => rw [hg] at hderef; simp at hderef
    | some n => rfl
  refine ⟨t.addrs.length, t.values, hm.nodeCount_eq, Tree.length_values t, ?_,
    hm.to_vector_eq, ?_, ?_, ?_, ?_⟩
  · rw [hm.root]
    exact inorderListing_eq hm.rep hm.height_lt_fuel
  · intro k hk
    refine ⟨t.addrs[k], ?_, (hat k hk).1, (hat k hk).2⟩
    rw [hm.iterAt_eq (le_of_lt hk), List.getElem?_eq_getElem hk]
  · intro j k hjk hk heq
    rw [hm.iterAt_eq (by omega), hm.iterAt_eq (by omega),
      List.getElem?_eq_getElem (by omega), List.getElem?_eq_getElem hk] at heq
    simp only [Option.some.injEq, ConstIterator.mk.injEq] at heq
    have := (List.Nodup.getElem_inj_iff hm.nodup).mp heq
    omega
  · rw [hm.iterAt_eq (le_refl _), List.getElem?_eq_none (le_refl _)]
    rfl
  · intro a hlive
    have ha : a ∈ t.addrs := hm.live a hlive
    obtain ⟨k, hk, hak⟩ := List.getElem_of_mem ha
    refine ⟨k, hk, ?_, ?_⟩
    · rw [hm.iterAt_eq (le_of_lt hk), List.getElem?_eq_getElem hk, hak]
    · have := hm.incrTimes_eq (k := k) (j := t.addrs.length - k) (by omega)
      rw [List.getElem?_eq_getElem hk, hak] at this
      rw [this, List.getElem?_eq_none (by omega)]
      rfl

/-- In the container built from 4, 2, 6, 1, 3, 5, 7 the iterator visits
1, 2, 3, 4, 5, 6, 7, which is the recursive in-order listing. -/
theorem C17_witness : WellFormed example4261357 ∧
    example4261357.to_vector = some [1, 2, 3, 4, 5, 6, 7] ∧
    inorderListing example4261357.fuel example4261357.mem example4261357.root_ =
      some [1, 2, 3, 4, 5, 6, 7] ∧
    ∃ (n : Nat) (xs : List Int), example4261357.nodeCount = some n ∧ xs.length = n ∧
      inorderListing example4261357.fuel example4261357.mem example4261357.root_ = some xs ∧
      example4261357.to_vector = some xs ∧
      (∀ k, k < n → ∃ a, example4261357.iterAt k = some ⟨some a⟩ ∧
        (example4261357.mem.get a).isSome ∧ example4261357.deref ⟨some a⟩ = xs[k]?) ∧
      (∀ j k, j < k → k < n → example4261357.iterAt j ≠ example4261357.iterAt k) ∧
      example4261357.iterAt n = some example4261357.end ∧
      (∀ a, (example4261357.mem.get a).isSome → ∃ k, k < n ∧
        example4261357.iterAt k = some ⟨some a⟩ ∧
        example4261357.incrTimes ⟨some a⟩ (n - k) = some example4261357.end) :=
  ⟨((isBST_iff _).mp example4261357_reachable.isBST).1, by decide, by decide,
    C17_iterator_is_inorder example4261357
      ((isBST_iff _).mp example4261357_reachable.isBST).1⟩

/-- Claim C18. In a structurally consistent container let `x` be a live node with both
children. Then the tree is `ctx[node l x v (cr[node nil s sv sr])]`: `l` is the left
subtree of `x`, and `s`, found by the loop `while (next->left_ != nullptr)` from the
right child of `x`, is the leftmost node of the right subtree (its context `cr` has
only left steps, and `cr` is empty exactly when `s` is the right child of `x`). The call
`erase` at `x` succeeds and the tree becomes `ctx[node l s sv (cr[sr])]`: `s` is in the
place of `x` (same context, so same parent and side, or root), its left subtree is `l`
unchanged, its right subtree is the former right subtree with `sr` in the place of `s`,
nothing else changes, and the cell of `x` is freed. In the store: the cell of `s` gets
the `left_` and `parent_` of `x`, and as `right_` its own former `right_` when it was
the right child of `x` and the former `right_` of `x` otherwise; `root_` is `s` if it
was `x` and is unchanged otherwise; and the parent of `x`, if any, points to `s` through
the field through which it pointed to `x`. -/
theorem C18_two_children_splice {E : Type} (c : BinarySearchTree E) (hwf : WellFormed c)
    (x : Nat) (n : TreeNode E) (hx : c.mem.get x = some n) (hl : n.left_ ≠ none)
    (hr : n.right_ ≠ none) :
    ∃ (ctx : Ctx E) (l : Tree E) (cr : Ctx E) (s : Nat) (sv : E) (sr : Tree E)
        (c2 : BinarySearchTree E) (rp : Nat),
      Models c (Ctx.plug ctx
        (Tree.node l x n.value_ (Ctx.plug cr (Tree.node Tree.nil s sv sr)))) ∧
      l.ptr = n.left_ ∧ Ctx.AllL cr ∧ n.right_ = some rp ∧
      descendLeft c.fuel c.mem rp = some s ∧ (cr = [] ↔ rp = s) ∧
      c.erase ⟨some x⟩ = some c2 ∧
      Models c2 (Ctx.plug ctx (Tree.node l s sv (Ctx.plug cr sr))) ∧
      c2.mem.get x = none ∧
      (∃ sn, c.mem.get s = some sn ∧ sn.left_ = none ∧
        c2.mem.get s = some ⟨sn.value_, n.left_, if rp = s then sn.right_ else some rp,
          n.parent_⟩) ∧
      c2.root_ = (if c.root_ = some x then some s else c.root_) ∧
      (∀ p, n.parent_ = some p → ∃ pn, c.mem.get p = some pn ∧
        ((pn.left_ = some x ∧ pn.right_ ≠ some x ∧
            c2.mem.get p = some ⟨pn.value_, some s, pn.right_, pn.parent_⟩) ∨
          (pn.right_ = some x ∧ pn.left_ ≠ some x ∧
            c2.mem.get p = some ⟨pn.value_, pn.left_, some s, pn.parent_⟩))) := by
  obtain ⟨t, hm⟩ := hwf
  obtain ⟨ctx, l, cr, s, sv, sr, c2, rp, ht, h1, h2, h3, h4, h5, h6, h7, h8⟩ :=
    hm.erase_two_children hx hl hr
  subst ht
  obtain ⟨⟨sn, q, hs1, hs2, hs3, hs4, hq1, hq2⟩, hroot, hpar⟩ := hm.splice_cells h7
  obtain ⟨hA, -⟩ := hm.pieces
  rw [hx, Option.some.injEq] at hA
  have hnp : n.parent_ = Ctx.par ctx none := by rw [hA]
  have hnr : n.right_ = (Ctx.plug cr (Tree.node Tree.nil s sv sr)).ptr := by rw [hA]
  refine ⟨ctx, l, cr, s, sv, sr, c2, rp, hm, h1, h2, h3, h4, h5, h6, h7, h8,
    ⟨sn, hs1, hs3, ?_⟩, hroot, fun p hp => hpar p (hnp ▸ hp)⟩
  rw [hs4, hs2, h1, hnp]
  by_cases hc : rp = s
  · rw [if_pos hc, hq1 (h5.mpr hc)]
  · rw [if_neg hc, hq2 (fun e => hc (h5.mp e)), ← hnr, h3]

/-- Erasing the root 4 (address 0) of the container built from 4, 2, 6, 1, 3, 5, 7: the
successor 5 (address 5) becomes the root, with the children 2 (address 1) and 6
(address 2). -/
theorem C18_witness : WellFormed example4261357 ∧
    example4261357.mem.get 0 = some ⟨4, some 1, some 2, none⟩ ∧
    (example4261357.erase ⟨some 0⟩).map (fun c => (c.root_, c.mem.get 5, c.mem.get 2)) =
      some (some 5, some ⟨5, some 1, some 2, none⟩, some ⟨6, none, some 6, some 5⟩) ∧
    ∃ (ctx : Ctx Int) (l : Tree Int) (cr : Ctx Int) (s : Nat) (sv : Int) (sr : Tree Int)
        (c2 : BinarySearchTree Int) (rp : Nat),
      Models example4261357 (Ctx.plug ctx
        (Tree.node l 0 (4 : Int) (Ctx.plug cr (Tree.node Tree.nil s sv sr)))) ∧
      l.ptr = some 1 ∧ Ctx.AllL cr ∧ some 2 = some rp ∧
      descendLeft example4261357.fuel example4261357.mem rp = some s ∧ (cr = [] ↔ rp = s) ∧
      example4261357.erase ⟨some 0⟩ = some c2 ∧
      Models c2 (Ctx.plug ctx (Tree.node l s sv (Ctx.plug cr sr))) ∧
      c2.mem.get 0 = none ∧
      (∃ sn, example4261357.mem.get s = some sn ∧ sn.left_ = none ∧
        c2.mem.get s = some ⟨sn.value_, some 1, if rp = s then sn.right_ else some rp,
          none⟩) ∧
      c2.root_ = (if example4261357.root_ = some 0 then some s else example4261357.root_) ∧
      (∀ p, (none : Option Nat) = some p → ∃ pn, example4261357.mem.get p = some pn ∧
        ((pn.left_ = some 0 ∧ pn.right_ ≠ some 0 ∧
            c2.mem.get p = some ⟨pn.value_, some s, pn.right_, pn.parent_⟩) ∨
          (pn.right_ = some 0 ∧ pn.left_ ≠ some 0 ∧
            c2.mem.get p = some ⟨pn.value_, pn.left_, some s, pn.parent_⟩))) :=
  ⟨((isBST_iff _).mp example4261357_reachable.isBST).1, by decide, by decide,
    C18_two_children_splice example4261357
      ((isBST_iff _).mp example4261357_reachable.isBST).1 0 ⟨4, some 1, some 2, none⟩
      (by decide) (by decide) (by decide)⟩

/-- Claim C19. In every container reached from the empty one by `insert`, `emplace`,
`erase(value)`, `erase(iterator)` (at `end()` or a live node), copy assignment and move
assignment, the parent links are consistent: the root has no parent; every other live
node has a live parent that points to it through exactly one of `left_` and `right_`;
and every child pointer of a live node leads to a live node whose `parent_` points
back. -/
theorem C19_parent_links_preserved (c : BinarySearchTree T) (h : Reachable c) :
    ParentLinks c := by
  obtain ⟨t, hm, -⟩ := h.isBST
  exact hm.parentLinks

/-- The parent links of the container built from 5, 3, 8, 3, 1. -/
theorem C19_witness : Reachable example53831 ∧ ParentLinks example53831 :=
  ⟨example53831_reachable, C19_parent_links_preserved example53831 example53831_reachable⟩

/-- Claim C20. In a structurally consistent container with the BST invariant in which
`v` occurs: `find(v)` returns the node at an in-order position `k` that holds `v`, every
element before position `k` is strictly less than `v`, `count(v)` is some `m >= 1`, the
`m` elements from position `k` on are all equal to `v` and every later element is
greater than `v`; and `erase(v)` removes the element at position `k`, the earliest
occurrence. -/
theorem C20_find_first_duplicate (c : BinarySearchTree T) (hwf : WellFormed c)
    (hinv : BSTInvariant c) (v : T) (xs : List T) (hx : c.to_vector = some xs)
    (hv : v ∈ xs) :
    ∃ (a k m : Nat) (c2 : BinarySearchTree T), c.find v = some ⟨some a⟩ ∧
      c.iterAt k = some ⟨some a⟩ ∧ k < xs.length ∧ xs[k]? = some v ∧
      c.deref ⟨some a⟩ = some v ∧ (∀ x ∈ xs.take k, x < v) ∧
      c.count v = some (m : Int) ∧ 1 ≤ m ∧ (xs.drop k).take m = List.replicate m v ∧
      (∀ x ∈ xs.drop (k + m), v < x) ∧
      c.eraseValue v = some c2 ∧ c2.to_vector = some (xs.eraseIdx k) := by
  obtain ⟨t, hm, ho⟩ := (isBST_iff c).mpr ⟨hwf, hinv⟩
  rw [hm.to_vector_eq, Option.some.injEq] at hx
  subst hx
  obtain ⟨a, k, h1, h2, h3, h4, h5, h6, h7, h8⟩ := hm.find_first ho hv
  obtain ⟨c2, t2, e, hm2, -, hv2, -⟩ := hm.eraseValue ho v
  have hderef : c.deref ⟨some a⟩ = some v := by
    have hf : t.findT v = some a := by
      have := hm.find_eq v
      rw [h1] at this
      simpa using this.symm
    obtain ⟨pre, post, he, -⟩ := Tree.findT_eq_some ho hf
    exact (hm.at_split he).2
  refine ⟨a, k, t.values.count v, c2, h1, h2, h3, h4, hderef, h5, ?_,
    List.count_pos_iff.mpr hv, h6, h7, e, by rw [hm2.to_vector_eq, hv2, h8]⟩
  rw [hm.count_eq, Tree.countT_eq ho]

/-- In the container built from 5, 3, 8, 3, 1 (in-order 1, 3, 3, 5, 8) `find(3)` is the
node at position 1, and `erase(3)` leaves 1, 3, 5, 8. -/
theorem C20_witness : WellFormed example53831 ∧ BSTInvariant example53831 ∧
    example53831.to_vector = some [1, 3, 3, 5, 8] ∧
    example53831.find 3 = example53831.iterAt 1 ∧
    ∃ (a k m : Nat) (c2 : BinarySearchTree Int), example53831.find 3 = some ⟨some a⟩ ∧
      example53831.iterAt k = some ⟨some a⟩ ∧ k < ([1, 3, 3, 5, 8] : List Int).length ∧
      ([1, 3, 3, 5, 8] : List Int)[k]? = some 3 ∧
      example53831.deref ⟨some a⟩ = some 3 ∧
      (∀ x ∈ ([1, 3, 3, 5, 8] : List Int).take k, x < 3) ∧
      example53831.count 3 = some (m : Int) ∧ 1 ≤ m ∧
      (([1, 3, 3, 5, 8] : List Int).drop k).take m = List.replicate m 3 ∧
      (∀ x ∈ ([1, 3, 3, 5, 8] : List Int).drop (k + m), 3 < x) ∧
      example53831.eraseValue 3 = some c2 ∧
      c2.to_vector = some (([1, 3, 3, 5, 8] : List Int).eraseIdx k) :=
  ⟨((isBST_iff _).mp example53831_reachable.isBST).1,
    ((isBST_iff _).mp example53831_reachable.isBST).2, by decide, by decide,
    C20_find_first_duplicate example53831 ((isBST_iff _).mp example53831_reachable.isBST).1
      ((isBST_iff _).mp example53831_reachable.isBST).2 3 [1, 3, 3, 5, 8] (by decide)
      (by decide)⟩

end Claims

end BST
